import Mathlib

/-! LibreCAD `RS_MText` rich-text layout: a verification development.

Shallow embedding of `librecad/src/lib/engine/rs_mtext.cpp` (and `rs_mtext.h`).

Conventions of the embedding:

* a `QString` is a list of characters, one per `QChar`;
* C++ `int` values are `Int`, `unsigned int` values are `Nat`, and the
  conversions between them are the explicit functions `toUInt` / `toInt32`;
* `double` values are exact rationals (`ℚ`): rounding is not modelled;
* loops and recursion that need not terminate take a fuel argument and
  return `Except Fault _`: `Fault.fuel` means the fuel ran out,
  `Fault.undefined` means the C++ code reached undefined behaviour
  (a wild pointer, an empty `takeLast`, a wrong down-cast).
-/

namespace MText

/-! ## Strings -/

/-- A `QString`: the sequence of its `QChar`s. -/
abbrev QString := List Char

/-- The null `QChar`. -/
def NUL : Char := Char.ofNat 0

/-- Conversion of a C++ `int` to `unsigned int`. -/
def toUInt (n : Int) : Nat := (n % 4294967296).toNat

/-- Conversion of a C++ `unsigned int` to `int` (two's complement). -/
def toInt32 (n : Nat) : Int :=
  if n % 4294967296 < 2147483648 then ((n % 4294967296 : Nat) : Int)
  else ((n % 4294967296 : Nat) : Int) - 4294967296

/-- Indexing `s[i]` of a non-const `QString`: the `QCharRef` reads as `QChar(0)` at and
beyond the end of the string.  (A negative index is never read by the code modelled with
this function.) -/
def charAt (s : QString) (i : Int) : Char :=
  if i < 0 then NUL else s.getD i.toNat NUL

/-- `QChar::toLatin1`. -/
def toLatin1 (c : Char) : Char := if c.toNat > 255 then NUL else c

/-- `QChar::isSpace`: U+0020, U+0009..U+000D, U+0085, U+00A0 and the Unicode separators. -/
def isSpace (c : Char) : Bool :=
  let u := c.toNat
  u == 0x20 || (0x09 ≤ u && u ≤ 0x0d) || u == 0x85 || u == 0xa0 || u == 0x1680
    || (0x2000 ≤ u && u ≤ 0x200a) || u == 0x2028 || u == 0x2029 || u == 0x202f
    || u == 0x205f || u == 0x3000

/-- First position `i + k` of a character satisfying `p` in `s`, where `i` is the position of
the head of `s`; `-1` when there is none. -/
def findIdx (p : Char → Bool) : QString → Int → Int
  | [], _ => -1
  | c :: cs, i => if p c then i else findIdx p cs (i + 1)

/-- Start position used by `QString::indexOf` for a `from` argument. -/
def clampFrom (s : QString) (start : Int) : Nat :=
  if start < 0 then (max (start + s.length) 0).toNat else start.toNat

/-- `QString::indexOf(QChar ch, int from)`. -/
def indexOfChar (s : QString) (c : Char) (start : Int) : Int :=
  findIdx (fun d => d == c) (s.drop (clampFrom s start)) (clampFrom s start)

/-- First position at which `pat` is a leading part of the remaining string. -/
def findStr (pat : QString) : QString → Int → Int
  | [], i => if pat.isEmpty then i else -1
  | c :: cs, i => if pat.isPrefixOf (c :: cs) then i else findStr pat cs (i + 1)

/-- `QString::indexOf(const QString &str, int from)`. -/
def indexOfStr (s : QString) (pat : QString) (start : Int) : Int :=
  if clampFrom s start > s.length then -1
  else findStr pat (s.drop (clampFrom s start)) (clampFrom s start)

/-- The test `QString(set).indexOf(c) != -1`. -/
def inSet (set : String) (c : Char) : Bool := indexOfChar set.toList c 0 != -1

/-- `QString::mid(int position, int n)`. -/
def mid (s : QString) (position : Int) (n : Int) : QString :=
  if position > s.length then []
  else if position < 0 then
    if n < 0 ∨ n + position ≥ s.length then s
    else if n + position ≤ 0 then []
    else s.take (n + position).toNat
  else if n < 0 ∨ n > s.length - position then s.drop position.toNat
  else (s.drop position.toNat).take n.toNat

/-- `QString::mid(int position)`: to the end of the string. -/
def midFrom (s : QString) (position : Int) : QString := mid s position (-1)

/-- `QString::left(int n)`: the whole string when `n` is negative or not less than the size. -/
def left (s : QString) (n : Int) : QString :=
  if n < 0 ∨ n ≥ s.length then s else s.take n.toNat

/-- `QString::right(int n)`: the whole string when `n` is negative or not less than the size. -/
def right (s : QString) (n : Int) : QString :=
  if n < 0 ∨ n ≥ s.length then s else s.drop (s.length - n.toNat)

/-- `QString::resize(int size)`: truncates, or extends; Qt leaves the added characters
uninitialised, the model fills them with `QChar(0)`. -/
def resize (s : QString) (size : Nat) : QString :=
  s.take size ++ List.replicate (size - s.length) NUL

/-! ## Outcomes of possibly non-terminating code -/

/-- Why a run of the modelled code produced no result. -/
inductive Fault where
  /-- The fuel of the model ran out. -/
  | fuel
  /-- The C++ code reached undefined behaviour. -/
  | undefined
deriving DecidableEq, Repr

instance instDecidableEqExcept {ε α : Type} [DecidableEq ε] [DecidableEq α] :
    DecidableEq (Except ε α)
  | .ok a, .ok b => if h : a = b then isTrue (by rw [h]) else isFalse (by intro e; cases e; exact h rfl)
  | .error a, .error b =>
    if h : a = b then isTrue (by rw [h]) else isFalse (by intro e; cases e; exact h rfl)
  | .ok _, .error _ => isFalse (by intro e; cases e)
  | .error _, .ok _ => isFalse (by intro e; cases e)

/-! ## `RS_MText::getSecnStarts` -/

/-- Local state of the scan loop of `getSecnStarts`. -/
structure SecnState where
  /-- The scan position `n`. -/
  n : Int
  /-- Whether the scan is inside a code section. -/
  isCodeSecn : Bool
  /-- The boundary list built so far. -/
  vecStarts : List Nat
deriving DecidableEq, Repr

/-- The inner loop `while (!data.text[n2].isSpace() && (n2 > 0)) --n2;`. -/
def backToSpace (text : QString) : Nat → Nat
  | 0 => 0
  | n2 + 1 => if !isSpace (charAt text ((n2 + 1 : Nat) : Int)) then backToSpace text n2 else n2 + 1

/-- `vecStarts.insert(vecStarts.end() - 1, v)`. -/
def insertBeforeLast (l : List Nat) (v : Nat) : List Nat :=
  l.dropLast ++ v :: l.drop (l.length - 1)

/-- The retroactive split made in front of a stacking code (the body of
`if (vecStarts.size() > 2)` in the `'S'` branch). -/
def stackSplit (text : QString) (vecStarts : List Nat) : List Nat :=
  if vecStarts.length > 2 then
    let n2 := backToSpace text (vecStarts.getLastD 0)
    if n2 ≥ vecStarts.getD (vecStarts.length - 2) 0 then
      if n2 + 1 < vecStarts.getLastD 0 then
        insertBeforeLast (insertBeforeLast vecStarts (n2 + 1)) (n2 + 1)
      else vecStarts
    else vecStarts
  else vecStarts

/-- Push on the boundary list when the section kind changes to `code`. -/
def switchTo (code : Bool) (st : SecnState) : SecnState :=
  if st.isCodeSecn != code then
    { st with vecStarts := st.vecStarts ++ [toUInt st.n], isCodeSecn := code }
  else st

/-- One pass through the body of `while (n < data.text.length())`, the final `n++` included. -/
def secnStep (text : QString) (st : SecnState) : SecnState :=
  let c := toLatin1 (charAt text st.n)
  if c = '\\' then
    if inSet "\\\x7b\x7d~" (charAt text (st.n + 1)) then
      let st1 := switchTo false st
      { st1 with n := st1.n + 1 + 1 }
    else
      let st1 := switchTo true st
      let n := st1.n + 1
      if inSet "OLKolk" (charAt text n) then { st1 with n := n + 1 }
      else if inSet "ACFfHpQTWX" (charAt text n) then
        { st1 with n := indexOfChar text ';' n + 1 }
      else if charAt text n = 'P' then { st1 with n := n + 1 }
      else if charAt text n = 'S' then
        let vec := stackSplit text st1.vecStarts
        let m := indexOfChar text ';' n
        if m = -1 then { st1 with vecStarts := vec, n := m + 1 }
        else { st1 with vecStarts := vec ++ [toUInt m], n := m + 1 }
      else { st1 with n := n + 1 }
  else if c = '^' then
    if charAt text (st.n + 1) = 'I' then
      let st1 := switchTo true st
      { st1 with n := st1.n + 1 + 1 }
    else { st with n := st.n + 1 }
  else if c = '\x7b' ∨ c = '\x7d' then
    let st1 := switchTo true st
    { st1 with n := st1.n + 1 }
  else
    let st1 := switchTo false st
    { st1 with n := st1.n + 1 }

/-- The loop `while (n < data.text.length()) ...` followed by the final `push_back(n)`. -/
def secnLoop (text : QString) : Nat → SecnState → Except Fault (List Nat)
  | 0, _ => .error .fuel
  | fuel + 1, st =>
    if st.n < text.length then secnLoop text fuel (secnStep text st)
    else .ok (st.vecStarts ++ [toUInt st.n])

/-- `RS_MText::getSecnStarts` on `data.text = text`. -/
def getSecnStarts (fuel : Nat) (text : QString) : Except Fault (List Nat) :=
  secnLoop text fuel { n := 0, isCodeSecn := true, vecStarts := [0] }

/-! ## `LC_CodeTag` -/

/-- The fields of `LC_CodeTag`. -/
structure LC_CodeTag where
  text : QString
  isstack : Bool
  dblVal : ℚ
  intVal : Int
  strVal : QString
  starttag : Nat
  endtag : Nat
deriving DecidableEq, Repr

/-- `LC_CodeTag::isspantag`. The source calls
`QString("LOKS").indexOf(text[1], Qt::CaseSensitive)`; the second parameter of
`QString::indexOf(QChar, int from, Qt::CaseSensitivity)` is `from`, and the enumerator
`Qt::CaseSensitive` has the value 1, so the search starts at index 1 and the letter `L` at
index 0 is never found. -/
def LC_CodeTag.isspantag (t : LC_CodeTag) : Bool :=
  t.isstack
    || ((t.text.length > 1) && (indexOfChar "LOKS".toList (charAt t.text 1) 1 != -1))
    || ((t.text.length > 0) && (charAt t.text 0 == '\x7b'))

mutual
/-- `LC_CodeTag::getMatchingEnd(delim, start, level)` on the tag text `text`; the result is
the returned `unsigned int`.  (`level` is not used by the C++ code.) -/
def getMatchingEnd (text delim : QString) : Nat → Nat → Except Fault Nat
  | 0, _ => .error .fuel
  | fuel + 1, start =>
    matchingLoop text delim fuel (indexOfChar text (charAt delim 0) (toInt32 start)) 0
/-- The `while` loop of `getMatchingEnd` from the state `n0`, `n2`, and the final `return n2`. -/
def matchingLoop (text delim : QString) : Nat → Int → Int → Except Fault Nat
  | 0, _, _ => .error .fuel
  | fuel + 1, n0, n2 =>
    if n0 ≠ -1 ∧ n0 < text.length then
      let n1 := indexOfChar text (charAt delim 0) n0
      let n2' := indexOfChar text (charAt delim 1) n0
      if n1 ≠ -1 ∧ n1 < n2' then
        match getMatchingEnd text delim fuel (toUInt n1) with
        | .error e => .error e
        | .ok r => matchingLoop text delim fuel (toInt32 (r + 1)) n2'
      else .ok (toUInt n2')
    else .ok (toUInt n2)
end

/-- `LC_CodeTag::getFinalEnd`, for a tag whose fields `text`, `starttag` and `isstack` are as
given. -/
def LC_CodeTag.getFinalEnd (fuel : Nat) (t : LC_CodeTag) : Except Fault Nat :=
  let finish (nEnd : Int) : Nat :=
    if nEnd = -1 then t.text.length else toUInt (nEnd + t.starttag)
  if t.isspantag then
    if charAt t.text 0 = '\x7b' then
      match getMatchingEnd t.text "\x7b\x7d".toList fuel 0 with
      | .error e => .error e
      | .ok r => .ok (finish (toInt32 r))
    else if inSet "OLK" (charAt t.text 1) then
      .ok (finish (indexOfStr t.text ['\\', (charAt t.text 1).toLower] 0))
    else .ok (finish (indexOfChar t.text ';' 0))
  else if charAt t.text 0 = '\\' ∧ inSet "olkP" (charAt t.text 1) then .ok (finish (0 + 2))
  else if charAt t.text 0 = '^' ∧ charAt t.text 1 = 'I' then .ok (finish (0 + 2))
  else .ok (finish (indexOfChar t.text ';' 0 + 1))

/-! ## Geometry, style state and entities -/

/-- `RS_Vector` (two coordinates; the `z` coordinate and the `valid` flag play no part here). -/
structure RS_Vector where
  x : ℚ
  y : ℚ
deriving DecidableEq, Repr

instance : Add RS_Vector := ⟨fun a b => ⟨a.x + b.x, a.y + b.y⟩⟩
instance : Sub RS_Vector := ⟨fun a b => ⟨a.x - b.x, a.y - b.y⟩⟩
instance : Neg RS_Vector := ⟨fun a => ⟨-a.x, -a.y⟩⟩

/-- `STDLINESPACE` of `rs_mtext.h`. -/
def STDLINESPACE : ℚ := 1666667 / 1000000
/-- `SUPERSUBFAC` of `rs_mtext.h`. -/
def SUPERSUBFAC : ℚ := 58 / 100
/-- `DROPSUBSCRIPT` of `rs_mtext.h`. -/
def DROPSUBSCRIPT : ℚ := 33 / 100
/-- `RAISESUPERSCR` of `rs_mtext.h`. -/
def RAISESUPERSCR : ℚ := 33 / 100
/-- `DROPUNDERLINE` of `rs_mtext.h`. -/
def DROPUNDERLINE : ℚ := 33 / 100

/-- `LC_MTextTabGroup::LC_MTextTab`. -/
inductive LC_MTextTab where
  | Invalid | LeftAlign | CenterAlign | RightAlign | DP_Align | ItemIndent | LeftIndent | BulletIdx
deriving DecidableEq, Repr

/-- `LC_MTextTabGroup`. -/
structure LC_MTextTabGroup where
  listFormatter : Bool
  tablist : List (LC_MTextTab × ℚ)
deriving DecidableEq, Repr

/-- `LC_MTextTabGroup::find(kind, startAt)`. -/
def LC_MTextTabGroup.find (g : LC_MTextTabGroup) (kind : LC_MTextTab) (startAt : Nat) :
    LC_MTextTab × ℚ :=
  ((g.tablist.drop startAt).find? (fun e => e.1 == kind)).getD (LC_MTextTab.Invalid, 0)

/-- `RS_MTextData::MTextBreakMode`. -/
inductive MTextBreakMode where
  | AtNeed | Never | ForceNow
deriving DecidableEq, Repr

/-- `RS_MTextData::MTextDecor`. -/
inductive MTextDecor where
  | None | Underline | Overline | Strikethru
deriving DecidableEq, Repr

/-- `RS_MTextData::VAlign`. -/
inductive VAlign where
  | VATop | VAMiddle | VABottom
deriving DecidableEq, Repr

/-- `RS_MTextData::HAlign`. -/
inductive HAlign where
  | HALeft | HACenter | HARight
deriving DecidableEq, Repr

/-- `RS_MTextData::MTextDrawingDirection`. -/
inductive MTextDrawingDirection where
  | LeftToRight | TopToBottom | ByStyle
deriving DecidableEq, Repr

/-- `RS_MTextData::MTextLineSpacingStyle`. -/
inductive MTextLineSpacingStyle where
  | AtLeast | Exact
deriving DecidableEq, Repr

/-- `RS2::UpdateMode`. -/
inductive UpdateMode where
  | NoUpdate | Update
deriving DecidableEq, Repr

/-- `RS_MTextData`. -/
structure RS_MTextData where
  insertionPoint : RS_Vector
  height : ℚ
  width : ℚ
  valign : VAlign
  halign : HAlign
  drawingDirection : MTextDrawingDirection
  lineSpacingStyle : MTextLineSpacingStyle
  lineSpacingFactor : ℚ
  text : QString
  style : QString
  angle : ℚ
  updateMode : UpdateMode
  multiLine : Bool
  textWidthFac : ℚ
  decoration : MTextDecor
  linebreak : MTextBreakMode
  tabs : Option LC_MTextTabGroup
  listText : Bool
  vertClear : ℚ
deriving DecidableEq, Repr

/-- The initialising constructor of `RS_MTextData`. -/
def RS_MTextData.init (insertionPoint : RS_Vector) (height width : ℚ) (valign : VAlign)
    (halign : HAlign) (drawingDirection : MTextDrawingDirection)
    (lineSpacingStyle : MTextLineSpacingStyle) (lineSpacingFactor : ℚ) (text style : QString)
    (angle : ℚ) (updateMode : UpdateMode) : RS_MTextData :=
  { insertionPoint := insertionPoint, height := height, width := width, valign := valign,
    halign := halign, drawingDirection := drawingDirection,
    lineSpacingStyle := lineSpacingStyle, lineSpacingFactor := lineSpacingFactor,
    text := text, style := style, angle := angle, updateMode := updateMode,
    multiLine := false, textWidthFac := 1, decoration := .None, linebreak := .AtNeed,
    tabs := none, listText := false, vertClear := 0 }

/-- `RS_MTextData::hasListFormat`. -/
def RS_MTextData.hasListFormat (d : RS_MTextData) : Bool :=
  match d.tabs with
  | none => false
  | some g =>
    decide (g.tablist.length > 1)
      && ((g.tablist.map Prod.fst)[0]? == some LC_MTextTab.ItemIndent)
      && ((g.tablist.map Prod.fst)[1]? == some LC_MTextTab.LeftIndent)

/-- `RS_MTextData::isListText`. -/
def RS_MTextData.isListText (d : RS_MTextData) : Bool :=
  d.hasListFormat && (d.listText == true)

/-- The members of an `RS_MText` object other than its child list: `data`, the borders
`minV`/`maxV` inherited from `RS_Entity`, and the two used-size fields. -/
structure MTextCore where
  data : RS_MTextData
  minV : RS_Vector
  maxV : RS_Vector
  usedTextWidth : ℚ
  usedTextHeight : ℚ
deriving DecidableEq, Repr

/-- The entities that occur in an `RS_MText` tree: glyph placements (`RS_Insert`),
decoration lines (`RS_Line`) and nested `RS_MText` runs. -/
inductive RS_Entity where
  /-- An `RS_Insert` of a font letter: its name, insertion point and borders. -/
  | insert (name : QString) (insertionPoint minV maxV : RS_Vector) : RS_Entity
  /-- An `RS_Line`. -/
  | line (startpoint endpoint : RS_Vector) : RS_Entity
  /-- An `RS_MText` with its child list `entities`. -/
  | mtext (core : MTextCore) (entities : List RS_Entity) : RS_Entity
deriving Repr

/-- An `RS_MText` object. -/
structure RS_MText extends MTextCore where
  entities : List RS_Entity
deriving Repr

/-- An `RS_MText` seen as an `RS_Entity *`. -/
def RS_MText.toEntity (m : RS_MText) : RS_Entity := .mtext m.toMTextCore m.entities

/-- The down-cast `(RS_MText *) e`; `none` when the object is no `RS_MText`. -/
def RS_Entity.asMText : RS_Entity → Option RS_MText
  | .mtext core es => some { toMTextCore := core, entities := es }
  | _ => none

/-- `rtti() == RS2::EntityInsert`. -/
def RS_Entity.isInsert : RS_Entity → Bool
  | .insert _ _ _ _ => true
  | _ => false

/-- `RS_Entity::getMax`. -/
def RS_Entity.getMax : RS_Entity → RS_Vector
  | .insert _ _ _ mx => mx
  | .line a b => ⟨max a.x b.x, max a.y b.y⟩
  | .mtext core _ => core.maxV

/-- `RS_Entity::getMin`. -/
def RS_Entity.getMin : RS_Entity → RS_Vector
  | .insert _ _ mn _ => mn
  | .line a b => ⟨min a.x b.x, min a.y b.y⟩
  | .mtext core _ => core.minV

/-- `RS_MTextData` after `insertionPoint.move(offset)`. -/
def RS_MTextData.moved (d : RS_MTextData) (offset : RS_Vector) : RS_MTextData :=
  { d with insertionPoint := d.insertionPoint + offset }

/-- The non-recursive part of `RS_MText::move`: borders and insertion point. -/
def MTextCore.moved (c : MTextCore) (offset : RS_Vector) : MTextCore :=
  { c with data := c.data.moved offset, minV := c.minV + offset, maxV := c.maxV + offset }

mutual
/-- Modelled from the spec: the generic container's recursive move-by-offset (`RS_Entity::move`
of `RS_Insert`, `RS_Line` and, through `RS_EntityContainer::move`, of `RS_MText`) is not
under `src/`; every entity, with its borders, is translated by the offset. -/
def RS_Entity.move (offset : RS_Vector) : RS_Entity → RS_Entity
  | .insert n ip mn mx => .insert n (ip + offset) (mn + offset) (mx + offset)
  | .line a b => .line (a + offset) (b + offset)
  | .mtext core es => .mtext (core.moved offset) (RS_Entity.moveAll offset es)
/-- The loop over the children in `RS_EntityContainer::move`. -/
def RS_Entity.moveAll (offset : RS_Vector) : List RS_Entity → List RS_Entity
  | [] => []
  | e :: es => RS_Entity.move offset e :: RS_Entity.moveAll offset es
end

/-- `RS_MText::move`. -/
def RS_MText.move (m : RS_MText) (offset : RS_Vector) : RS_MText :=
  { toMTextCore := m.toMTextCore.moved offset, entities := RS_Entity.moveAll offset m.entities }

/-- `RS_MText::hasGlyphs`. -/
def RS_MText.hasGlyphs (m : RS_MText) : Bool :=
  match m.entities with
  | [] => false
  | e :: _ => e.isInsert

/-- `RS_Entity::getSize`: `maxV - minV`. -/
def RS_MText.getSize (m : RS_MText) : RS_Vector := m.maxV - m.minV

/-- `RS_MAXDOUBLE` of `rs.h`. -/
def RS_MAXDOUBLE : ℚ := 10000000000
/-- `RS_MINDOUBLE` of `rs.h`. -/
def RS_MINDOUBLE : ℚ := -10000000000

/-- The object made by `new RS_MText(parent, d)` when `d.text` is empty: `setText` returns at
once, the borders are as `RS_Entity::resetBorders` left them. -/
def RS_MText.fresh (d : RS_MTextData) : RS_MText :=
  { data := d, minV := ⟨RS_MAXDOUBLE, RS_MAXDOUBLE⟩, maxV := ⟨RS_MINDOUBLE, RS_MINDOUBLE⟩,
    usedTextWidth := 0, usedTextHeight := 0, entities := [] }

/-- `RS_MText::wantsLineReturn`. -/
def RS_MText.wantsLineReturn (m : RS_MText) (leftMargin : ℚ) : Bool :=
  decide (m.data.insertionPoint.x > leftMargin)
    && ((m.data.linebreak == MTextBreakMode.ForceNow)
        || (m.data.hasListFormat && !m.data.isListText))

/-! ## `RS_MText::wordwrap` and `RS_MText::resetFrom` -/

/-- Reading `*itrTxt` for a `QString::iterator` at offset `t` from `begin()`: defined inside
the buffer and at its terminating null, undefined elsewhere. -/
def derefTxt (text : QString) (t : Int) : Except Fault Char :=
  if 0 ≤ t ∧ t ≤ text.length then .ok (charAt text t) else .error .undefined

/-- The loop `while ((*itrTxt).isSpace()) --itrTxt;` from an offset inside the buffer: the
offset where it stops, or undefined behaviour when it runs off the front of the buffer. -/
def skipSpacesFrom (text : QString) : Nat → Except Fault Int
  | 0 => if isSpace (charAt text 0) then .error .undefined else .ok 0
  | t + 1 =>
    if isSpace (charAt text ((t + 1 : Nat) : Int)) then skipSpacesFrom text t
    else .ok ((t + 1 : Nat) : Int)

/-- The loop `while ((*itrTxt).isSpace()) --itrTxt;` from any offset. -/
def skipSpaces (text : QString) (t : Int) : Except Fault Int :=
  if 0 ≤ t ∧ t ≤ text.length then skipSpacesFrom text t.toNat else .error .undefined

/-- The first loop of `wordwrap` ("method A"): from glyph index `g` and text offset `t`, step
back while the glyph's right extent exceeds `rightMarg`. -/
def scanBack (ents : List RS_Entity) (text : QString) (rightMarg : ℚ) :
    Nat → Int → Except Fault (Nat × Int)
  | 0, t => .ok (0, t)
  | g + 1, t =>
    match ents[g + 1]? with
    | none => .error .undefined
    | some e =>
      if e.getMax.x > rightMarg then
        match skipSpaces text (t - 1) with
        | .error f => .error f
        | .ok t' => scanBack ents text rightMarg g t'
      else .ok (g + 1, t)

/-- The loop `while ((itrGlyph > entities.begin()) && !(*itrTxt).isSpace())
{ --itrTxt; --itrGlyph; }`. -/
def scanToSpace (text : QString) : Nat → Int → Except Fault (Nat × Int)
  | 0, t => .ok (0, t)
  | g + 1, t =>
    match derefTxt text t with
    | .error f => .error f
    | .ok c => if !isSpace c then scanToSpace text g (t - 1) else .ok (g + 1, t)

/-- `((RS_Insert *) e)->getInsertionPoint()`; undefined when the object is no `RS_Insert`. -/
def RS_Entity.insertPoint : RS_Entity → Except Fault RS_Vector
  | .insert _ ip _ _ => .ok ip
  | _ => .error .undefined

/-- `RS_MText::resetFrom(startEnts, endEnts, _text)` where the two iterators are the positions
`i` and `j` of the list `src`. -/
def RS_MText.resetFrom (self : RS_MText) (src : List RS_Entity) (i j : Nat) (_text : QString) :
    Except Fault RS_MText :=
  let ents := self.entities ++ (src.take j).drop i
  match src[i]?, ents.getLast?, ents.head? with
  | some e0, some eLast, some eFirst =>
    match e0.insertPoint, eFirst.insertPoint with
    | .ok p0, .ok pFirst =>
      let data := { self.data with text := _text,
                                   insertionPoint := ⟨p0.x, self.data.insertionPoint.y⟩ }
      .ok { self with data := data,
                      entities := ents,
                      maxV := ⟨eLast.getMax.x, data.insertionPoint.y⟩,
                      minV := ⟨data.insertionPoint.x, pFirst.y⟩ }
    | _, _ => .error .undefined
  | _, _, _ => .error .undefined

/-- The offset of a line feed made by `wordwrap`:
`(x, -data.height * STDLINESPACE * data.lineSpacingFactor)`. -/
def RS_MText.lineFeed (self : RS_MText) (x : ℚ) : RS_Vector :=
  ⟨x, -self.data.height * STDLINESPACE * self.data.lineSpacingFactor⟩

/-- The part of `wordwrap` after "wordbreak is needed": the glyph holder is split at glyph
index `g` and text offset `t` into two new `RS_MText` children. -/
def RS_MText.splitAt (self : RS_MText) (g : Nat) (t : Int) (leftMarg : ℚ) :
    Except Fault (Bool × RS_MText) :=
  let data1 := { self.data with multiLine := false }
  let datanow := { data1 with text := [], multiLine := true }
  let text := self.data.text
  match (RS_MText.fresh datanow).resetFrom self.entities 0 g (left text t),
        (RS_MText.fresh datanow).resetFrom self.entities g self.entities.length
          (right text (text.length - t)) with
  | .ok front, .ok last =>
    let delta := self.lineFeed (leftMarg - last.data.insertionPoint.x)
    .ok (true, { self with data := data1, entities := [front.toEntity, (last.move delta).toEntity] })
  | .error f, _ => .error f
  | _, .error f => .error f

/-- The glyph-holder branch of `RS_MText::wordwrap`. -/
def RS_MText.wordwrapGlyphs (self : RS_MText) (leftMarg rightMarg : ℚ) :
    Except Fault (Bool × RS_MText) :=
  let text := self.data.text
  match scanBack self.entities text rightMarg (self.entities.length - 1) (text.length - 1) with
  | .error f => .error f
  | .ok (g, t) =>
    if g = self.entities.length - 1 then .ok (false, self)
    else
      match derefTxt text (t + 1) with
      | .error f => .error f
      | .ok c =>
        if isSpace c then self.splitAt (g + 1) (t + 2) leftMarg
        else
          match scanToSpace text g t with
          | .error f => .error f
          | .ok (g', t') =>
            match derefTxt text t' with
            | .error f => .error f
            | .ok c' =>
              if isSpace c' then self.splitAt (g' + 1) (t' + 1) leftMarg
              else .ok (true, self.move (self.lineFeed (leftMarg - self.data.insertionPoint.x)))

mutual
/-- `RS_MText::wordwrap(leftMarg, rightMarg)`: the returned flag and the object afterwards. -/
def wordwrap : Nat → RS_MText → ℚ → ℚ → Except Fault (Bool × RS_MText)
  | 0, _, _, _ => .error .fuel
  | fuel + 1, self, leftMarg, rightMarg =>
    if self.hasGlyphs then self.wordwrapGlyphs leftMarg rightMarg
    else
      match wrapLast fuel self.entities leftMarg rightMarg with
      | .error f => .error f
      | .ok ents => .ok (false, { self with entities := ents })
/-- The composite branch of `wordwrap` from `entities.takeLast()` on: the child list that is
left when the loop `while (pLastChild->wordwrap(...))` ends. -/
def wrapLast : Nat → List RS_Entity → ℚ → ℚ → Except Fault (List RS_Entity)
  | 0, _, _, _ => .error .fuel
  | fuel + 1, ents, leftMarg, rightMarg =>
    match ents.getLast? with
    | none => .error .undefined
    | some e =>
      match e.asMText with
      | none => .error .undefined
      | some pLastChild =>
        match wordwrap fuel pLastChild leftMarg rightMarg with
        | .error f => .error f
        | .ok (true, child) => wrapLast fuel (ents.dropLast ++ child.entities) leftMarg rightMarg
        | .ok (false, _) => .ok ents.dropLast
end

/-! ## `RS_MText::layout` -/

/-- The loop `while (wordwrap(leftMargin, rightMargin)) {}` of `layout`. -/
def wrapWhile : Nat → RS_MText → ℚ → ℚ → Except Fault RS_MText
  | 0, _, _, _ => .error .fuel
  | fuel + 1, self, leftMarg, rightMarg =>
    match wordwrap fuel self leftMarg rightMarg with
    | .error f => .error f
    | .ok (true, self') => wrapWhile fuel self' leftMarg rightMarg
    | .ok (false, self') => .ok self'

/-- The statement pair `while (wordwrap(l, r)) {}; rtrnV = entities.back()->getMax();`. -/
def wrapAll (fuel : Nat) (self : RS_MText) (leftMarg rightMarg : ℚ) :
    Except Fault (RS_MText × RS_Vector) :=
  match wrapWhile fuel self leftMarg rightMarg with
  | .error f => .error f
  | .ok self' =>
    match self'.entities.getLast? with
    | none => .error .undefined
    | some e => .ok (self', e.getMax)

/-- The glyph-holder branch of `layout`, entered with the return vector `rtrnV`. -/
def RS_MText.layoutGlyphs (fuel : Nat) (self : RS_MText) (rtrnV : RS_Vector)
    (leftMargin rightMargin : ℚ) : Except Fault (RS_MText × RS_Vector) :=
  if self.data.isListText then
    match self.data.tabs with
    | none => .error .undefined
    | some tabs =>
      let localLeftMarg := leftMargin + (tabs.find LC_MTextTab.LeftIndent 0).2
      let s := self.move ⟨localLeftMarg - self.data.insertionPoint.x, 0⟩
      if s.maxV.x ≤ rightMargin then .ok (s, { rtrnV with x := s.maxV.x })
      else wrapAll fuel s localLeftMarg rightMargin
  else if self.maxV.x ≤ rightMargin then .ok (self, { rtrnV with x := self.maxV.x })
  else if self.data.linebreak = MTextBreakMode.Never then
    if self.data.insertionPoint.x > leftMargin then
      let s := self.move (self.lineFeed (leftMargin - self.data.insertionPoint.x))
      .ok (s, s.maxV)
    else .ok (self, rtrnV)
  else wrapAll fuel self leftMargin rightMargin

/-- The first part of `layout`: the move to `posnV` and the line return, giving the object
and the return vector `rtrnV` with which the branches are entered. Coordinates are doubles in
the source and exact rationals here: after the line return the insertion x is `leftMargin`
itself, where the source has the rounded value of `x + (leftMargin - x)`. -/
def RS_MText.layoutStart (self : RS_MText) (posnV : RS_Vector) (leftMargin : ℚ) :
    RS_MText × RS_Vector :=
  let s1 := self.move (posnV - self.data.insertionPoint)
  if s1.wantsLineReturn leftMargin then
    let s2 := s1.move ⟨leftMargin - s1.data.insertionPoint.x,
      -(s1.data.height * STDLINESPACE * s1.data.lineSpacingFactor + s1.data.vertClear)⟩
    (s2, s2.maxV)
  else (s1, s1.data.insertionPoint)

/-- The last part of `layout`: the used sizes are taken from the borders. -/
def RS_MText.layoutEnd (self : RS_MText) : RS_MText :=
  { self with usedTextWidth := self.getSize.x, usedTextHeight := self.getSize.y }

mutual
/-- `RS_MText::layout(posnV, leftMargin, rightMargin)`: the object afterwards and the returned
vector. -/
def layout : Nat → RS_MText → RS_Vector → ℚ → ℚ → Except Fault (RS_MText × RS_Vector)
  | 0, _, _, _, _ => .error .fuel
  | fuel + 1, self, posnV, leftMargin, rightMargin =>
    let start := self.layoutStart posnV leftMargin
    if start.1.hasGlyphs then
      match start.1.layoutGlyphs fuel start.2 leftMargin rightMargin with
      | .error f => .error f
      | .ok (s, rtrnV) => .ok (s.layoutEnd, rtrnV)
    else
      match layoutChildren fuel start.1.entities start.2 leftMargin rightMargin with
      | .error f => .error f
      | .ok (ents, rtrnV) => .ok (({ start.1 with entities := ents } : RS_MText).layoutEnd, rtrnV)
/-- The loop `for (auto &child : entities) rtrnV = ((RS_MText *)child)->layout(rtrnV, ...)`. -/
def layoutChildren : Nat → List RS_Entity → RS_Vector → ℚ → ℚ →
    Except Fault (List RS_Entity × RS_Vector)
  | _, [], rtrnV, _, _ => .ok ([], rtrnV)
  | 0, _ :: _, _, _, _ => .error .fuel
  | fuel + 1, e :: rest, rtrnV, leftMargin, rightMargin =>
    match e.asMText with
    | none => .error .undefined
    | some child =>
      match layout fuel child rtrnV leftMargin rightMargin with
      | .error f => .error f
      | .ok (child', rtrnV') =>
        match layoutChildren fuel rest rtrnV' leftMargin rightMargin with
        | .error f => .error f
        | .ok (rest', rtrnV'') => .ok (child'.toEntity :: rest', rtrnV'')
end

/-! ## Decidable equality of trees -/

mutual
/-- Decidable equality of entities. -/
def RS_Entity.decEq : (a b : RS_Entity) → Decidable (a = b)
  | .insert n1 i1 a1 b1, .insert n2 i2 a2 b2 =>
    if h : n1 = n2 ∧ i1 = i2 ∧ a1 = a2 ∧ b1 = b2 then
      isTrue (by obtain ⟨h1, h2, h3, h4⟩ := h; rw [h1, h2, h3, h4])
    else isFalse (by intro e; cases e; exact h ⟨rfl, rfl, rfl, rfl⟩)
  | .line a1 b1, .line a2 b2 =>
    if h : a1 = a2 ∧ b1 = b2 then isTrue (by obtain ⟨h1, h2⟩ := h; rw [h1, h2])
    else isFalse (by intro e; cases e; exact h ⟨rfl, rfl⟩)
  | .mtext c1 e1, .mtext c2 e2 =>
    if h : c1 = c2 then
      match RS_Entity.decEqList e1 e2 with
      | isTrue h' => isTrue (by rw [h, h'])
      | isFalse h' => isFalse (by intro e; cases e; exact h' rfl)
    else isFalse (by intro e; cases e; exact h rfl)
  | .insert _ _ _ _, .line _ _ => isFalse (by intro e; cases e)
  | .insert _ _ _ _, .mtext _ _ => isFalse (by intro e; cases e)
  | .line _ _, .insert _ _ _ _ => isFalse (by intro e; cases e)
  | .line _ _, .mtext _ _ => isFalse (by intro e; cases e)
  | .mtext _ _, .insert _ _ _ _ => isFalse (by intro e; cases e)
  | .mtext _ _, .line _ _ => isFalse (by intro e; cases e)
/-- Decidable equality of entity lists. -/
def RS_Entity.decEqList : (a b : List RS_Entity) → Decidable (a = b)
  | [], [] => isTrue rfl
  | [], _ :: _ => isFalse (by intro e; cases e)
  | _ :: _, [] => isFalse (by intro e; cases e)
  | a :: as, b :: bs =>
    match RS_Entity.decEq a b with
    | isTrue h =>
      match RS_Entity.decEqList as bs with
      | isTrue h' => isTrue (by rw [h, h'])
      | isFalse h' => isFalse (by intro e; cases e; exact h' rfl)
    | isFalse h => isFalse (by intro e; cases e; exact h rfl)
end

instance : DecidableEq RS_Entity := RS_Entity.decEq

instance : DecidableEq RS_MText := fun a b =>
  if h : a.toMTextCore = b.toMTextCore ∧ a.entities = b.entities then
    isTrue (by cases a; cases b; simp_all)
  else isFalse (by intro e; cases e; exact h ⟨rfl, rfl⟩)

/-! ## Numbers in tag values -/

/-- The leading decimal digits of a string: their value, their number, and the rest. -/
def readDigits : QString → Nat → Nat → Nat × Nat × QString
  | [], acc, k => (acc, k, [])
  | c :: cs, acc, k =>
    if '0' ≤ c ∧ c ≤ '9' then readDigits cs (10 * acc + (c.toNat - 48)) (k + 1)
    else (acc, k, c :: cs)

/-- An optional sign: whether it is a minus, and the rest. -/
def readSign : QString → Bool × QString
  | '-' :: cs => (true, cs)
  | '+' :: cs => (false, cs)
  | cs => (false, cs)

/-- The string without leading and trailing whitespace. -/
def trimSpaces (s : QString) : QString :=
  ((s.dropWhile isSpace).reverse.dropWhile isSpace).reverse

/-- Modelled from the spec: `QString::toInt` (Qt, not under `src/`): the value of a decimal
numeral with optional sign, and 0 when the string is not entirely a numeral or the value is
outside the range of `int`. -/
def toInt (s : QString) : Int :=
  let (neg, r) := readSign (trimSpaces s)
  let (v, k, rest) := readDigits r 0 0
  let n : Int := if neg then -(v : Int) else (v : Int)
  if k = 0 ∨ rest ≠ [] ∨ n < -2147483648 ∨ 2147483647 < n then 0 else n

/-- Modelled from the spec: `QString::toDouble` (Qt, not under `src/`): the value of a decimal
numeral with optional sign, fraction and exponent, and 0 when the string is not entirely a
numeral.  The value is exact (no rounding to a `double`). -/
def toDouble (s : QString) : ℚ :=
  let (neg, r) := readSign (trimSpaces s)
  let (iv, ik, r1) := readDigits r 0 0
  let (fv, fk, r2) :=
    match r1 with
    | '.' :: cs => readDigits cs 0 0
    | cs => (0, 0, cs)
  let mant : ℚ := (iv : ℚ) + (fv : ℚ) / (10 : ℚ) ^ fk
  let signed : ℚ := if neg then -mant else mant
  if ik + fk = 0 then 0
  else
    match r2 with
    | [] => signed
    | e :: cs =>
      if e = 'e' ∨ e = 'E' then
        let (eneg, r3) := readSign cs
        let (ev, ek, r4) := readDigits r3 0 0
        if ek = 0 ∨ r4 ≠ [] then 0
        else if eneg then signed / (10 : ℚ) ^ ev else signed * (10 : ℚ) ^ ev
      else 0

/-! ## `LC_CodeTag::loadFrom` -/

/-- `LC_CodeTag::loadFrom(rawtxt, nposn)` on a tag object whose fields are `prev` on entry
(`getFinalEnd` reads `isstack` before it is reset): the tag afterwards; the value written
back through `nposn` is its `endtag`. -/
def LC_CodeTag.loadFrom (fuel : Nat) (prev : LC_CodeTag) (rawtxt : QString) (nposn : Nat) :
    Except Fault LC_CodeTag :=
  let t0 : LC_CodeTag := { prev with starttag := nposn, text := midFrom rawtxt (toInt32 nposn) }
  match t0.getFinalEnd fuel with
  | .error f => .error f
  | .ok endtag =>
    let t1 : LC_CodeTag :=
      { t0 with endtag := endtag, isstack := false, text := resize t0.text endtag }
    let len : Int := toInt32 (toUInt ((endtag : Int) - 2))
    if charAt t1.text 0 = '\\' then
      if inSet "ACHQTWX" (charAt t1.text 1) then
        if charAt t1.text 1 = 'A' ∨ charAt t1.text 1 = 'C' then
          .ok { t1 with intVal := toInt (mid t1.text 2 len) }
        else .ok { t1 with dblVal := toDouble (mid t1.text 2 len) }
      else if inSet "Ffp" (charAt t1.text 1) then
        .ok { t1 with strVal := mid t1.text 2 (toInt32 (toUInt ((endtag : Int) - 1))) }
      else if charAt t1.text 1 = 'S' then .ok { t1 with isstack := true }
      else .ok t1
    else
      let nStack := indexOfStr t1.text "\\S".toList 0
      let nSpace := indexOfStr t1.text " ".toList 0
      .ok { t1 with isstack := decide (-1 < nStack) && decide (nStack < nSpace) }

/-! ## `LC_MTextTabGroup::loadFrom` -/

/-- Reading `s[i]` of a const `QString`: defined inside the string and at its terminating
null. -/
def constAt (s : QString) (i : Int) : Except Fault Char :=
  if 0 ≤ i ∧ i ≤ s.length then .ok (charAt s i) else .error .undefined

/-- The loop `while (!((strTabs[n2] == ',') || (strTabs[n2] == ';'))) ++n2;`; `k` bounds the
number of steps inside the string. -/
def tabValueEnd (strTabs : QString) : Nat → Int → Except Fault Int
  | 0, _ => .error .undefined
  | k + 1, n2 =>
    match constAt strTabs n2 with
    | .error f => .error f
    | .ok c => if c = ',' ∨ c = ';' then .ok n2 else tabValueEnd strTabs k (n2 + 1)

/-- The outer loop of `LC_MTextTabGroup::loadFrom` from the state `kind`, `n1`, `n2`; `k`
bounds the number of entries. -/
def tabLoop (strTabs : QString) :
    Nat → LC_MTextTab → Int → Int → LC_MTextTabGroup → Except Fault LC_MTextTabGroup
  | 0, _, _, _, _ => .error .undefined
  | k + 1, kind, n1, n2, g =>
    match constAt strTabs n2, constAt strTabs n1 with
    | .error f, _ => .error f
    | .ok c2, c1r =>
      if c2 = ';' then .ok g
      else
        match c1r with
        | .error f => .error f
        | .ok c1 =>
          let step (kind' : LC_MTextTab) (g' : LC_MTextTabGroup) :
              Except Fault LC_MTextTabGroup :=
            match tabValueEnd strTabs (strTabs.length + 2) (n1 + 1) with
            | .error f => .error f
            | .ok n2' =>
              let value := toDouble (mid strTabs (n1 + 1) (n2' - (n1 + 1)))
              tabLoop strTabs k kind' (n2' + 1) n2'
                { g' with tablist := g'.tablist ++ [(kind', value)] }
          if toLatin1 c1 = 'i' then step .ItemIndent g
          else if toLatin1 c1 = 'l' then
            match g.tablist.getLast? with
            | none => .error .undefined
            | some e =>
              step .LeftIndent
                (if e.1 = LC_MTextTab.ItemIndent then { g with listFormatter := true } else g)
          else if toLatin1 c1 = 't' then step .LeftAlign g
          else if toLatin1 c1 = 'x' then step .BulletIdx g
          else step kind g

/-- The constructor `LC_MTextTabGroup(strTabs)`, which runs `loadFrom(strTabs)` on an empty
group; undefined behaviour when the scan leaves the string or reads `tablist.back()` of an
empty list. -/
def LC_MTextTabGroup.load (strTabs : QString) : Except Fault LC_MTextTabGroup :=
  tabLoop strTabs (strTabs.length + 2) .Invalid 2 2 { listFormatter := false, tablist := [] }

/-! ## `RS_MTextData::applyCode` -/

/-- `RS_MTextData::applyCode(codetag)`. -/
def RS_MTextData.applyCode (d : RS_MTextData) (codetag : LC_CodeTag) :
    Except Fault RS_MTextData :=
  let code := toLatin1 (if codetag.text.length > 1 then charAt codetag.text 1
                        else charAt codetag.text 0)
  if code = 'F' ∨ code = 'f' then
    let n0 := if indexOfChar codetag.text '|' 0 = -1 then indexOfChar codetag.text ';' 0
              else indexOfChar codetag.text '|' 0
    .ok { d with style := mid codetag.text 2 (toInt32 (toUInt (n0 - 2))) }
  else if code = 'H' then .ok { d with height := codetag.dblVal }
  else if code = 'W' then .ok { d with textWidthFac := codetag.dblVal }
  else if code = 'p' then
    match LC_MTextTabGroup.load codetag.text with
    | .error f => .error f
    | .ok g => .ok { d with tabs := some g }
  else if code = 'P' then
    if d.linebreak = MTextBreakMode.ForceNow then
      .ok { d with vertClear := d.vertClear + d.height * STDLINESPACE * d.lineSpacingFactor }
    else .ok { d with linebreak := .ForceNow, vertClear := 0 }
  else if code = 'L' then .ok { d with decoration := .Underline }
  else if code = 'O' then .ok { d with decoration := .Overline }
  else if code = 'K' then .ok { d with decoration := .Strikethru }
  else if code = 'I' then .ok (if d.hasListFormat then { d with listText := true } else d)
  else .ok d

/-- `RS_MTextData::resetOneUseVals`. -/
def RS_MTextData.resetOneUseVals (d : RS_MTextData) : RS_MTextData :=
  { d with linebreak := .AtNeed, listText := false }

/-! ## Fonts and the environment of `setText` -/

/-- Modelled from the spec: the font-metrics collaborator (`RS_Font`, not under `src/`):
letter and word spacing, whether a letter exists, and the borders of a letter's block in font
units, relative to its insertion point. -/
structure RS_Font where
  letterSpacing : ℚ
  wordSpacing : ℚ
  findLetter : QString → Bool
  letterMin : QString → RS_Vector
  letterMax : QString → RS_Vector

/-- What `setText` takes from outside the object: the font list (`RS_FONTLIST->requestFont`,
`none` for a null pointer) and the indeterminate field values of an `LC_CodeTag` that has
just been default-constructed. -/
structure Env where
  requestFont : QString → Option RS_Font
  uninitTag : LC_CodeTag

/-- The character U+FFFD, the name given to a glyph whose letter the font does not have. -/
def replacementChar : Char := Char.ofNat 0xfffd

/-- The character that `data.text.replace(idxnbsp, 2, "\xA0")` puts in the text: Qt 5 converts
the `const char *` argument with `QString::fromUtf8`, and the lone byte `A0` is not valid
UTF-8, so the character is U+FFFD. -/
def nbspReplacement : Char := Char.ofNat 0xfffd

/-- The loop that replaces every `\~` of `data.text`, from left to right. -/
def replaceNbsp : QString → QString
  | [] => []
  | [c] => [c]
  | c :: d :: rest =>
    if c = '\\' ∧ d = '~' then nbspReplacement :: replaceNbsp rest
    else c :: replaceNbsp (d :: rest)

/-- Modelled from the spec: the glyph made by `new RS_Insert(this, insDataTemp)` followed by
`update()` (or by `setName(QChar(0xfffd))` when the font has no such letter); `RS_Insert` is
not under `src/`.  Its borders are the borders of the letter's block, scaled by `scale` and
placed at the insertion point. -/
def makeGlyph (font : RS_Font) (c : Char) (ip scale : RS_Vector) : RS_Entity :=
  let name : QString := if font.findLetter [c] then [c] else [replacementChar]
  .insert name ip
    ⟨ip.x + scale.x * (font.letterMin name).x, ip.y + scale.y * (font.letterMin name).y⟩
    ⟨ip.x + scale.x * (font.letterMax name).x, ip.y + scale.y * (font.letterMax name).y⟩

/-- `RS_Entity::getSize().x` of an entity. -/
def RS_Entity.sizeX (e : RS_Entity) : ℚ := e.getMax.x - e.getMin.x

/-- The loop `for (nchr = vecSecnStarts[1]; nchr < vecSecnStarts[2]; ++nchr)` of `setText`:
`k` characters are still to be visited, `nchr` is the current index, `first` is
`vecSecnStarts[1]`, `x` is `insDataTemp.insertionPoint.x`; the result is the final `x` and the
glyphs appended to `entities`. -/
def glyphLoop (font : RS_Font) (text : QString) (first : Nat) (scale : RS_Vector)
    (netSpaceWidth netLetterSpace y : ℚ) : Nat → Nat → ℚ → List RS_Entity → ℚ × List RS_Entity
  | 0, _, x, ents => (x, ents)
  | k + 1, nchr, x, ents =>
    let c := charAt text nchr
    if isSpace c then
      let x1 := if nchr > first ∧ !isSpace (charAt text ((nchr : Int) - 1)) then x - netLetterSpace
                else x
      let x2 := if c = ' ' ∨ c = Char.ofNat 0xa0 then x1 + netSpaceWidth else x1
      glyphLoop font text first scale netSpaceWidth netLetterSpace y k (nchr + 1) x2 ents
    else
      let glyph := makeGlyph font c ⟨x, y⟩ scale
      glyphLoop font text first scale netSpaceWidth netLetterSpace y k (nchr + 1)
        (x + (glyph.sizeX + netLetterSpace)) (ents ++ [glyph])

/-! ## Borders, decorations, update -/

/-- The smallest box around the borders of the entities, `none` for an empty list. -/
def bordersOf : List RS_Entity → Option (RS_Vector × RS_Vector)
  | [] => none
  | e :: es =>
    match bordersOf es with
    | none => some (e.getMin, e.getMax)
    | some (mn, mx) =>
      some (⟨min e.getMin.x mn.x, min e.getMin.y mn.y⟩, ⟨max e.getMax.x mx.x, max e.getMax.y mx.y⟩)

/-- Whether `adjustBorders` takes an entity into account: not an `RS_MText` without
children. -/
def RS_Entity.hasExtent : RS_Entity → Bool
  | .mtext _ es => !es.isEmpty
  | _ => true

mutual
/-- Modelled from the spec: `RS_EntityContainer::calculateBorders` (the generic container's
bounding-box aggregation, not under `src/`): bottom-up, the borders of every `RS_MText` become
the smallest box around its children's borders, and the zero box when it has no child with an
extent. -/
def RS_Entity.calculateBorders : RS_Entity → RS_Entity
  | .insert n ip mn mx => .insert n ip mn mx
  | .line a b => .line a b
  | .mtext core es =>
    let es' := RS_Entity.calculateBordersAll es
    match bordersOf (es'.filter RS_Entity.hasExtent) with
    | none => .mtext { core with minV := ⟨0, 0⟩, maxV := ⟨0, 0⟩ } es'
    | some (mn, mx) => .mtext { core with minV := mn, maxV := mx } es'
/-- `calculateBorders` of every entity of a list. -/
def RS_Entity.calculateBordersAll : List RS_Entity → List RS_Entity
  | [] => []
  | e :: es => RS_Entity.calculateBorders e :: RS_Entity.calculateBordersAll es
end

/-- `calculateBorders()` called on an `RS_MText`. -/
def RS_MText.calculateBorders (m : RS_MText) : RS_MText :=
  let es' := RS_Entity.calculateBordersAll m.entities
  match bordersOf (es'.filter RS_Entity.hasExtent) with
  | none => { m with minV := ⟨0, 0⟩, maxV := ⟨0, 0⟩, entities := es' }
  | some (mn, mx) => { m with minV := mn, maxV := mx, entities := es' }

/-- `RS_MText::appendEntity` (of `RS_EntityContainer`): the child is appended and the borders
are extended by `adjustBorders`. -/
def RS_MText.appendEntity (m : RS_MText) (e : RS_Entity) : RS_MText :=
  if e.hasExtent then
    { m with entities := m.entities ++ [e],
             minV := ⟨min e.getMin.x m.minV.x, min e.getMin.y m.minV.y⟩,
             maxV := ⟨max e.getMax.x m.maxV.x, max e.getMax.y m.maxV.y⟩ }
  else { m with entities := m.entities ++ [e] }

mutual
/-- `RS_MText::setDecorations`. -/
def setDecorations : RS_MTextData → RS_Vector → RS_Vector → List RS_Entity →
    Except Fault (List RS_Entity)
  | data, minV, maxV, ents =>
    if data.decoration ≠ MTextDecor.None ∧ data.multiLine = false then
      let y_ul := minV.y - data.height * DROPUNDERLINE
      .ok (ents ++ [.line ⟨minV.x, y_ul⟩ ⟨maxV.x, y_ul⟩])
    else if (match ents with | [] => false | e :: _ => e.isInsert) then .ok ents
    else setDecorationsAll ents
/-- The loop `for (RS_Entity* child: entities) ((RS_MText *)child)->setDecorations();`. -/
def setDecorationsAll : List RS_Entity → Except Fault (List RS_Entity)
  | [] => .ok []
  | .mtext core es :: rest =>
    match setDecorations core.data core.minV core.maxV es with
    | .error f => .error f
    | .ok es' =>
      match setDecorationsAll rest with
      | .error f => .error f
      | .ok rest' => .ok (.mtext core es' :: rest')
  | _ :: _ => .error .undefined
end

mutual
/-- `RS_MText::update` seen from the parent's loop `for (auto e: entities) e->update()`:
an `RS_MText` child runs its own `update`, the other entities keep their borders. -/
def RS_Entity.update (env : Env) : RS_Entity → Except Fault RS_Entity
  | .insert n ip mn mx => .ok (.insert n ip mn mx)
  | .line a b => .ok (.line a b)
  | .mtext core es =>
    match RS_Entity.updateAll env es with
    | .error f => .error f
    | .ok es' =>
      -- forcedCalculateBorders()
      let es'' := RS_Entity.calculateBordersAll es'
      let core1 : MTextCore :=
        match bordersOf (es''.filter RS_Entity.hasExtent) with
        | none => { core with minV := ⟨0, 0⟩, maxV := ⟨0, 0⟩ }
        | some (mn, mx) => { core with minV := mn, maxV := mx }
      if (match es'' with | [] => false | e :: _ => e.isInsert) then
        match core1.data.text.getLast? with
        | none => .error .undefined
        | some c =>
          if isSpace c then
            match env.requestFont core1.data.style with
            | none => .ok (.mtext core1 es'')
            | some font =>
              .ok (.mtext { core1 with maxV := ⟨core1.maxV.x
                  + (core1.data.height / 9) * core1.data.textWidthFac * font.wordSpacing,
                  core1.maxV.y⟩ } es'')
          else .ok (.mtext core1 es'')
      else .ok (.mtext core1 es'')
/-- The loop `for (auto e: entities) e->update()`. -/
def RS_Entity.updateAll (env : Env) : List RS_Entity → Except Fault (List RS_Entity)
  | [] => .ok []
  | e :: es =>
    match RS_Entity.update env e with
    | .error f => .error f
    | .ok e' =>
      match RS_Entity.updateAll env es with
      | .error f => .error f
      | .ok es' => .ok (e' :: es')
end

/-- `RS_MText::update` (of an object that is not undone), with `forcedCalculateBorders`. -/
def RS_MText.update (env : Env) (m : RS_MText) : Except Fault RS_MText :=
  match RS_Entity.update env m.toEntity with
  | .error f => .error f
  | .ok e =>
    match e.asMText with
    | none => .error .undefined
    | some m' => .ok m'

/-! ## `RS_MText::getSecn`, `RS_MText::stackFoundAt` -/

/-- The loop `while ((nsecn > 0) && (vecStarts[nsecn] > nchr)) --nsecn;`. -/
def getSecnBack (nchr : Nat) (vecStarts : List Nat) : Nat → Nat
  | 0 => 0
  | nsecn + 1 => if vecStarts.getD (nsecn + 1) 0 > nchr then getSecnBack nchr vecStarts nsecn
                 else nsecn + 1

/-- `RS_MText::getSecn(nchr, vecStarts)`. -/
def getSecn (nchr : Nat) (vecStarts : List Nat) : Nat :=
  let nsecn := getSecnBack nchr vecStarts ((vecStarts.length - 1) % 65536)
  if nsecn > 0 ∧ vecStarts.getD (nsecn - 1) 0 = vecStarts.getD nsecn 0 then nsecn - 1 else nsecn

/-- `RS_MText::stackFoundAt(nsecn, vecSecnStarts)` on `data.text = text`. -/
def stackFoundAt (text : QString) (nsecn : Nat) (vec : List Nat) : Bool :=
  let nStack := indexOfStr text "\\S".toList (toInt32 (vec.getD nsecn 0))
  if -1 < nStack ∧ (nsecn : Int) < (vec.length : Int) - 3 then
    if toUInt nStack < vec.getD (nsecn + 1) 0 then true
    else if vec.getD (nsecn + 2) 0 ≤ toUInt nStack ∧ toUInt nStack < vec.getD (nsecn + 3) 0 then
      decide (indexOfStr text " ".toList (toInt32 (vec.getD nsecn 0)) > nStack)
    else false
  else false

/-- `codeTag.text.indexOf(QRegExp("[^/#]"), from)`: the pattern is a negated character class,
it matches the first character that is neither `/` nor `#`. -/
def indexOfNotSlashHash (s : QString) (start : Int) : Int :=
  if clampFrom s start > s.length then -1
  else findIdx (fun c => !(c == '/' || c == '#')) (s.drop (clampFrom s start)) (clampFrom s start)

/-! ## `RS_MText::setText` and `RS_MText::buildStackAssy` -/

/-- The loop `while (nchr < vecSecnStarts.at(1)) { LC_CodeTag ct(data.text, &nchr);
data.applyCode(ct); }` of the single-section branch; every pass constructs a new tag object. -/
def tagLoop (env : Env) : Nat → Nat → Nat → RS_MTextData → Except Fault RS_MTextData
  | 0, _, _, _ => .error .fuel
  | fuel + 1, bound, nchr, data =>
    if nchr < bound then
      match LC_CodeTag.loadFrom fuel env.uninitTag data.text nchr with
      | .error f => .error f
      | .ok ct =>
        match data.applyCode ct with
        | .error f => .error f
        | .ok data' => tagLoop env fuel bound ct.endtag data'
    else .ok data

/-- The loop `while (nchr < vecSecnStarts[nsecn + 1]) { ct.loadFrom(data.text, &nchr);
if (!ct.isspantag()) datanow.applyCode(ct); }` of the multi-section branch, on the reused tag
object `ct`: the tag, the style state and `nchr` afterwards. -/
def spanTagLoop (text : QString) :
    Nat → Nat → LC_CodeTag → RS_MTextData → Nat → Except Fault (LC_CodeTag × RS_MTextData × Nat)
  | 0, _, _, _, _ => .error .fuel
  | fuel + 1, bound, ct, datanow, nchr =>
    if nchr < bound then
      match LC_CodeTag.loadFrom fuel ct text nchr with
      | .error f => .error f
      | .ok ct' =>
        if !ct'.isspantag then
          match datanow.applyCode ct' with
          | .error f => .error f
          | .ok datanow' => spanTagLoop text fuel bound ct' datanow' ct'.endtag
        else spanTagLoop text fuel bound ct' datanow ct'.endtag
    else .ok (ct, datanow, nchr)

/-- The tail of `setText`: for a root (no `RS_MText` parent) borders, `layout`, borders, used
sizes and decorations; then `update()` when the update mode asks for it. -/
def RS_MText.finishText (env : Env) (fuel : Nat) (isRoot : Bool) (self : RS_MText) :
    Except Fault RS_MText :=
  let rooted : Except Fault RS_MText :=
    if isRoot then
      let s1 := self.calculateBorders
      match layout fuel s1 s1.data.insertionPoint s1.data.insertionPoint.x
          (s1.data.insertionPoint.x + s1.data.width) with
      | .error f => .error f
      | .ok (s2, _) =>
        let s3 := s2.calculateBorders
        let s4 : RS_MText := { s3 with usedTextHeight := s3.maxV.y - s3.minV.y,
                                       usedTextWidth := s3.maxV.x - s3.minV.x }
        match setDecorations s4.data s4.minV s4.maxV s4.entities with
        | .error f => .error f
        | .ok ents => .ok { s4 with entities := ents }
    else .ok self
  match rooted with
  | .error f => .error f
  | .ok s => if s.data.updateMode = UpdateMode.Update then s.update env else .ok s

mutual
/-- `RS_MText::setText(t)` on the object `self`; `isRoot` says that the parent is no
`RS_MText`. -/
def setText (env : Env) : Nat → Bool → RS_MText → QString → Except Fault RS_MText
  | 0, _, _, _ => .error .fuel
  | fuel + 1, isRoot, self, t =>
    if t.isEmpty then .ok self
    else
      match getSecnStarts fuel t with
      | .error f => .error f
      | .ok vec =>
        let ip := self.data.insertionPoint
        let self1 : RS_MText :=
          { self with data := { self.data with text := t },
                      minV := ⟨ip.x, ip.y - self.data.height⟩, maxV := ⟨ip.x, ip.y⟩ }
        if 2 < vec.length ∧ vec.length < 5 then
          -- no more than one display section
          let data1 := { self1.data with text := replaceNbsp t }
          match tagLoop env fuel (vec.getD 1 0) 0 data1 with
          | .error f => .error f
          | .ok data2 =>
            match env.requestFont data2.style with
            | none => .ok { self1 with data := data2 }
            | some font =>
              let netHeightFac := data2.height / 9
              let netWidthFac := netHeightFac * data2.textWidthFac
              let netSpaceWidth := netWidthFac * font.wordSpacing
              let netLetterSpace := netWidthFac * font.letterSpacing
              let run := glyphLoop font data2.text (vec.getD 1 0) ⟨netWidthFac, netHeightFac⟩
                netSpaceWidth netLetterSpace self1.minV.y (vec.getD 2 0 - vec.getD 1 0)
                (vec.getD 1 0) self1.minV.x self1.entities
              let x := if isSpace (charAt data2.text ((data2.text.length : Int) - 1))
                       then run.1 - netLetterSpace else run.1
              RS_MText.finishText env fuel isRoot
                { self1 with data := data2, entities := run.2, maxV := ⟨x, self1.maxV.y⟩ }
        else
          -- more than one display section
          match sectionLoop env fuel self1 vec self1.data env.uninitTag 0 with
          | .error f => .error f
          | .ok self2 => RS_MText.finishText env fuel isRoot self2
/-- The loop `while (nsecn < (vecSecnStarts.size() - 2))` of the multi-section branch, from
the state `datanow`, `ct`, `nsecn`. -/
def sectionLoop (env : Env) :
    Nat → RS_MText → List Nat → RS_MTextData → LC_CodeTag → Nat → Except Fault RS_MText
  | 0, _, _, _, _, _ => .error .fuel
  | fuel + 1, self, vec, datanow, ct, nsecn =>
    if (nsecn : Int) < (vec.length : Int) - 2 then
      let nchr := vec.getD nsecn 0
      let built : Except Fault (Option RS_MText × RS_MTextData × LC_CodeTag × Nat) :=
        if stackFoundAt self.data.text nsecn vec then
          match LC_CodeTag.loadFrom fuel ct self.data.text nchr with
          | .error f => .error f
          | .ok ct' =>
            match buildStackAssy env fuel self datanow ct' with
            | .error f => .error f
            | .ok child => .ok (child, datanow, ct', getSecn ct'.endtag vec)
        else
          match spanTagLoop self.data.text fuel (vec.getD (nsecn + 1) 0) ct datanow nchr with
          | .error f => .error f
          | .ok (ct', datanow', nchr') =>
            let first : Int := toInt32 (vec.getD nsecn 0)
            let spanLen : Int := toInt32 (toUInt ((ct'.endtag : Int) - (vec.getD nsecn 0 : Int)))
            let twoLen : Int :=
              toInt32 (toUInt ((vec.getD (nsecn + 2) 0 : Int) - (vec.getD nsecn 0 : Int)))
            let datanow'' : RS_MTextData :=
              if ct'.isspantag then { datanow' with text := mid self.data.text first spanLen }
              else { datanow' with text := mid self.data.text first twoLen }
            let nsecn' := if ct'.isspantag then getSecn nchr' vec else (nsecn + 2) % 65536
            match setText env fuel false (RS_MText.fresh datanow'') datanow''.text with
            | .error f => .error f
            | .ok child => .ok (some child, datanow'', ct', nsecn')
      match built with
      | .error f => .error f
      | .ok (none, _, _, _) => .error .undefined
      | .ok (some child, datanow1, ct1, nsecn1) =>
        let self' : RS_MText :=
          { self with entities := self.entities ++ [child.toEntity],
                      maxV := ⟨child.maxV.x, self.maxV.y⟩ }
        sectionLoop env fuel self' vec
          { datanow1 with insertionPoint := ⟨child.maxV.x, datanow1.insertionPoint.y⟩ } ct1 nsecn1
    else .ok self
/-- `RS_MText::buildStackAssy(data, codeTag)` called on the object `self`: the new assembly,
or `none` for the returned null pointer. -/
def buildStackAssy (env : Env) :
    Nat → RS_MText → RS_MTextData → LC_CodeTag → Except Fault (Option RS_MText)
  | 0, _, _, _ => .error .fuel
  | fuel + 1, self, data, codeTag =>
    let posnnow := data.insertionPoint
    let datanow0 : RS_MTextData := { data with linebreak := .Never, text := [] }
    let pStack0 := RS_MText.fresh datanow0
    let n0 := indexOfStr codeTag.text "\\S".toList 0
    let baseHeight := datanow0.height
    -- @A
    let partA : Except Fault (RS_MText × RS_MTextData × Int) :=
      if n0 ≠ 0 then
        let d : RS_MTextData := { datanow0 with text := mid codeTag.text 0 n0 }
        match setText env fuel false (RS_MText.fresh d) d.text with
        | .error f => .error f
        | .ok pChild =>
          .ok (pStack0.appendEntity pChild.toEntity,
               { d with insertionPoint := ⟨pChild.maxV.x, d.insertionPoint.y⟩ }, n0 + 2)
      else .ok (pStack0, datanow0, n0)
    match partA with
    | .error f => .error f
    | .ok (pStack1, datanow1, n1start) =>
      let n1 := indexOfNotSlashHash codeTag.text n1start
      match (if 0 ≤ n1 then Except.ok (charAt codeTag.text n1) else Except.error Fault.undefined) with
      | .error f => .error f
      | .ok stackstyle =>
        -- @B
        let partB : Except Fault (RS_MText × RS_MTextData × Int) :=
          if n1 > n1start then
            let raised : RS_Vector :=
              ⟨datanow1.insertionPoint.x, posnnow.y + baseHeight * RAISESUPERSCR⟩
            let d : RS_MTextData :=
              { datanow1 with text := mid codeTag.text n1start (n1 - n1start),
                              insertionPoint := raised,
                              height := baseHeight * SUPERSUBFAC }
            match setText env fuel false (RS_MText.fresh d) d.text with
            | .error f => .error f
            | .ok pChild => .ok (pStack1.appendEntity pChild.toEntity, d, n1 + 1)
          else .ok (pStack1, datanow1, n1start)
        match partB with
        | .error f => .error f
        | .ok (pStack2, datanow2, n2start) =>
          let n2 := indexOfStr codeTag.text ";".toList n2start
          -- @C
          if n2 > n2start then
            let xr : Except Fault ℚ :=
              if stackstyle = '#' then
                match self.entities.getLast? with
                | none => .error .undefined
                | some e => .ok e.getMax.x
              else .ok datanow2.insertionPoint.x
            match xr with
            | .error f => .error f
            | .ok x =>
              let d : RS_MTextData :=
                { datanow2 with height := baseHeight * SUPERSUBFAC,
                                insertionPoint := ⟨x, posnnow.y - baseHeight * DROPSUBSCRIPT⟩,
                                text := mid codeTag.text n2start (n2 - n2start) }
              match setText env fuel false (RS_MText.fresh d) d.text with
              | .error f => .error f
              | .ok pChild =>
                let pStack3 := pStack2.appendEntity pChild.toEntity
                .ok (if pStack3.entities.length > 1 then some pStack3 else none)
          else .ok (if pStack2.entities.length > 1 then some pStack2 else none)
end

/-- The constructor `RS_MText(parent, d)`: a fresh object on which `setText(data.text)` is
run. -/
def RS_MText.construct (env : Env) (fuel : Nat) (isRoot : Bool) (d : RS_MTextData) :
    Except Fault RS_MText :=
  setText env fuel isRoot
    { data := d, minV := ⟨RS_MAXDOUBLE, RS_MAXDOUBLE⟩, maxV := ⟨RS_MINDOUBLE, RS_MINDOUBLE⟩,
      usedTextWidth := 0, usedTextHeight := 0, entities := [] } d.text


/-! ## `RS_MText::getAlignment`, `RS_MText::setAlignment` -/

/-- `RS_MText::getAlignment`: 1 for top left up to 9 for bottom right. The closing `return 1`
of the source is reached for no value of the two enumerations. -/
def RS_MText.getAlignment (m : RS_MText) : Int :=
  match m.data.valign, m.data.halign with
  | .VATop, .HALeft => 1
  | .VATop, .HACenter => 2
  | .VATop, .HARight => 3
  | .VAMiddle, .HALeft => 4
  | .VAMiddle, .HACenter => 5
  | .VAMiddle, .HARight => 6
  | .VABottom, .HALeft => 7
  | .VABottom, .HACenter => 8
  | .VABottom, .HARight => 9

/-- `RS_MText::setAlignment(a)`: the switch on `a % 3` (the remainder of the truncating
division) sets `halign`, the switch on `(int)ceil(a / 3.0)` sets `valign`; the `default`
labels stand with `case 1`. -/
def RS_MText.setAlignment (m : RS_MText) (a : Int) : RS_MText :=
  let halign : HAlign :=
    if a.tmod 3 = 2 then .HACenter else if a.tmod 3 = 0 then .HARight else .HALeft
  let valign : VAlign :=
    if Int.ceil ((a : ℚ) / 3) = 2 then .VAMiddle
    else if Int.ceil ((a : ℚ) / 3) = 3 then .VABottom
    else .VATop
  { m with data := { m.data with halign := halign, valign := valign } }
/-! ## Sample objects -/

/-- Style data as the `RS_MTextData` constructor makes them: insertion point at the origin,
height 9, reference width 1, line spacing factor 1. -/
def sampleData (text : QString) : RS_MTextData :=
  RS_MTextData.init ⟨0, 0⟩ 9 1 .VATop .HALeft .LeftToRight .AtLeast 1 text
    "standard".toList 0 .NoUpdate

/-- A glyph of width 1 and height 9 named `c` whose left edge is at `x`, on the base line
`y = -9`. -/
def sampleGlyph (c : Char) (x : ℚ) : RS_Entity :=
  .insert [c] ⟨x, -9⟩ ⟨x, -9⟩ ⟨x + 1, 0⟩

/-- A glyph holder for the text `ab`: two glyphs side by side from `x = 0` to `x = 2`. -/
def unbrokenLeaf : RS_MText :=
  { data := sampleData "ab".toList, minV := ⟨0, -9⟩, maxV := ⟨2, 0⟩, usedTextWidth := 2,
    usedTextHeight := 9, entities := [sampleGlyph 'a' 0, sampleGlyph 'b' 1] }

/-- A glyph holder for the text `a`: one glyph from `x = 0` to `x = 1`. -/
def fittingLeaf : RS_MText :=
  { data := sampleData "a".toList, minV := ⟨0, -9⟩, maxV := ⟨1, 0⟩, usedTextWidth := 1,
    usedTextHeight := 9, entities := [sampleGlyph 'a' 0] }

/-- A composite run whose only child is `fittingLeaf`. -/
def compositeOfOne : RS_MText :=
  { data := sampleData "a".toList, minV := ⟨0, -9⟩, maxV := ⟨1, 0⟩, usedTextWidth := 1,
    usedTextHeight := 9, entities := [fittingLeaf.toEntity] }

/-- A glyph holder for the text `a b`: the glyph `a` from `x = 0` to `x = 1` and, after the
space, the glyph `b` from `x = 3/2` to `x = 5/2`. -/
def twoWordLeaf : RS_MText :=
  { data := sampleData "a b".toList, minV := ⟨0, -9⟩, maxV := ⟨5 / 2, 0⟩,
    usedTextWidth := 5 / 2, usedTextHeight := 9,
    entities := [sampleGlyph 'a' 0, sampleGlyph 'b' (3 / 2)] }

/-- The first fragment of `twoWordLeaf` after the split: the text `a ` with the glyph `a`. -/
def twoWordFront : RS_MText :=
  { data := { sampleData "a ".toList with multiLine := true },
    minV := ⟨0, -9⟩, maxV := ⟨1, 0⟩, usedTextWidth := 0, usedTextHeight := 0,
    entities := [sampleGlyph 'a' 0] }

/-- The second fragment of `twoWordLeaf` after the split: the text `b` with the glyph `b`,
moved to the left margin `0` and one line (`9 * 1.666667`) down. -/
def twoWordLast : RS_MText :=
  { data := { sampleData "b".toList with
                multiLine := true, insertionPoint := ⟨0, -15000003 / 1000000⟩ },
    minV := ⟨0, -9 - 15000003 / 1000000⟩, maxV := ⟨1, -15000003 / 1000000⟩,
    usedTextWidth := 0, usedTextHeight := 0,
    entities := [.insert ['b'] ⟨0, -9 - 15000003 / 1000000⟩ ⟨0, -9 - 15000003 / 1000000⟩
      ⟨1, -15000003 / 1000000⟩] }

/-- The run `twoWordLeaf` after `wordwrap` has split it. -/
def twoWordSplit : RS_MText :=
  { twoWordLeaf with entities := [twoWordFront.toEntity, twoWordLast.toEntity] }

/-- A font that has every letter; each letter's block is 6 wide and 9 high, the letter
spacing is 3 and the word spacing 27/4 (font units). -/
def sampleFont : RS_Font :=
  { letterSpacing := 3, wordSpacing := 27 / 4, findLetter := fun _ => true,
    letterMin := fun _ => ⟨0, 0⟩, letterMax := fun _ => ⟨6, 9⟩ }

/-- An environment in which every style name gives `sampleFont`, and the fields of a newly
constructed tag read as zero and `false`. -/
def sampleEnv : Env :=
  { requestFont := fun _ => some sampleFont,
    uninitTag := { text := [], isstack := false, dblVal := 0, intVal := 0, strVal := [],
                   starttag := 0, endtag := 0 } }

/-- Style data as the `RS_MTextData` constructor makes them: insertion point at the origin,
height 9, the given reference width, line spacing factor 1, no update. -/
def sampleDataWidth (width : ℚ) (text : QString) : RS_MTextData :=
  RS_MTextData.init ⟨0, 0⟩ 9 width .VATop .HALeft .LeftToRight .AtLeast 1 text
    "standard".toList 0 .NoUpdate

/-! ## Notions used in the statements -/

/-- The glyphs that the single-section branch of `setText` places for a text `t` that is one
display section from its first character on, under the style data `d` and the font `font`. -/
def plainGlyphs (font : RS_Font) (d : RS_MTextData) (t : QString) : List RS_Entity :=
  (glyphLoop font t 0 ⟨d.height / 9 * d.textWidthFac, d.height / 9⟩
    (d.height / 9 * d.textWidthFac * font.wordSpacing)
    (d.height / 9 * d.textWidthFac * font.letterSpacing)
    (d.insertionPoint.y - d.height) t.length 0 d.insertionPoint.x []).2

/-- The glyph holder that the single-section branch of `setText` has built for such a text
when it reaches the tail of `setText` (borders as `setText` sets them, used sizes still 0). -/
def plainLeaf (font : RS_Font) (d : RS_MTextData) : RS_MText :=
  let run := glyphLoop font d.text 0 ⟨d.height / 9 * d.textWidthFac, d.height / 9⟩
    (d.height / 9 * d.textWidthFac * font.wordSpacing)
    (d.height / 9 * d.textWidthFac * font.letterSpacing)
    (d.insertionPoint.y - d.height) d.text.length 0 d.insertionPoint.x []
  { data := d, minV := ⟨d.insertionPoint.x, d.insertionPoint.y - d.height⟩,
    maxV := ⟨if isSpace (charAt d.text ((d.text.length : Int) - 1)) = true
               then run.1 - d.height / 9 * d.textWidthFac * font.letterSpacing else run.1,
             d.insertionPoint.y⟩,
    usedTextWidth := 0, usedTextHeight := 0, entities := run.2 }

mutual
/-- Two entities have the same tree shape: the same kind of entity, and for `RS_MText` runs
child lists of the same length whose members have pairwise the same shape. -/
def sameShape : RS_Entity → RS_Entity → Bool
  | .insert _ _ _ _, .insert _ _ _ _ => true
  | .line _ _, .line _ _ => true
  | .mtext _ es, .mtext _ es' => sameShapeAll es es'
  | _, _ => false
/-- Two entity lists have the same length and pairwise the same shape. -/
def sameShapeAll : List RS_Entity → List RS_Entity → Bool
  | [], [] => true
  | e :: es, e' :: es' => sameShape e e' && sameShapeAll es es'
  | _, _ => false
end

/-- An `RS_MText` with its two used-size fields set to the given values. -/
def RS_MText.withUsed (m : RS_MText) (w h : ℚ) : RS_MText :=
  { m with usedTextWidth := w, usedTextHeight := h }

/-- Style data of the three-word sample: like `sampleData`, with reference width 10. -/
def abcData (text : QString) (multiLine : Bool) (insertionPoint : RS_Vector) : RS_MTextData :=
  { sampleDataWidth 10 text with multiLine := multiLine, insertionPoint := insertionPoint }

/-- The glyph holder that `setText` builds for the text `a b c` with `sampleFont` (letters 6
wide, letter spacing 3, word spacing 27/4), before any layout. -/
def abcLeaf : RS_MText :=
  { data := abcData "a b c".toList false ⟨0, 0⟩, minV := ⟨0, -9⟩, maxV := ⟨69 / 2, 0⟩,
    usedTextWidth := 0, usedTextHeight := 0,
    entities := [.insert ['a'] ⟨0, -9⟩ ⟨0, -9⟩ ⟨6, 0⟩,
                 .insert ['b'] ⟨51 / 4, -9⟩ ⟨51 / 4, -9⟩ ⟨75 / 4, 0⟩,
                 .insert ['c'] ⟨51 / 2, -9⟩ ⟨51 / 2, -9⟩ ⟨63 / 2, 0⟩] }

/-- The fragment `a ` of `abcLeaf`, with the given used sizes. -/
def abcFront (w h : ℚ) : RS_MText :=
  { data := abcData "a ".toList true ⟨0, 0⟩, minV := ⟨0, -9⟩, maxV := ⟨6, 0⟩,
    usedTextWidth := w, usedTextHeight := h,
    entities := [.insert ['a'] ⟨0, -9⟩ ⟨0, -9⟩ ⟨6, 0⟩] }

/-- The fragment `b ` of `abcLeaf` on the second line, at the left margin. -/
def abcSecond : RS_MText :=
  { data := abcData "b ".toList true ⟨0, -15000003 / 1000000⟩,
    minV := ⟨0, -24000003 / 1000000⟩, maxV := ⟨6, -15000003 / 1000000⟩,
    usedTextWidth := 0, usedTextHeight := 0,
    entities := [.insert ['b'] ⟨0, -24000003 / 1000000⟩ ⟨0, -24000003 / 1000000⟩
      ⟨6, -15000003 / 1000000⟩] }

/-- The fragment `b ` of `abcLeaf` on the first line, behind the fragment `a `. -/
def abcSecondInline : RS_MText :=
  { data := abcData "b ".toList true ⟨6, 0⟩, minV := ⟨6, -9⟩, maxV := ⟨12, 0⟩,
    usedTextWidth := 6, usedTextHeight := 9,
    entities := [.insert ['b'] ⟨6, -9⟩ ⟨6, -9⟩ ⟨12, 0⟩] }

/-- The run `abcLeaf` after a first `layout` between the margins 0 and 10. -/
def abcWrapped : RS_MText :=
  { abcLeaf with usedTextWidth := 69 / 2, usedTextHeight := 9,
                 entities := [(abcFront 0 0).toEntity, abcSecond.toEntity] }

/-- The run `abcWrapped` after a second `layout` between the same margins. -/
def abcRelaid : RS_MText :=
  { abcLeaf with usedTextWidth := 69 / 2, usedTextHeight := 9,
                 entities := [(abcFront 6 9).toEntity, abcSecondInline.toEntity] }

/-- The run `abcLeaf` with its borders drawn around its glyphs by `calculateBorders`. -/
def abcLeafTight : RS_MText := { abcLeaf with maxV := ⟨63 / 2, 0⟩ }

/-- The run `abcLeafTight` after the `layout` call of `setText`. -/
def abcWrappedTight : RS_MText :=
  { abcLeafTight with usedTextWidth := 63 / 2, usedTextHeight := 9,
                      entities := [(abcFront 0 0).toEntity, abcSecond.toEntity] }

/-- The run `abcWrappedTight` with its borders drawn around its two children. -/
def abcWrappedBox : RS_MText :=
  { abcWrappedTight with minV := ⟨0, -24000003 / 1000000⟩, maxV := ⟨6, 0⟩ }

/-- The root that `setText` leaves for the text `a b c` with reference width 10. -/
def abcRoot : RS_MText :=
  { abcWrappedBox with usedTextWidth := 6, usedTextHeight := 24000003 / 1000000 }


/-- Whether a string is built only from ordinary display characters (anything other than
`\`, `^`, `{`, `}`) and the two-character escapes `\\`, `\{`, `\}`, `\~`. -/
def isLiteralText : QString → Bool
  | [] => true
  | [c] => !(c == '\\' || c == '^' || c == '\x7b' || c == '\x7d')
  | c :: e :: rest =>
    if c = '\\' then (e == '\\' || e == '\x7b' || e == '\x7d' || e == '~') && isLiteralText rest
    else !(c == '^' || c == '\x7b' || c == '\x7d') && isLiteralText (e :: rest)

/-- The scan position of `getSecnStarts` after one pass of its loop from the position `n`; the
position does not depend on the rest of the scan state. -/
def scanNext (text : QString) (n : Int) : Int :=
  (secnStep text { n := n, isCodeSecn := true, vecStarts := [] }).n

/-- A boundary list is in non-decreasing order and none of its offsets lies beyond `n`. -/
def orderedUpTo (v : List Nat) (n : Int) : Prop :=
  v.Pairwise (· ≤ ·) ∧ ∀ x ∈ v, (x : Int) ≤ n
/-! ## Facts about the string primitives -/

theorem findIdx_eq_neg_one_or (p : Char → Bool) (s : QString) (i : Int) :
    findIdx p s i = -1 ∨ (i ≤ findIdx p s i ∧ findIdx p s i < i + s.length) := by
  induction s generalizing i with
  | nil => left; rfl
  | cons c cs ih =>
    simp only [findIdx]
    split
    · right
      constructor
      · exact le_refl _
      · simp only [List.length_cons]; push_cast; omega
    · rcases ih (i + 1) with h | ⟨h1, h2⟩
      · left; exact h
      · right
        constructor
        · omega
        · simp only [List.length_cons]; push_cast; omega

theorem findIdx_of_mem (p : Char → Bool) (s : QString) (i : Int) (hi : 0 ≤ i)
    (h : ∃ c ∈ s, p c = true) : i ≤ findIdx p s i := by
  induction s generalizing i with
  | nil => obtain ⟨c, hc, _⟩ := h; cases hc
  | cons d ds ih =>
    simp only [findIdx]
    split
    · exact le_refl _
    · rename_i hd
      obtain ⟨c, hc, hpc⟩ := h
      rcases List.mem_cons.mp hc with rfl | hc'
      · exact absurd hpc hd
      · have := ih (i + 1) (by omega) ⟨c, hc', hpc⟩
        omega

/-! ## `getMatchingEnd` -/

/-- On a tag text that starts with an opening brace and contains a closing brace,
`getMatchingEnd("{}")` re-enters itself with the same arguments and never returns. -/
theorem getMatchingEnd_diverges (rest : QString) (h : '\x7d' ∈ rest) (fuel : Nat) :
    getMatchingEnd ('\x7b' :: rest) "\x7b\x7d".toList fuel 0 = .error .fuel
      ∧ ∀ n2, matchingLoop ('\x7b' :: rest) "\x7b\x7d".toList fuel 0 n2 = .error .fuel := by
  have hopen : indexOfChar ('\x7b' :: rest) '\x7b' 0 = 0 := by
    simp [indexOfChar, clampFrom, findIdx]
  have hclose : 0 < indexOfChar ('\x7b' :: rest) '\x7d' 0 := by
    have h1 : (1 : Int) ≤ findIdx (fun d => d == '\x7d') rest 1 :=
      findIdx_of_mem _ rest 1 (by omega) ⟨'\x7d', h, by simp⟩
    have h2 : indexOfChar ('\x7b' :: rest) '\x7d' 0 = findIdx (fun d => d == '\x7d') rest 1 := by
      simp [indexOfChar, clampFrom, findIdx]
    omega
  have hd0 : charAt "\x7b\x7d".toList 0 = '\x7b' := by decide
  have hd1 : charAt "\x7b\x7d".toList 1 = '\x7d' := by decide
  induction fuel with
  | zero => exact ⟨rfl, fun _ => rfl⟩
  | succ fuel ih =>
    constructor
    · rw [getMatchingEnd, hd0]
      have : toInt32 0 = 0 := by decide
      rw [this, hopen]
      exact ih.2 0
    · intro n2
      rw [matchingLoop, hd0, hd1, hopen]
      have hlen : (0 : Int) ≠ -1 ∧ (0 : Int) < (('\x7b' :: rest).length : Int) := by
        constructor
        · omega
        · simp only [List.length_cons]; push_cast; omega
      have hcond : (0 : Int) ≠ -1 ∧ (0 : Int) < indexOfChar ('\x7b' :: rest) '\x7d' 0 :=
        ⟨by omega, hclose⟩
      have : toUInt 0 = 0 := by decide
      rw [if_pos hlen, if_pos hcond, this, ih.1]

/-- C10: on the nested, balanced tag text `{\L{\Labc\l}def\l}` the call `getMatchingEnd("{}")`
(start 0) does not return the offset of the outermost closing brace: it returns nothing,
whatever the fuel. -/
theorem getMatchingEnd_nested_never_returns (fuel : Nat) :
    getMatchingEnd "\x7b\\L\x7b\\Labc\\l\x7ddef\\l\x7d".toList "\x7b\x7d".toList fuel 0
      = .error .fuel :=
  (getMatchingEnd_diverges "\\L\x7b\\Labc\\l\x7ddef\\l\x7d".toList (by decide) fuel).1

/-! ## `getSecnStarts` -/

/-- C2: for the one-character source string made of a single backslash, `getSecnStarts`
returns the list `[0, 2]`, whose last element is not the length `1` of the string. -/
theorem getSecnStarts_lone_backslash (k : Nat) :
    getSecnStarts (k + 2) "\\".toList = .ok [0, 2] ∧ "\\".toList.length = 1 :=
  ⟨rfl, rfl⟩

/-- The scan state of `getSecnStarts` on `\H` is the same after one pass of the loop. -/
theorem secnStep_unterminated_fixed :
    secnStep "\\H".toList { n := 0, isCodeSecn := true, vecStarts := [0] }
      = { n := 0, isCodeSecn := true, vecStarts := [0] } := by decide

/-- C3: on the source string `\H` (a setting code with no terminating semicolon)
`getSecnStarts` does not terminate: no amount of fuel yields a boundary list. -/
theorem getSecnStarts_unterminated_setting_diverges (fuel : Nat) :
    getSecnStarts fuel "\\H".toList = .error .fuel := by
  unfold getSecnStarts
  induction fuel with
  | zero => rfl
  | succ fuel ih =>
    rw [secnLoop]
    have hlt : ((0 : Int) < ("\\H".toList.length : Int)) := by decide
    simp only [hlt, if_true, secnStep_unterminated_fixed]
    exact ih

/-! ## `wordwrap` on a glyph holder whose text has no whitespace -/

theorem isSpace_NUL : isSpace NUL = false := by decide

theorem isSpace_charAt_of_nospace (text : QString) (h : ∀ c ∈ text, isSpace c = false)
    (i : Int) : isSpace (charAt text i) = false := by
  unfold charAt
  split
  · exact isSpace_NUL
  · rw [List.getD_eq_getElem?_getD]
    cases hget : text[i.toNat]? with
    | none => exact isSpace_NUL
    | some c =>
      obtain ⟨hlt, hc⟩ := List.getElem?_eq_some_iff.mp hget
      exact h c (hc ▸ List.getElem_mem hlt)

theorem derefTxt_of_nospace (text : QString) (h : ∀ c ∈ text, isSpace c = false)
    (t : Int) (h0 : 0 ≤ t) (h1 : t ≤ text.length) :
    ∃ c, derefTxt text t = .ok c ∧ isSpace c = false := by
  refine ⟨charAt text t, ?_, isSpace_charAt_of_nospace text h t⟩
  unfold derefTxt
  rw [if_pos ⟨h0, h1⟩]

theorem skipSpaces_of_nospace (text : QString) (h : ∀ c ∈ text, isSpace c = false)
    (t : Int) (h0 : 0 ≤ t) (h1 : t ≤ text.length) : skipSpaces text t = .ok t := by
  unfold skipSpaces
  rw [if_pos ⟨h0, h1⟩]
  obtain ⟨n, rfl⟩ := Int.eq_ofNat_of_zero_le h0
  simp only [Int.toNat_ofNat]
  cases n with
  | zero =>
    have := isSpace_charAt_of_nospace text h 0
    simp [skipSpacesFrom, this]
  | succ n =>
    have := isSpace_charAt_of_nospace text h ((n + 1 : Nat) : Int)
    simp only [skipSpacesFrom, this]
    rfl

theorem scanBack_of_nospace (ents : List RS_Entity) (text : QString) (rightMarg : ℚ)
    (h : ∀ c ∈ text, isSpace c = false) (g : Nat) (t : Int)
    (hg : g < ents.length) (hgt : (g : Int) ≤ t) (ht : t ≤ text.length) :
    ∃ g', g' ≤ g ∧ scanBack ents text rightMarg g t = .ok (g', t - ((g : Int) - (g' : Int))) := by
  induction g generalizing t with
  | zero => exact ⟨0, le_refl _, by simp [scanBack]⟩
  | succ g ih =>
    obtain ⟨e, he⟩ : ∃ e, ents[g + 1]? = some e := ⟨ents[g + 1], List.getElem?_eq_getElem hg⟩
    by_cases hx : e.getMax.x > rightMarg
    · have hskip := skipSpaces_of_nospace text h (t - 1) (by push_cast at hgt; omega) (by omega)
      obtain ⟨g', hg', hrun⟩ := ih (t - 1) (by omega) (by push_cast at hgt; omega) (by omega)
      refine ⟨g', by omega, ?_⟩
      simp only [scanBack, he, hx, if_true, hskip, hrun]
      congr 2
      push_cast
      omega
    · refine ⟨g + 1, le_refl _, ?_⟩
      simp only [scanBack, he, hx, if_false]
      congr 2
      omega

theorem scanToSpace_of_nospace (text : QString) (h : ∀ c ∈ text, isSpace c = false)
    (g : Nat) (t : Int) (hgt : (g : Int) ≤ t) (ht : t ≤ text.length) :
    scanToSpace text g t = .ok (0, t - (g : Int)) := by
  induction g generalizing t with
  | zero => simp [scanToSpace]
  | succ g ih =>
    obtain ⟨c, hc, hsp⟩ := derefTxt_of_nospace text h t (by push_cast at hgt; omega) ht
    have := ih (t - 1) (by push_cast at hgt; omega) (by omega)
    simp only [scanToSpace, hc, hsp, Bool.not_false, if_true, this]
    congr 2
    push_cast
    omega

/-- The glyph-holder branch of `wordwrap` on an unbreakable text: the whole object is moved
to the left margin, one line down, and `true` is returned. -/
theorem wordwrapGlyphs_unbroken (self : RS_MText) (leftMarg rightMarg : ℚ)
    (htwo : 2 ≤ self.entities.length)
    (hnosp : ∀ c ∈ self.data.text, isSpace c = false)
    (hlen : self.entities.length ≤ self.data.text.length)
    (hlast : ∃ e, self.entities.getLast? = some e ∧ e.getMax.x > rightMarg) :
    self.wordwrapGlyphs leftMarg rightMarg
      = .ok (true, self.move (self.lineFeed (leftMarg - self.data.insertionPoint.x))) := by
  obtain ⟨e, he, hx⟩ := hlast
  obtain ⟨m, hm⟩ : ∃ m, self.entities.length = m + 2 := ⟨self.entities.length - 2, by omega⟩
  rw [List.getLast?_eq_getElem?, hm] at he
  have he' : self.entities[m + 1]? = some e := by simpa using he
  have hskip := skipSpaces_of_nospace self.data.text hnosp
    ((self.data.text.length : Int) - 1 - 1) (by omega) (by omega)
  obtain ⟨g', hg', hrun⟩ := scanBack_of_nospace self.entities self.data.text rightMarg hnosp m
    ((self.data.text.length : Int) - 1 - 1) (by omega) (by omega) (by omega)
  obtain ⟨c, hc, hsp⟩ := derefTxt_of_nospace self.data.text hnosp
    ((self.data.text.length : Int) - 1 - 1 - ((m : Int) - (g' : Int)) + 1) (by omega) (by omega)
  have hscan := scanToSpace_of_nospace self.data.text hnosp g'
    ((self.data.text.length : Int) - 1 - 1 - ((m : Int) - (g' : Int))) (by omega) (by omega)
  obtain ⟨c', hc', hsp'⟩ := derefTxt_of_nospace self.data.text hnosp
    ((self.data.text.length : Int) - 1 - 1 - ((m : Int) - (g' : Int)) - (g' : Int))
    (by omega) (by omega)
  have hne : ¬ (g' = m + 2 - 1) := by omega
  unfold RS_MText.wordwrapGlyphs
  simp only [hm, Nat.add_sub_cancel, show m + 2 - 1 = m + 1 from rfl, scanBack, he', hx,
    if_true, hskip, hrun, hc, hsp, hscan, hc', hsp']
  simp [show ¬ (g' = m + 1) by omega]

/-! ## Facts about `move` -/

@[ext] theorem RS_Vector.ext {a b : RS_Vector} (hx : a.x = b.x) (hy : a.y = b.y) : a = b := by
  cases a; cases b; simp_all

@[simp] theorem RS_Vector.add_x (a b : RS_Vector) : (a + b).x = a.x + b.x := rfl
@[simp] theorem RS_Vector.add_y (a b : RS_Vector) : (a + b).y = a.y + b.y := rfl
@[simp] theorem RS_Vector.sub_x (a b : RS_Vector) : (a - b).x = a.x - b.x := rfl
@[simp] theorem RS_Vector.sub_y (a b : RS_Vector) : (a - b).y = a.y - b.y := rfl

theorem RS_Vector.vadd_assoc (a b c : RS_Vector) : a + b + c = a + (b + c) := by
  ext <;> simp [add_assoc]

theorem moveAll_eq_map (d : RS_Vector) (es : List RS_Entity) :
    RS_Entity.moveAll d es = es.map (RS_Entity.move d) := by
  induction es with
  | nil => rfl
  | cons e es ih => simp [RS_Entity.moveAll, ih]

@[simp] theorem length_moveAll (d : RS_Vector) (es : List RS_Entity) :
    (RS_Entity.moveAll d es).length = es.length := by
  simp [moveAll_eq_map]

@[simp] theorem isInsert_move (d : RS_Vector) (e : RS_Entity) :
    (RS_Entity.move d e).isInsert = e.isInsert := by
  cases e <;> simp [RS_Entity.move, RS_Entity.isInsert]

theorem getMax_move (d : RS_Vector) (e : RS_Entity) :
    (RS_Entity.move d e).getMax = e.getMax + d := by
  cases e with
  | insert n ip mn mx => simp [RS_Entity.move, RS_Entity.getMax]
  | line a b =>
    simp only [RS_Entity.move, RS_Entity.getMax]
    ext
    · simp [max_add_add_right]
    · simp [max_add_add_right]
  | mtext c es => simp [RS_Entity.move, RS_Entity.getMax, MTextCore.moved]

@[simp] theorem hasGlyphs_move (self : RS_MText) (d : RS_Vector) :
    (self.move d).hasGlyphs = self.hasGlyphs := by
  unfold RS_MText.hasGlyphs RS_MText.move
  cases h : self.entities with
  | nil => simp [RS_Entity.moveAll]
  | cons e es => simp [RS_Entity.moveAll]

@[simp] theorem move_entities (self : RS_MText) (d : RS_Vector) :
    (self.move d).entities = RS_Entity.moveAll d self.entities := rfl

@[simp] theorem move_data (self : RS_MText) (d : RS_Vector) :
    (self.move d).data = self.data.moved d := rfl

@[simp] theorem move_maxV (self : RS_MText) (d : RS_Vector) :
    (self.move d).maxV = self.maxV + d := rfl

@[simp] theorem move_minV (self : RS_MText) (d : RS_Vector) :
    (self.move d).minV = self.minV + d := rfl

@[simp] theorem moved_text (data : RS_MTextData) (d : RS_Vector) :
    (data.moved d).text = data.text := rfl

@[simp] theorem moved_insertionPoint (data : RS_MTextData) (d : RS_Vector) :
    (data.moved d).insertionPoint = data.insertionPoint + d := rfl

theorem getLast?_moveAll (d : RS_Vector) (es : List RS_Entity) :
    (RS_Entity.moveAll d es).getLast? = es.getLast?.map (RS_Entity.move d) := by
  rw [moveAll_eq_map, List.getLast?_map]

/-- A glyph holder with at least two glyphs, a text without whitespace that is not shorter
than its glyph sequence, and a last glyph beyond `rightMarg`: `wordwrap` returns `true`, the
object is not split, its text is unchanged, its glyphs are the same glyphs, each translated by
the same offset, and the insertion point is at `leftMarg`, lowered by
`height * 1.666667 * lineSpacingFactor`. -/
theorem wordwrap_unbroken_pushed_down (fuel : Nat) (self : RS_MText) (leftMarg rightMarg : ℚ)
    (hglyph : self.hasGlyphs = true)
    (htwo : 2 ≤ self.entities.length)
    (hnosp : ∀ c ∈ self.data.text, isSpace c = false)
    (hlen : self.entities.length ≤ self.data.text.length)
    (hlast : ∃ e, self.entities.getLast? = some e ∧ e.getMax.x > rightMarg) :
    ∃ self' : RS_MText,
      wordwrap (fuel + 1) self leftMarg rightMarg = .ok (true, self')
      ∧ self'.data.text = self.data.text
      ∧ self'.hasGlyphs = true
      ∧ self'.entities = self.entities.map
          (RS_Entity.move ⟨leftMarg - self.data.insertionPoint.x,
            -(self.data.height * STDLINESPACE * self.data.lineSpacingFactor)⟩)
      ∧ self'.data.insertionPoint.x = leftMarg
      ∧ self'.data.insertionPoint.y
          = self.data.insertionPoint.y
            - self.data.height * STDLINESPACE * self.data.lineSpacingFactor
      ∧ self' = self.move ⟨leftMarg - self.data.insertionPoint.x,
            -(self.data.height * STDLINESPACE * self.data.lineSpacingFactor)⟩ := by
  have hfeed : self.lineFeed (leftMarg - self.data.insertionPoint.x)
      = ⟨leftMarg - self.data.insertionPoint.x,
          -(self.data.height * STDLINESPACE * self.data.lineSpacingFactor)⟩ := by
    unfold RS_MText.lineFeed
    congr 1
    ring
  refine ⟨self.move ⟨leftMarg - self.data.insertionPoint.x,
            -(self.data.height * STDLINESPACE * self.data.lineSpacingFactor)⟩, ?_, ?_, ?_, ?_,
            ?_, ?_, rfl⟩
  · rw [wordwrap, if_pos hglyph,
      wordwrapGlyphs_unbroken self leftMarg rightMarg htwo hnosp hlen hlast, hfeed]
  · simp
  · simpa using hglyph
  · simp [moveAll_eq_map]
  · simp
  · simp
    ring

/-- An instance: the two-glyph holder of the text `ab`, which reaches `x = 2`, against the
margins `0` and `3/2`. -/
theorem wordwrap_unbroken_pushed_down_ab :
    ∃ self' : RS_MText,
      wordwrap 1 unbrokenLeaf 0 (3 / 2) = .ok (true, self')
      ∧ self'.data.text = unbrokenLeaf.data.text
      ∧ self'.hasGlyphs = true
      ∧ self'.entities = unbrokenLeaf.entities.map
          (RS_Entity.move ⟨0 - unbrokenLeaf.data.insertionPoint.x,
            -(unbrokenLeaf.data.height * STDLINESPACE * unbrokenLeaf.data.lineSpacingFactor)⟩)
      ∧ self'.data.insertionPoint.x = 0
      ∧ self'.data.insertionPoint.y
          = unbrokenLeaf.data.insertionPoint.y
            - unbrokenLeaf.data.height * STDLINESPACE * unbrokenLeaf.data.lineSpacingFactor
      ∧ self' = unbrokenLeaf.move ⟨0 - unbrokenLeaf.data.insertionPoint.x,
            -(unbrokenLeaf.data.height * STDLINESPACE * unbrokenLeaf.data.lineSpacingFactor)⟩ :=
  wordwrap_unbroken_pushed_down 0 unbrokenLeaf 0 (3 / 2) (by decide) (by decide) (by decide)
    (by decide) ⟨sampleGlyph 'b' 1, rfl, by decide!⟩

/-! ## Non-termination of the wrap loop of `layout` -/

/-- An unbreakable glyph holder that stands at the left margin and reaches beyond the right
margin makes the loop `while (wordwrap(...))` run for ever: every call moves it one line down
and returns `true`. -/
theorem wrapWhile_unbroken_diverges (leftMarg rightMarg : ℚ) (fuel : Nat) (self : RS_MText)
    (hglyph : self.hasGlyphs = true)
    (htwo : 2 ≤ self.entities.length)
    (hnosp : ∀ c ∈ self.data.text, isSpace c = false)
    (hlen : self.entities.length ≤ self.data.text.length)
    (hlast : ∃ e, self.entities.getLast? = some e ∧ e.getMax.x > rightMarg)
    (hx : self.data.insertionPoint.x = leftMarg) :
    wrapWhile fuel self leftMarg rightMarg = .error .fuel := by
  induction fuel generalizing self with
  | zero => rfl
  | succ fuel ih =>
    rw [wrapWhile]
    cases fuel with
    | zero => simp [wordwrap]
    | succ fuel =>
      rw [wordwrap, if_pos hglyph,
        wordwrapGlyphs_unbroken self leftMarg rightMarg htwo hnosp hlen hlast]
      simp only
      apply ih
      · simpa using hglyph
      · simpa using htwo
      · simpa using hnosp
      · simpa using hlen
      · obtain ⟨e, he, hgt⟩ := hlast
        refine ⟨RS_Entity.move (self.lineFeed (leftMarg - self.data.insertionPoint.x)) e,
          ?_, ?_⟩
        · rw [move_entities, getLast?_moveAll, he]; rfl
        · rw [getMax_move]
          simp only [RS_Vector.add_x, RS_MText.lineFeed, hx, sub_self, add_zero]
          exact hgt
      · simp [RS_MText.lineFeed, hx]

/-- The same for `layout`: called on such a glyph holder (not list text, break mode not
`Never`) with a target position at the left margin, it never returns. -/
theorem layout_unbroken_diverges (leftMargin rightMargin : ℚ) (posnV : RS_Vector) (fuel : Nat)
    (self : RS_MText)
    (hglyph : self.hasGlyphs = true)
    (htwo : 2 ≤ self.entities.length)
    (hnosp : ∀ c ∈ self.data.text, isSpace c = false)
    (hlen : self.entities.length ≤ self.data.text.length)
    (hlast : ∃ e, self.entities.getLast? = some e
      ∧ e.getMax.x + (posnV.x - self.data.insertionPoint.x) > rightMargin)
    (hmax : self.maxV.x + (posnV.x - self.data.insertionPoint.x) > rightMargin)
    (hposn : posnV.x = leftMargin)
    (hlist : self.data.isListText = false)
    (hbreak : self.data.linebreak ≠ MTextBreakMode.Never) :
    layout fuel self posnV leftMargin rightMargin = .error .fuel := by
  cases fuel with
  | zero => rfl
  | succ fuel =>
    have hx1 : (self.move (posnV - self.data.insertionPoint)).data.insertionPoint.x
        = leftMargin := by
      simp [hposn]
    have hnoret : (self.move (posnV - self.data.insertionPoint)).wantsLineReturn leftMargin
        = false := by
      unfold RS_MText.wantsLineReturn
      rw [hx1]
      simp
    have hstart : self.layoutStart posnV leftMargin
        = (self.move (posnV - self.data.insertionPoint),
           (self.move (posnV - self.data.insertionPoint)).data.insertionPoint) := by
      unfold RS_MText.layoutStart
      simp only [hnoret]
      rfl
    have hdiv := wrapWhile_unbroken_diverges leftMargin rightMargin fuel
      (self.move (posnV - self.data.insertionPoint)) (by simpa using hglyph)
      (by simpa using htwo) (by simpa using hnosp) (by simpa using hlen)
      (by
        obtain ⟨e, he, hgt⟩ := hlast
        refine ⟨RS_Entity.move (posnV - self.data.insertionPoint) e, ?_, ?_⟩
        · rw [move_entities, getLast?_moveAll, he]; rfl
        · rw [getMax_move]
          simpa using hgt)
      hx1
    have hlist' : (self.move (posnV - self.data.insertionPoint)).data.isListText = false := by
      simpa [RS_MTextData.isListText, RS_MTextData.hasListFormat, RS_MTextData.moved] using hlist
    have hmax' : ¬ ((self.move (posnV - self.data.insertionPoint)).maxV.x ≤ rightMargin) := by
      simp only [move_maxV, RS_Vector.add_x, RS_Vector.sub_x, not_le]
      exact hmax
    have hbreak' : ¬ ((self.move (posnV - self.data.insertionPoint)).data.linebreak
        = MTextBreakMode.Never) := by
      simpa [RS_MTextData.moved] using hbreak
    rw [layout, hstart]
    simp only [hasGlyphs_move, hglyph, if_true]
    unfold RS_MText.layoutGlyphs
    rw [hlist']
    simp only [Bool.false_eq_true, if_false, if_neg hmax', if_neg hbreak']
    unfold wrapAll
    rw [hdiv]

/-- C6: `layout` called on the two-glyph holder of the unbreakable text `ab`, which is wider
(2) than the space between the margins `0 < 3/2`, never returns: whatever the fuel, the loop
`while (wordwrap(...))` is still running. -/
theorem layout_unbroken_word_never_returns (fuel : Nat) :
    layout fuel unbrokenLeaf ⟨0, 0⟩ 0 (3 / 2) = .error .fuel :=
  layout_unbroken_diverges 0 (3 / 2) ⟨0, 0⟩ fuel unbrokenLeaf (by decide) (by decide)
    (by decide) (by decide) ⟨sampleGlyph 'b' 1, rfl, by decide!⟩ (by decide!) rfl (by decide)
    (by decide)

/-- C7: on the two-glyph holder of the unbroken text `ab`, which reaches beyond the right
margin `3/2`, the first `wordwrap` call returns `true` without a split, and the call that
follows with the same margins returns `true` again, not `false`. -/
theorem wordwrap_unbroken_second_call_true (fuel : Nat) :
    ∃ s1 s2 : RS_MText,
      wordwrap (fuel + 1) unbrokenLeaf 0 (3 / 2) = .ok (true, s1)
      ∧ s1.hasGlyphs = true
      ∧ wordwrap (fuel + 1) s1 0 (3 / 2) = .ok (true, s2) := by
  refine ⟨unbrokenLeaf.move (unbrokenLeaf.lineFeed 0),
    (unbrokenLeaf.move (unbrokenLeaf.lineFeed 0)).move
      ((unbrokenLeaf.move (unbrokenLeaf.lineFeed 0)).lineFeed 0), ?_, by decide, ?_⟩
  · rw [wordwrap, if_pos (by decide)]
    decide!
  · rw [wordwrap, if_pos (by decide)]
    decide!

/-! ## `wordwrap` on a composite run -/

/-- When the last child of a composite run needs no wrap, `wordwrap` leaves the composite
with its child list cut by that last child. -/
theorem wordwrap_composite_drops_last (fuel : Nat) (self child child' : RS_MText)
    (leftMarg rightMarg : ℚ)
    (hcomp : self.hasGlyphs = false)
    (hchild : self.entities.getLast? = some child.toEntity)
    (hwrap : wordwrap fuel child leftMarg rightMarg = .ok (false, child')) :
    wordwrap (fuel + 2) self leftMarg rightMarg
      = .ok (false, { self with entities := self.entities.dropLast }) := by
  rw [wordwrap, if_neg (by simp [hcomp]), wrapLast, hchild]
  have : child.toEntity.asMText = some child := rfl
  simp only [this, hwrap]

/-- C5: `wordwrap` on the composite run whose only child is a one-glyph leaf that fits between
the margins `0` and `10`: the child's own `wordwrap` returns `false`, and the composite is
left with an empty child list. -/
theorem wordwrap_composite_loses_last_child (fuel : Nat) :
    wordwrap (fuel + 1) fittingLeaf 0 10 = .ok (false, fittingLeaf)
      ∧ compositeOfOne.entities = [fittingLeaf.toEntity]
      ∧ wordwrap (fuel + 3) compositeOfOne 0 10
          = .ok (false, { compositeOfOne with entities := [] }) := by
  have h1 : wordwrap (fuel + 1) fittingLeaf 0 10 = .ok (false, fittingLeaf) := by
    rw [wordwrap, if_pos (by decide)]
    decide!
  exact ⟨h1, rfl,
    wordwrap_composite_drops_last (fuel + 1) compositeOfOne fittingLeaf fittingLeaf 0 10
      (by decide) rfl h1⟩

/-! ## The split made by `wordwrap` -/

@[simp] theorem RS_Vector.neg_x (a : RS_Vector) : (-a).x = -a.x := rfl
@[simp] theorem RS_Vector.neg_y (a : RS_Vector) : (-a).y = -a.y := rfl

theorem RS_Vector.add_neg_cancel (a d : RS_Vector) : a + d + -d = a := by
  ext <;> simp

mutual
theorem move_neg_move (d : RS_Vector) : ∀ e : RS_Entity,
    RS_Entity.move (-d) (RS_Entity.move d e) = e
  | .insert n ip mn mx => by simp [RS_Entity.move, RS_Vector.add_neg_cancel]
  | .line a b => by simp [RS_Entity.move, RS_Vector.add_neg_cancel]
  | .mtext c es => by
    have h := moveAll_neg_moveAll d es
    cases c with
    | mk data minV maxV w hgt =>
      cases data
      simp [RS_Entity.move, MTextCore.moved, RS_MTextData.moved, RS_Vector.add_neg_cancel, h]
theorem moveAll_neg_moveAll (d : RS_Vector) : ∀ es : List RS_Entity,
    RS_Entity.moveAll (-d) (RS_Entity.moveAll d es) = es
  | [] => rfl
  | e :: es => by
    simp [RS_Entity.moveAll, move_neg_move d e, moveAll_neg_moveAll d es]
end

theorem derefTxt_space (text : QString) (t : Int) (c : Char)
    (h : derefTxt text t = .ok c) (hsp : isSpace c = true) : 0 ≤ t ∧ t < text.length := by
  unfold derefTxt at h
  split at h
  · rename_i hb
    refine ⟨hb.1, ?_⟩
    rcases lt_or_eq_of_le hb.2 with hlt | heq
    · exact hlt
    · exfalso
      have hc : c = charAt text t := by
        injection h with h'; exact h'.symm
      have : charAt text t = NUL := by
        unfold charAt
        rw [if_neg (by omega), List.getD_eq_getElem?_getD,
          List.getElem?_eq_none (by omega)]
        rfl
      rw [hc, this, isSpace_NUL] at hsp
      exact Bool.noConfusion hsp
  · cases h

theorem left_append_right (text : QString) (t : Int) (h0 : 0 ≤ t) (h1 : t ≤ text.length) :
    left text t ++ right text (text.length - t) = text := by
  obtain ⟨n, rfl⟩ := Int.eq_ofNat_of_zero_le h0
  have hn : n ≤ text.length := by exact_mod_cast h1
  unfold left right
  by_cases hfull : n = text.length
  · subst hfull
    by_cases hz : text.length = 0
    · have : text = [] := List.length_eq_zero.mp hz
      simp [this]
    · have c1 : ((text.length : Int) < 0 ∨ (text.length : Int) ≥ text.length) := Or.inr (le_refl _)
      have c2 : ¬ ((text.length : Int) - (text.length : Int) < 0
          ∨ (text.length : Int) - (text.length : Int) ≥ text.length) := by omega
      rw [if_pos c1, if_neg c2]
      simp
  · have hlt : n < text.length := lt_of_le_of_ne hn hfull
    by_cases hz : n = 0
    · subst hz
      have c1 : ¬ (((0 : Nat) : Int) < 0 ∨ ((0 : Nat) : Int) ≥ text.length) := by omega
      have c2 : ((text.length : Int) - ((0 : Nat) : Int) < 0
          ∨ (text.length : Int) - ((0 : Nat) : Int) ≥ text.length) := by omega
      rw [if_neg c1, if_pos c2]
      simp
    · have c1 : ¬ ((n : Int) < 0 ∨ (n : Int) ≥ text.length) := by omega
      have c2 : ¬ ((text.length : Int) - (n : Int) < 0
          ∨ (text.length : Int) - (n : Int) ≥ text.length) := by omega
      rw [if_neg c1, if_neg c2]
      have e1 : (n : Int).toNat = n := by simp
      have e2 : text.length - ((text.length : Int) - (n : Int)).toNat = n := by omega
      rw [e1, e2]
      exact List.take_append_drop n text

theorem insertPoint_ok (e : RS_Entity) (p : RS_Vector) (h : e.insertPoint = .ok p) :
    e.isInsert = true := by
  cases e <;> simp_all [RS_Entity.insertPoint, RS_Entity.isInsert]

/-- What `resetFrom` makes of a fresh object: the text and the glyph range it is given. -/
theorem resetFrom_fresh (d : RS_MTextData) (src : List RS_Entity) (i j : Nat) (txt : QString)
    (m : RS_MText) (h : (RS_MText.fresh d).resetFrom src i j txt = .ok m) :
    m.data.text = txt ∧ m.entities = (src.take j).drop i
      ∧ (∃ e, src[i]? = some e ∧ e.isInsert = true)
      ∧ (∃ e, ((src.take j).drop i).head? = some e ∧ e.isInsert = true) := by
  unfold RS_MText.resetFrom at h
  simp only [RS_MText.fresh, List.nil_append] at h
  split at h
  · rename_i e0 eLast eFirst h0 hL hF
    split at h
    · rename_i p0 pFirst hp0 hpF
      injection h with h
      subst h
      exact ⟨rfl, rfl, ⟨e0, h0, insertPoint_ok e0 p0 hp0⟩, ⟨eFirst, hF, insertPoint_ok _ _ hpF⟩⟩
    · cases h
  · cases h

/-- What `splitAt` makes of a glyph holder when the text offset lies inside the text. -/
theorem splitAt_spec (self self' : RS_MText) (g : Nat) (t : Int) (leftMarg : ℚ) (b : Bool)
    (h0 : 0 ≤ t) (h1 : t ≤ self.data.text.length)
    (h : self.splitAt g t leftMarg = .ok (b, self')) :
    ∃ (A B : RS_MText) (δ : RS_Vector),
      b = true ∧ self'.entities = [A.toEntity, B.toEntity]
      ∧ A.hasGlyphs = true ∧ B.hasGlyphs = true
      ∧ A.data.text ++ B.data.text = self.data.text
      ∧ A.entities = self.entities.take g
      ∧ B.entities = (self.entities.drop g).map (RS_Entity.move δ) := by
  unfold RS_MText.splitAt at h
  simp only at h
  split at h
  · rename_i front last hfront hlast
    injection h with h
    have hb : true = b := congrArg Prod.fst h
    have hs : _ = self' := congrArg Prod.snd h
    obtain ⟨ft, fe, _, ⟨ef, hef, hefi⟩⟩ := resetFrom_fresh _ _ _ _ _ _ hfront
    obtain ⟨lt, le, ⟨el, hel, heli⟩, _⟩ := resetFrom_fresh _ _ _ _ _ _ hlast
    simp only [List.drop_zero] at fe hef
    rw [List.take_length] at le
    refine ⟨front, last.move (self.lineFeed (leftMarg - last.data.insertionPoint.x)),
      self.lineFeed (leftMarg - last.data.insertionPoint.x), hb.symm, ?_, ?_, ?_, ?_, fe, ?_⟩
    · rw [← hs]
    · unfold RS_MText.hasGlyphs
      rw [fe]
      cases htk : List.take g self.entities with
      | nil => rw [htk] at hef; cases hef
      | cons a as =>
        rw [htk] at hef
        simp only [List.head?_cons, Option.some.injEq] at hef
        subst hef
        exact hefi
    · rw [hasGlyphs_move]
      unfold RS_MText.hasGlyphs
      rw [le]
      have hhead : (List.drop g self.entities).head? = some el := by
        rw [List.head?_drop]; exact hel
      cases hdr : List.drop g self.entities with
      | nil => rw [hdr] at hhead; cases hhead
      | cons a as =>
        rw [hdr] at hhead
        simp only [List.head?_cons, Option.some.injEq] at hhead
        subst hhead
        simpa [RS_Entity.moveAll] using heli
    · rw [move_data, moved_text, ft, lt]
      exact left_append_right _ t h0 h1
    · rw [move_entities, le, moveAll_eq_map]
  · cases h
  · cases h

/-- C4: whenever `wordwrap` splits a glyph holder (the object is no glyph holder afterwards),
it returns `true` and leaves exactly two children, both glyph holders; their texts,
concatenated, are the original text; the first holds the first `g` glyphs, the second holds
the remaining glyphs, in order, each translated by the line feed `δ`; undoing that translation
and concatenating gives back the original glyph sequence. -/
theorem wordwrap_split_round_trip (fuel : Nat) (self self' : RS_MText)
    (leftMarg rightMarg : ℚ) (b : Bool)
    (hglyph : self.hasGlyphs = true)
    (hrun : wordwrap fuel self leftMarg rightMarg = .ok (b, self'))
    (hsplit : self'.hasGlyphs = false) :
    ∃ (A B : RS_MText) (g : Nat) (δ : RS_Vector),
      b = true ∧ self'.entities = [A.toEntity, B.toEntity]
      ∧ A.hasGlyphs = true ∧ B.hasGlyphs = true
      ∧ A.data.text ++ B.data.text = self.data.text
      ∧ A.entities = self.entities.take g
      ∧ B.entities = (self.entities.drop g).map (RS_Entity.move δ)
      ∧ A.entities ++ B.entities.map (RS_Entity.move (-δ)) = self.entities := by
  have key : ∀ (g : Nat) (t : Int), 0 ≤ t → t ≤ self.data.text.length →
      self.splitAt g t leftMarg = .ok (b, self') →
      ∃ (A B : RS_MText) (g : Nat) (δ : RS_Vector),
        b = true ∧ self'.entities = [A.toEntity, B.toEntity]
        ∧ A.hasGlyphs = true ∧ B.hasGlyphs = true
        ∧ A.data.text ++ B.data.text = self.data.text
        ∧ A.entities = self.entities.take g
        ∧ B.entities = (self.entities.drop g).map (RS_Entity.move δ)
        ∧ A.entities ++ B.entities.map (RS_Entity.move (-δ)) = self.entities := by
    intro g t h0 h1 h
    obtain ⟨A, B, δ, hb, he, hA, hB, htxt, hAe, hBe⟩ := splitAt_spec self self' g t leftMarg b h0 h1 h
    refine ⟨A, B, g, δ, hb, he, hA, hB, htxt, hAe, hBe, ?_⟩
    rw [hAe, hBe, ← moveAll_eq_map, ← moveAll_eq_map, moveAll_neg_moveAll]
    exact List.take_append_drop g self.entities
  cases fuel with
  | zero => cases hrun
  | succ fuel =>
    rw [wordwrap, if_pos hglyph] at hrun
    unfold RS_MText.wordwrapGlyphs at hrun
    simp only at hrun
    split at hrun
    · cases hrun
    · rename_i g t hscan
      split at hrun
      · injection hrun with hrun
        have hs : self = self' := congrArg Prod.snd hrun
        rw [← hs, hglyph] at hsplit
        cases hsplit
      · split at hrun
        · cases hrun
        · rename_i c hc
          split at hrun
          · rename_i hsp
            obtain ⟨h0, h1⟩ := derefTxt_space _ _ _ hc hsp
            exact key (g + 1) (t + 2) (by omega) (by omega) hrun
          · split at hrun
            · cases hrun
            · rename_i g' t' hscan'
              split at hrun
              · cases hrun
              · rename_i c' hc'
                split at hrun
                · rename_i hsp'
                  obtain ⟨h0, h1⟩ := derefTxt_space _ _ _ hc' hsp'
                  exact key (g' + 1) (t' + 1) (by omega) (by omega) hrun
                · injection hrun with hrun
                  have hs : _ = self' := congrArg Prod.snd hrun
                  rw [← hs, hasGlyphs_move, hglyph] at hsplit
                  cases hsplit

/-- Witness of C4: the glyph holder of the text `a b` against the margins `0` and `2` is
split after the space. -/
theorem wordwrap_split_round_trip_witness :
    ∃ (A B : RS_MText) (g : Nat) (δ : RS_Vector),
      true = true ∧ twoWordSplit.entities = [A.toEntity, B.toEntity]
      ∧ A.hasGlyphs = true ∧ B.hasGlyphs = true
      ∧ A.data.text ++ B.data.text = twoWordLeaf.data.text
      ∧ A.entities = twoWordLeaf.entities.take g
      ∧ B.entities = (twoWordLeaf.entities.drop g).map (RS_Entity.move δ)
      ∧ A.entities ++ B.entities.map (RS_Entity.move (-δ)) = twoWordLeaf.entities :=
  wordwrap_split_round_trip 1 twoWordLeaf twoWordSplit 0 2 true (by decide) (by decide!)
    (by decide)

/-! ## `setText` on a text without markup -/

theorem RS_Vector.add_zero' (a : RS_Vector) : a + ⟨0, 0⟩ = a := by
  ext <;> simp

mutual
theorem move_zero : ∀ e : RS_Entity, RS_Entity.move ⟨0, 0⟩ e = e
  | .insert n ip mn mx => by simp [RS_Entity.move, RS_Vector.add_zero']
  | .line a b => by simp [RS_Entity.move, RS_Vector.add_zero']
  | .mtext c es => by
    have h := moveAll_zero es
    cases c with
    | mk data minV maxV w hgt =>
      cases data
      simp [RS_Entity.move, MTextCore.moved, RS_MTextData.moved, RS_Vector.add_zero', h]
theorem moveAll_zero : ∀ es : List RS_Entity, RS_Entity.moveAll ⟨0, 0⟩ es = es
  | [] => rfl
  | e :: es => by simp [RS_Entity.moveAll, move_zero e, moveAll_zero es]
end

theorem RS_MText.move_origin (m : RS_MText) : m.move ⟨0, 0⟩ = m := by
  cases m with
  | mk core es =>
    cases core with
    | mk data minV maxV w hgt =>
      cases data
      simp [RS_MText.move, MTextCore.moved, RS_MTextData.moved, RS_Vector.add_zero',
        moveAll_zero]

theorem charAt_natCast (t : QString) (n : Nat) : charAt t (n : Int) = t.getD n NUL := by
  unfold charAt
  rw [if_neg (by omega)]
  simp

theorem toUInt_natCast (n : Nat) (h : n < 4294967296) : toUInt (n : Int) = n := by
  unfold toUInt
  omega

theorem toLatin1_ne (c d : Char) (hd : d ≠ NUL) (h : c ≠ d) : toLatin1 c ≠ d := by
  unfold toLatin1
  split
  · exact fun e => hd e.symm
  · exact h

theorem toLatin1_eq (c d : Char) (hd : d ≠ NUL) (h : toLatin1 c = d) : c = d := by
  unfold toLatin1 at h
  split at h
  · exact absurd h.symm hd
  · exact h

theorem getD_mem (t : QString) (n : Nat) (h : n < t.length) : t.getD n NUL ∈ t := by
  rw [List.getD_eq_getElem?_getD, List.getElem?_eq_getElem h]
  exact List.getElem_mem h

/-- One pass of the scan loop of `getSecnStarts` over an ordinary display character inside a
display section moves on by one character and pushes nothing. -/
theorem secnStep_plain (t : QString)
    (hplain : ∀ c ∈ t, c ≠ '\\' ∧ c ≠ '\x7b' ∧ c ≠ '\x7d')
    (hcaret : ∀ i < t.length, t.getD i NUL = '^' → t.getD (i + 1) NUL ≠ 'I')
    (n : Nat) (hn : n < t.length) (vec : List Nat) :
    secnStep t { n := n, isCodeSecn := false, vecStarts := vec }
      = { n := (n : Int) + 1, isCodeSecn := false, vecStarts := vec } := by
  obtain ⟨h1, h2, h3⟩ := hplain _ (getD_mem t n hn)
  have e1 : toLatin1 (charAt t (n : Int)) ≠ '\\' :=
    toLatin1_ne _ _ (by decide) (by rw [charAt_natCast]; exact h1)
  have e2 : toLatin1 (charAt t (n : Int)) ≠ '\x7b' :=
    toLatin1_ne _ _ (by decide) (by rw [charAt_natCast]; exact h2)
  have e3 : toLatin1 (charAt t (n : Int)) ≠ '\x7d' :=
    toLatin1_ne _ _ (by decide) (by rw [charAt_natCast]; exact h3)
  unfold secnStep
  simp only [e1, e2, e3, if_false, or_self]
  by_cases hc : toLatin1 (charAt t (n : Int)) = '^'
  · have hc' : t.getD n NUL = '^' := by
      have := toLatin1_eq _ _ (by decide) hc
      rwa [charAt_natCast] at this
    have hI : ¬ (charAt t ((n : Int) + 1) = 'I') := by
      have := hcaret n hn hc'
      have e : ((n : Int) + 1) = ((n + 1 : Nat) : Int) := by push_cast; rfl
      rw [e, charAt_natCast]
      exact this
    simp only [hc, if_true, hI, if_false]
  · simp only [hc, if_false, switchTo]
    simp

/-- The scan of `getSecnStarts` inside a display section that holds only ordinary display
characters. -/
theorem secnLoop_plain (t : QString) (hsize : t.length < 2147483648)
    (hplain : ∀ c ∈ t, c ≠ '\\' ∧ c ≠ '\x7b' ∧ c ≠ '\x7d')
    (hcaret : ∀ i < t.length, t.getD i NUL = '^' → t.getD (i + 1) NUL ≠ 'I')
    (vec : List Nat) (k n extra : Nat) (hn : n + k = t.length) :
    secnLoop t (k + 1 + extra) { n := n, isCodeSecn := false, vecStarts := vec }
      = .ok (vec ++ [t.length]) := by
  induction k generalizing n with
  | zero =>
    have hlt : ¬ ((n : Int) < (t.length : Int)) := by omega
    rw [show 0 + 1 + extra = extra + 1 by omega, secnLoop]
    simp only [hlt, if_false]
    rw [toUInt_natCast n (by omega)]
    have : n = t.length := by omega
    rw [this]
  | succ k ih =>
    have hlt : ((n : Int) < (t.length : Int)) := by omega
    rw [show k + 1 + 1 + extra = (k + 1 + extra) + 1 by omega, secnLoop]
    simp only [hlt, if_true]
    rw [secnStep_plain t hplain hcaret n (by omega) vec]
    have e : ((n : Int) + 1) = ((n + 1 : Nat) : Int) := by push_cast; rfl
    rw [e]
    exact ih (n + 1) (by omega)

/-- `getSecnStarts` on a non-empty text of ordinary display characters that does not start
with a caret: an empty code section and one display section. -/
theorem getSecnStarts_plain (t : QString) (hne : t ≠ []) (hsize : t.length < 2147483648)
    (hplain : ∀ c ∈ t, c ≠ '\\' ∧ c ≠ '\x7b' ∧ c ≠ '\x7d')
    (hcaret : ∀ i < t.length, t.getD i NUL = '^' → t.getD (i + 1) NUL ≠ 'I')
    (hfirst : t.head? ≠ some '^')
    (fuel : Nat) (hfuel : t.length + 1 ≤ fuel) :
    getSecnStarts fuel t = .ok [0, 0, t.length] := by
  obtain ⟨c, cs, rfl⟩ := List.exists_cons_of_ne_nil hne
  obtain ⟨h1, h2, h3⟩ := hplain c (List.mem_cons_self c cs)
  have hc : c ≠ '^' := by
    intro e; apply hfirst; simp [e]
  obtain ⟨extra, rfl⟩ : ∃ extra, fuel = (cs.length + 1 + extra) + 1 :=
    ⟨fuel - (cs.length + 2), by simp only [List.length_cons] at hfuel; omega⟩
  unfold getSecnStarts
  rw [secnLoop]
  have hlt : ((0 : Int) < ((c :: cs).length : Int)) := by
    simp only [List.length_cons]; push_cast; omega
  simp only [hlt, if_true]
  have hch : charAt (c :: cs) 0 = c := by simp [charAt]
  have hstep : secnStep (c :: cs) { n := 0, isCodeSecn := true, vecStarts := [0] }
      = { n := ((1 : Nat) : Int), isCodeSecn := false, vecStarts := [0, 0] } := by
    have e1 : toLatin1 c ≠ '\\' := toLatin1_ne _ _ (by decide) h1
    have e2 : toLatin1 c ≠ '\x7b' := toLatin1_ne _ _ (by decide) h2
    have e3 : toLatin1 c ≠ '\x7d' := toLatin1_ne _ _ (by decide) h3
    have e4 : toLatin1 c ≠ '^' := toLatin1_ne _ _ (by decide) hc
    unfold secnStep
    simp only [hch, e1, e2, e3, e4, if_false, or_self, switchTo]
    have : toUInt 0 = 0 := by decide
    simp [this]
  rw [hstep]
  have := secnLoop_plain (c :: cs) hsize hplain hcaret [0, 0] cs.length 1 extra
    (by simp only [List.length_cons]; omega)
  simpa using this

theorem replaceNbsp_plain : ∀ t : QString, (∀ c ∈ t, c ≠ '\\') → replaceNbsp t = t
  | [], _ => rfl
  | [_], _ => rfl
  | c :: d :: rest, h => by
    have hc : c ≠ '\\' := h c (List.mem_cons_self _ _)
    have ih := replaceNbsp_plain (d :: rest) (fun x hx => h x (List.mem_cons_of_mem _ hx))
    simp [replaceNbsp, hc, ih]

/-- The glyph loop of `setText` appends one glyph per non-whitespace character and nothing
else. -/
theorem glyphLoop_spec (font : RS_Font) (text : QString) (first : Nat) (scale : RS_Vector)
    (sw ls y : ℚ) (k nchr : Nat) (x : ℚ) (ents : List RS_Entity)
    (hk : nchr + k = text.length) :
    ∃ G : List RS_Entity,
      (glyphLoop font text first scale sw ls y k nchr x ents).2 = ents ++ G
      ∧ (∀ e ∈ G, e.isInsert = true)
      ∧ G.length = ((text.drop nchr).filter (fun c => !isSpace c)).length := by
  induction k generalizing nchr x ents with
  | zero =>
    refine ⟨[], by simp [glyphLoop], by simp, ?_⟩
    have : text.drop nchr = [] := List.drop_eq_nil_of_le (by omega)
    simp [this]
  | succ k ih =>
    have hlt : nchr < text.length := by omega
    have hdrop : text.drop nchr = text.getD nchr NUL :: text.drop (nchr + 1) := by
      rw [List.getD_eq_getElem?_getD, List.getElem?_eq_getElem hlt]
      simp
    rw [glyphLoop]
    simp only [charAt_natCast]
    by_cases hsp : isSpace (text.getD nchr NUL) = true
    · simp only [hsp, if_true]
      obtain ⟨G, hG, hins, hlen⟩ := ih (nchr + 1) _ ents (by omega)
      refine ⟨G, hG, hins, ?_⟩
      rw [hlen, hdrop, List.filter_cons]
      simp only [hsp, Bool.not_true, Bool.false_eq_true, if_false]
    · simp only [hsp]
      obtain ⟨G, hG, hins, hlen⟩ := ih (nchr + 1) _
        (ents ++ [makeGlyph font (text.getD nchr NUL) ⟨x, y⟩ scale]) (by omega)
      refine ⟨makeGlyph font (text.getD nchr NUL) ⟨x, y⟩ scale :: G, ?_, ?_, ?_⟩
      · simpa using hG
      · intro e he
        rcases List.mem_cons.mp he with rfl | he'
        · simp [makeGlyph, RS_Entity.isInsert]
        · exact hins e he'
      · rw [hdrop, List.filter_cons]
        have hsp' : isSpace (text.getD nchr NUL) = false := by
          cases h : isSpace (text.getD nchr NUL)
          · rfl
          · exact absurd h hsp
        simp only [hsp', Bool.not_false, if_true, List.length_cons, hlen]

theorem calculateBordersAll_inserts : ∀ G : List RS_Entity, (∀ e ∈ G, e.isInsert = true) →
    RS_Entity.calculateBordersAll G = G
  | [], _ => rfl
  | e :: es, h => by
    have he := h e (List.mem_cons_self _ _)
    have ih := calculateBordersAll_inserts es (fun x hx => h x (List.mem_cons_of_mem _ hx))
    cases e <;> simp_all [RS_Entity.calculateBordersAll, RS_Entity.calculateBorders,
      RS_Entity.isInsert]

theorem filter_hasExtent_inserts : ∀ G : List RS_Entity, (∀ e ∈ G, e.isInsert = true) →
    G.filter RS_Entity.hasExtent = G
  | [], _ => rfl
  | e :: es, h => by
    have he := h e (List.mem_cons_self _ _)
    have ih := filter_hasExtent_inserts es (fun x hx => h x (List.mem_cons_of_mem _ hx))
    cases e <;> simp_all [RS_Entity.hasExtent, RS_Entity.isInsert]

theorem updateAll_inserts (env : Env) : ∀ G : List RS_Entity, (∀ e ∈ G, e.isInsert = true) →
    RS_Entity.updateAll env G = .ok G
  | [], _ => rfl
  | e :: es, h => by
    have he := h e (List.mem_cons_self _ _)
    have ih := updateAll_inserts env es (fun x hx => h x (List.mem_cons_of_mem _ hx))
    cases e <;> simp_all [RS_Entity.updateAll, RS_Entity.update, RS_Entity.isInsert]

theorem bordersOf_max_le (bound : ℚ) : ∀ (G : List RS_Entity) (mn mx : RS_Vector),
    (∀ e ∈ G, e.getMax.x ≤ bound) → bordersOf G = some (mn, mx) → mx.x ≤ bound
  | [], _, _, _, h => by simp [bordersOf] at h
  | e :: es, mn, mx, hall, h => by
    have he := hall e (List.mem_cons_self _ _)
    rw [bordersOf] at h
    cases hb : bordersOf es with
    | none =>
      rw [hb] at h
      simp only [Option.some.injEq, Prod.mk.injEq] at h
      rw [← h.2]
      exact he
    | some p =>
      obtain ⟨mn', mx'⟩ := p
      rw [hb] at h
      simp only [Option.some.injEq, Prod.mk.injEq] at h
      have ih := bordersOf_max_le bound es mn' mx'
        (fun x hx => hall x (List.mem_cons_of_mem _ hx)) hb
      rw [← h.2]
      exact max_le he ih

theorem bordersOf_ne_nil (e : RS_Entity) (es : List RS_Entity) :
    ∃ p, bordersOf (e :: es) = some p := by
  rw [bordersOf]
  cases bordersOf es with
  | none => exact ⟨_, rfl⟩
  | some p => exact ⟨_, rfl⟩

theorem RS_Vector.sub_self' (a : RS_Vector) : a - a = ⟨0, 0⟩ := by
  ext <;> simp

theorem calculateBorders_inserts (s : RS_MText) (h : ∀ e ∈ s.entities, e.isInsert = true) :
    (s.calculateBorders).entities = s.entities
      ∧ (s.calculateBorders).data = s.data
      ∧ ∀ bound, (∀ e ∈ s.entities, e.getMax.x ≤ bound) → s.entities ≠ [] →
          (s.calculateBorders).maxV.x ≤ bound := by
  simp only [RS_MText.calculateBorders, calculateBordersAll_inserts _ h,
    filter_hasExtent_inserts _ h]
  cases hb : bordersOf s.entities with
  | none =>
    refine ⟨rfl, rfl, ?_⟩
    intro bound _ hne
    obtain ⟨e, es, hes⟩ := List.exists_cons_of_ne_nil hne
    obtain ⟨p, hp⟩ := bordersOf_ne_nil e es
    rw [hes, hp] at hb
    cases hb
  | some p =>
    obtain ⟨mn, mx⟩ := p
    refine ⟨rfl, rfl, ?_⟩
    intro bound hall _
    exact bordersOf_max_le bound _ mn mx hall hb

theorem update_mtext_inserts (env : Env) (core : MTextCore) (G : List RS_Entity)
    (h : ∀ e ∈ G, e.isInsert = true) (htext : core.data.text ≠ []) :
    ∃ core', RS_Entity.update env (.mtext core G) = .ok (.mtext core' G) := by
  obtain ⟨c, hc⟩ : ∃ c, core.data.text.getLast? = some c := by
    cases hl : core.data.text.getLast? with
    | none => exact absurd (List.getLast?_eq_none_iff.mp hl) htext
    | some c => exact ⟨c, rfl⟩
  rw [RS_Entity.update, updateAll_inserts env _ h]
  simp only [calculateBordersAll_inserts _ h, filter_hasExtent_inserts _ h]
  have key : ∀ core1 : MTextCore, core1.data = core.data →
      ∃ core', (if (match G with | [] => false | e :: _ => e.isInsert) = true then
          match core1.data.text.getLast? with
          | none => Except.error Fault.undefined
          | some c =>
            if isSpace c = true then
              match env.requestFont core1.data.style with
              | none => Except.ok (RS_Entity.mtext core1 G)
              | some font =>
                Except.ok (RS_Entity.mtext { core1 with maxV := ⟨core1.maxV.x
                  + (core1.data.height / 9) * core1.data.textWidthFac * font.wordSpacing,
                  core1.maxV.y⟩ } G)
            else Except.ok (RS_Entity.mtext core1 G)
        else Except.ok (RS_Entity.mtext core1 G)) = Except.ok (RS_Entity.mtext core' G) := by
    intro core1 hd
    rw [hd, hc]
    split
    · simp only
      split
      · cases env.requestFont core.data.style with
        | none => exact ⟨_, rfl⟩
        | some font => exact ⟨_, rfl⟩
      · exact ⟨_, rfl⟩
    · exact ⟨_, rfl⟩
  cases hb : bordersOf G with
  | none => exact key _ rfl
  | some p => exact key _ rfl

theorem update_leaf (env : Env) (s : RS_MText) (h : ∀ e ∈ s.entities, e.isInsert = true)
    (htext : s.data.text ≠ []) :
    ∃ node, s.update env = .ok node ∧ node.entities = s.entities := by
  obtain ⟨core', hcore⟩ := update_mtext_inserts env s.toMTextCore s.entities h htext
  unfold RS_MText.update RS_MText.toEntity
  rw [hcore]
  exact ⟨_, rfl, rfl⟩

theorem layoutStart_self (s : RS_MText) :
    s.layoutStart s.data.insertionPoint s.data.insertionPoint.x = (s, s.data.insertionPoint) := by
  unfold RS_MText.layoutStart
  simp only [RS_Vector.sub_self', RS_MText.move_origin]
  have : s.wantsLineReturn s.data.insertionPoint.x = false := by
    unfold RS_MText.wantsLineReturn
    simp
  simp [this]

/-- `layout` of a run that holds only glyphs, has no tab settings and fits within the right
margin, called with its own insertion point: nothing moves. -/
theorem layout_leaf_fits (fuel : Nat) (s : RS_MText) (rightMargin : ℚ)
    (hins : ∀ e ∈ s.entities, e.isInsert = true)
    (htabs : s.data.tabs = none)
    (hfit : s.entities ≠ [] → s.maxV.x ≤ rightMargin) :
    ∃ rtrnV, layout (fuel + 1) s s.data.insertionPoint s.data.insertionPoint.x rightMargin
      = .ok (s.layoutEnd, rtrnV) := by
  rw [layout, layoutStart_self]
  simp only
  cases hes : s.entities with
  | nil =>
    have hg : s.hasGlyphs = false := by simp [RS_MText.hasGlyphs, hes]
    simp only [hg, Bool.false_eq_true, if_false, hes, layoutChildren]
    refine ⟨s.data.insertionPoint, ?_⟩
    congr 2
    cases s
    simp_all
  | cons e es =>
    have hg : s.hasGlyphs = true := by
      simp only [RS_MText.hasGlyphs, hes]
      exact hins e (by rw [hes]; exact List.mem_cons_self _ _)
    have hlist : s.data.isListText = false := by
      simp [RS_MTextData.isListText, RS_MTextData.hasListFormat, htabs]
    have hle : s.maxV.x ≤ rightMargin := hfit (by rw [hes]; exact List.cons_ne_nil _ _)
    simp only [hg, if_true, RS_MText.layoutGlyphs, hlist, Bool.false_eq_true, if_false, hle]
    exact ⟨_, rfl⟩

theorem setDecorations_plain (data : RS_MTextData) (mn mx : RS_Vector) (G : List RS_Entity)
    (hins : ∀ e ∈ G, e.isInsert = true) (hdecor : data.decoration = MTextDecor.None) :
    setDecorations data mn mx G = .ok G := by
  rw [setDecorations.eq_def]
  have : ¬ (data.decoration ≠ MTextDecor.None ∧ data.multiLine = false) := by
    simp [hdecor]
  simp only [if_neg this]
  cases G with
  | nil => simp [setDecorationsAll]
  | cons e es =>
    have := hins e (List.mem_cons_self _ _)
    simp [this]

/-- The tail of `setText` on a run that holds only glyphs, has no decoration and no tab
settings, and (for a root) fits within the reference width: the glyphs stay as they are. -/
theorem finishText_leaf (env : Env) (fuel : Nat) (isRoot : Bool) (s : RS_MText)
    (hins : ∀ e ∈ s.entities, e.isInsert = true)
    (hdecor : s.data.decoration = MTextDecor.None)
    (htabs : s.data.tabs = none)
    (htext : s.data.text ≠ [])
    (hfit : isRoot = true →
      ∀ e ∈ s.entities, e.getMax.x ≤ s.data.insertionPoint.x + s.data.width) :
    ∃ node, s.finishText env (fuel + 1) isRoot = .ok node ∧ node.entities = s.entities := by
  have hrooted : ∃ s', s'.entities = s.entities ∧ s'.data = s.data ∧
      (if isRoot then
        match layout (fuel + 1) s.calculateBorders s.calculateBorders.data.insertionPoint
            s.calculateBorders.data.insertionPoint.x
            (s.calculateBorders.data.insertionPoint.x + s.calculateBorders.data.width) with
        | .error f => Except.error f
        | .ok (s2, _) =>
          match setDecorations (s2.calculateBorders).data (s2.calculateBorders).minV
              (s2.calculateBorders).maxV (s2.calculateBorders).entities with
          | .error f => Except.error f
          | .ok ents => Except.ok
              { (s2.calculateBorders) with
                  usedTextHeight := (s2.calculateBorders).maxV.y - (s2.calculateBorders).minV.y,
                  usedTextWidth := (s2.calculateBorders).maxV.x - (s2.calculateBorders).minV.x,
                  entities := ents }
       else Except.ok s) = Except.ok s' := by
    cases isRoot with
    | false => exact ⟨s, rfl, rfl, rfl⟩
    | true =>
      obtain ⟨he1, hd1, hm1⟩ := calculateBorders_inserts s hins
      obtain ⟨rt, hlay⟩ := layout_leaf_fits fuel s.calculateBorders
        (s.calculateBorders.data.insertionPoint.x + s.calculateBorders.data.width)
        (by rw [he1]; exact hins) (by rw [hd1]; exact htabs)
        (by
          intro hne
          rw [hd1]
          exact hm1 _ (hfit rfl) (by rwa [he1] at hne))
      simp only [if_true, hlay]
      have he2 : (s.calculateBorders.layoutEnd).entities = s.entities := he1
      have hd2 : (s.calculateBorders.layoutEnd).data = s.data := hd1
      obtain ⟨he3, hd3, _⟩ := calculateBorders_inserts (s.calculateBorders.layoutEnd)
        (by rw [he2]; exact hins)
      rw [setDecorations_plain _ _ _ _ (by rw [he3, he2]; exact hins)
        (by rw [hd3, hd2]; exact hdecor)]
      exact ⟨_, by rw [← he2, ← he3], by rw [← hd2, ← hd3], rfl⟩
  obtain ⟨s', hes, hds, hrun⟩ := hrooted
  unfold RS_MText.finishText
  simp only
  rw [hrun]
  simp only
  by_cases hu : s'.data.updateMode = UpdateMode.Update
  · rw [if_pos hu]
    obtain ⟨node, hnode, hent⟩ := update_leaf env s' (by rw [hes]; exact hins)
      (by rw [hds]; exact htext)
    exact ⟨node, hnode, by rw [hent, hes]⟩
  · rw [if_neg hu]
    exact ⟨s', rfl, hes⟩

/-- On a non-empty text of ordinary display characters that does not begin with a caret and
whose font is found, the constructor reaches the tail of `setText` with the glyph holder
`plainLeaf`. -/
theorem construct_plain (env : Env) (font : RS_Font) (f : Nat) (isRoot : Bool)
    (d : RS_MTextData)
    (hne : d.text ≠ []) (hsize : d.text.length < 2147483648)
    (hplain : ∀ c ∈ d.text, c ≠ '\\' ∧ c ≠ '\x7b' ∧ c ≠ '\x7d')
    (hcaret : ∀ i < d.text.length, d.text.getD i NUL = '^' → d.text.getD (i + 1) NUL ≠ 'I')
    (hfirst : d.text.head? ≠ some '^')
    (hfont : env.requestFont d.style = some font)
    (hfuel : d.text.length ≤ f) :
    RS_MText.construct env (f + 1 + 1) isRoot d
      = (plainLeaf font d).finishText env (f + 1) isRoot := by
  have hsec := getSecnStarts_plain d.text hne hsize hplain hcaret hfirst (f + 1) (by omega)
  have hnb : replaceNbsp d.text = d.text := replaceNbsp_plain d.text (fun c hc => (hplain c hc).1)
  have hdd : ({ d with text := d.text } : RS_MTextData) = d := rfl
  have hempty : d.text.isEmpty = false := by
    cases h : d.text with
    | nil => exact absurd h hne
    | cons c cs => rfl
  unfold RS_MText.construct
  rw [setText]
  simp only [hempty, Bool.false_eq_true, if_false, hsec, List.length_cons, List.length_nil,
    hnb, hdd]
  have hbr : (2 < 0 + 1 + 1 + 1 ∧ 0 + 1 + 1 + 1 < 5) := by omega
  rw [if_pos hbr]
  have htag : tagLoop env (f + 1) (List.getD [0, 0, d.text.length] 1 0) 0 d = .ok d := by
    rw [tagLoop]
    simp
  rw [htag]
  simp only [hfont]
  have e1 : List.getD [0, 0, d.text.length] 1 0 = 0 := rfl
  have e2 : List.getD [0, 0, d.text.length] 2 0 = d.text.length := rfl
  rw [e1, e2, Nat.sub_zero]
  rfl

/-- C1 (amended): for every non-empty text without backslash and brace, without `^I` and not
beginning with `^`, whose font is found, under style data without decoration and tab settings
(as the `RS_MTextData` constructor makes them), and, for a root, with glyphs that fit within
the reference width: the constructor (`setText`) builds exactly one glyph holder, whose
entities are the glyph placements of the text, one for each non-whitespace character. -/
theorem setText_plain_one_leaf (env : Env) (font : RS_Font) (fuel : Nat) (isRoot : Bool)
    (d : RS_MTextData)
    (hne : d.text ≠ []) (hsize : d.text.length < 2147483648)
    (hplain : ∀ c ∈ d.text, c ≠ '\\' ∧ c ≠ '\x7b' ∧ c ≠ '\x7d')
    (hcaret : ∀ i < d.text.length, d.text.getD i NUL = '^' → d.text.getD (i + 1) NUL ≠ 'I')
    (hfirst : d.text.head? ≠ some '^')
    (hfont : env.requestFont d.style = some font)
    (hdecor : d.decoration = MTextDecor.None)
    (htabs : d.tabs = none)
    (hfuel : d.text.length + 2 ≤ fuel)
    (hfit : isRoot = true →
      ∀ e ∈ plainGlyphs font d d.text, e.getMax.x ≤ d.insertionPoint.x + d.width) :
    ∃ node, RS_MText.construct env fuel isRoot d = .ok node
      ∧ node.entities = plainGlyphs font d d.text
      ∧ (∀ e ∈ node.entities, e.isInsert = true)
      ∧ node.entities.length = (d.text.filter (fun c => !isSpace c)).length := by
  obtain ⟨f, rfl⟩ : ∃ f, fuel = f + 1 + 1 := ⟨fuel - 2, by omega⟩
  obtain ⟨G, hG, hins, hlen⟩ := glyphLoop_spec font d.text 0
    ⟨d.height / 9 * d.textWidthFac, d.height / 9⟩
    (d.height / 9 * d.textWidthFac * font.wordSpacing)
    (d.height / 9 * d.textWidthFac * font.letterSpacing)
    (d.insertionPoint.y - d.height) d.text.length 0 d.insertionPoint.x [] (by omega)
  have hPG : plainGlyphs font d d.text = G := by
    unfold plainGlyphs
    rw [hG]
    rfl
  have hent0 : (plainLeaf font d).entities = plainGlyphs font d d.text := rfl
  rw [construct_plain env font f isRoot d hne hsize hplain hcaret hfirst hfont (by omega)]
  obtain ⟨node, hnode, hent⟩ := finishText_leaf env f isRoot (plainLeaf font d)
    (by rw [hent0, hPG]; exact hins) hdecor htabs hne (by rw [hent0]; exact hfit)
  refine ⟨node, hnode, by rw [hent, hent0], by rw [hent, hent0, hPG]; exact hins, ?_⟩
  rw [hent, hent0, hPG, hlen]
  simp

/-- Witness of C1 (amended): the root text `Plain text` with the sample font and a reference
width of 1000. -/
theorem setText_plain_one_leaf_witness :
    ∃ node, RS_MText.construct sampleEnv 20 true (sampleDataWidth 1000 "Plain text".toList)
        = .ok node
      ∧ node.entities
          = plainGlyphs sampleFont (sampleDataWidth 1000 "Plain text".toList) "Plain text".toList
      ∧ (∀ e ∈ node.entities, e.isInsert = true)
      ∧ node.entities.length = ("Plain text".toList.filter (fun c => !isSpace c)).length :=
  setText_plain_one_leaf sampleEnv sampleFont 20 true
    (sampleDataWidth 1000 "Plain text".toList) (by decide) (by decide) (by decide) (by decide)
    (by decide) rfl rfl rfl (by decide) (fun _ => by decide!)

/-- The tail of `setText` for a root whose update mode is `NoUpdate`, from the results of its
four steps. -/
theorem finishText_root (env : Env) (fuel : Nat) (s s1 s2 s3 : RS_MText) (rt : RS_Vector)
    (ents : List RS_Entity)
    (h1 : s.calculateBorders = s1)
    (h2 : layout fuel s1 s1.data.insertionPoint s1.data.insertionPoint.x
      (s1.data.insertionPoint.x + s1.data.width) = .ok (s2, rt))
    (h3 : s2.calculateBorders = s3)
    (h4 : setDecorations s3.data s3.minV s3.maxV s3.entities = .ok ents)
    (hu : s3.data.updateMode = UpdateMode.NoUpdate) :
    s.finishText env fuel true
      = .ok { s3 with usedTextHeight := s3.maxV.y - s3.minV.y,
                      usedTextWidth := s3.maxV.x - s3.minV.x, entities := ents } := by
  unfold RS_MText.finishText
  simp only [if_true, h1, h2, h3, h4]
  rw [if_neg (by rw [hu]; decide)]

theorem setDecorations_leaf (m : RS_MText) (hg : m.hasGlyphs = true)
    (hd : m.data.decoration = MTextDecor.None) :
    setDecorations m.data m.minV m.maxV m.entities = .ok m.entities := by
  rw [setDecorations.eq_def]
  have : ¬ (m.data.decoration ≠ MTextDecor.None ∧ m.data.multiLine = false) := by
    simp [hd]
  simp only [if_neg this]
  unfold RS_MText.hasGlyphs at hg
  rw [if_pos hg]

/-- `setDecorations` on an undecorated run whose children are two undecorated glyph holders
adds nothing. -/
theorem setDecorations_two_leaves (data : RS_MTextData) (mn mx : RS_Vector) (A B : RS_MText)
    (hd : data.decoration = MTextDecor.None)
    (hA : A.hasGlyphs = true) (hAd : A.data.decoration = MTextDecor.None)
    (hB : B.hasGlyphs = true) (hBd : B.data.decoration = MTextDecor.None) :
    setDecorations data mn mx [A.toEntity, B.toEntity] = .ok [A.toEntity, B.toEntity] := by
  rw [setDecorations.eq_def]
  have : ¬ (data.decoration ≠ MTextDecor.None ∧ data.multiLine = false) := by
    simp [hd]
  simp only [if_neg this]
  have hA' := setDecorations_leaf A hA hAd
  have hB' := setDecorations_leaf B hB hBd
  simp only [RS_MText.toEntity, RS_Entity.isInsert, Bool.false_eq_true, if_false,
    setDecorationsAll, hA', hB']

/-- The run of `setText` on the root text `a b c` with the sample font and the reference
width 10, stage by stage: the glyph holder `abcLeaf` is built, its borders are drawn, `layout`
wraps it, the borders are drawn again, and no decoration is added. -/
theorem setText_abc_result :
    RS_MText.construct sampleEnv 20 true (sampleDataWidth 10 "a b c".toList) = .ok abcRoot := by
  have h0 : plainLeaf sampleFont (sampleDataWidth 10 "a b c".toList) = abcLeaf := by decide!
  have h1 : abcLeaf.calculateBorders = abcLeafTight := by decide!
  have h2 : layout 19 abcLeafTight abcLeafTight.data.insertionPoint
      abcLeafTight.data.insertionPoint.x
      (abcLeafTight.data.insertionPoint.x + abcLeafTight.data.width)
        = .ok (abcWrappedTight, ⟨6, -15000003 / 1000000⟩) := by decide!
  have h3 : abcWrappedTight.calculateBorders = abcWrappedBox := by decide!
  have h4 : setDecorations abcWrappedBox.data abcWrappedBox.minV abcWrappedBox.maxV
      abcWrappedBox.entities = .ok abcWrappedBox.entities :=
    setDecorations_two_leaves _ _ _ (abcFront 0 0) abcSecond rfl (by decide) rfl (by decide) rfl
  have h5 : ({ abcWrappedBox with
      usedTextHeight := abcWrappedBox.maxV.y - abcWrappedBox.minV.y,
      usedTextWidth := abcWrappedBox.maxV.x - abcWrappedBox.minV.x,
      entities := abcWrappedBox.entities } : RS_MText) = abcRoot := by decide!
  have hc := construct_plain sampleEnv sampleFont 18 true (sampleDataWidth 10 "a b c".toList)
    (by decide) (by decide) (by decide) (by decide) (by decide) rfl (by decide)
  have hf := finishText_root sampleEnv 19 abcLeaf abcLeafTight abcWrappedTight abcWrappedBox
    ⟨6, -15000003 / 1000000⟩ abcWrappedBox.entities h1 h2 h3 h4 rfl
  rw [h0] at hc
  rw [h5] at hf
  exact hc.trans hf

/-- C1 as stated fails: for the root text `a b c` (no markup, font found) with the reference
width 10, `setText` does not leave one glyph holder with three glyphs: the root holds no
glyphs itself, its children are the glyph holders of `a ` and `b `, with one glyph each. -/
theorem setText_plain_wrapped_not_one_leaf :
    RS_MText.construct sampleEnv 20 true (sampleDataWidth 10 "a b c".toList) = .ok abcRoot
    ∧ abcRoot.hasGlyphs = false
    ∧ abcRoot.entities = [(abcFront 0 0).toEntity, abcSecond.toEntity]
    ∧ (abcFront 0 0).entities.length = 1 ∧ abcSecond.entities.length = 1
    ∧ ("a b c".toList.filter (fun c => !isSpace c)).length = 3 :=
  ⟨setText_abc_result, by decide, rfl, rfl, rfl, by decide⟩

/-- A text that is a lone caret (no markup escape either) is left without any glyph: the scan
of `getSecnStarts` opens no display section for a leading `^`. -/
theorem setText_lone_caret_no_glyph :
    (RS_MText.construct sampleEnv 20 true (sampleDataWidth 1000 "^".toList)).map
        (fun node => node.entities.length) = .ok 0 := by
  decide!

/-! ## `layout` called twice -/

mutual
theorem move_move (a b : RS_Vector) : ∀ e : RS_Entity,
    RS_Entity.move b (RS_Entity.move a e) = RS_Entity.move (a + b) e
  | .insert n ip mn mx => by simp [RS_Entity.move, RS_Vector.vadd_assoc]
  | .line p q => by simp [RS_Entity.move, RS_Vector.vadd_assoc]
  | .mtext c es => by
    have h := moveAll_moveAll a b es
    cases c with
    | mk data minV maxV w hgt =>
      cases data
      simp [RS_Entity.move, MTextCore.moved, RS_MTextData.moved, RS_Vector.vadd_assoc, h]
theorem moveAll_moveAll (a b : RS_Vector) : ∀ es : List RS_Entity,
    RS_Entity.moveAll b (RS_Entity.moveAll a es) = RS_Entity.moveAll (a + b) es
  | [] => rfl
  | e :: es => by simp [RS_Entity.moveAll, move_move a b e, moveAll_moveAll a b es]
end

theorem RS_MText.move_twice (m : RS_MText) (a b : RS_Vector) :
    (m.move a).move b = m.move (a + b) := by
  cases m with
  | mk core es =>
    cases core with
    | mk data minV maxV w hgt =>
      cases data
      simp [RS_MText.move, MTextCore.moved, RS_MTextData.moved, RS_Vector.vadd_assoc,
        moveAll_moveAll]

mutual
theorem sameShape_move_left (d : RS_Vector) : ∀ e e' : RS_Entity,
    sameShape (RS_Entity.move d e) e' = sameShape e e'
  | .insert _ _ _ _, .insert _ _ _ _ => by simp [RS_Entity.move, sameShape]
  | .insert _ _ _ _, .line _ _ => by simp [RS_Entity.move, sameShape]
  | .insert _ _ _ _, .mtext _ _ => by simp [RS_Entity.move, sameShape]
  | .line _ _, .insert _ _ _ _ => by simp [RS_Entity.move, sameShape]
  | .line _ _, .line _ _ => by simp [RS_Entity.move, sameShape]
  | .line _ _, .mtext _ _ => by simp [RS_Entity.move, sameShape]
  | .mtext _ _, .insert _ _ _ _ => by simp [RS_Entity.move, sameShape]
  | .mtext _ _, .line _ _ => by simp [RS_Entity.move, sameShape]
  | .mtext _ es, .mtext _ es' => by
    simp [RS_Entity.move, sameShape, sameShapeAll_move_left d es es']
theorem sameShapeAll_move_left (d : RS_Vector) : ∀ es es' : List RS_Entity,
    sameShapeAll (RS_Entity.moveAll d es) es' = sameShapeAll es es'
  | [], [] => by simp [RS_Entity.moveAll, sameShapeAll]
  | [], _ :: _ => by simp [RS_Entity.moveAll, sameShapeAll]
  | _ :: _, [] => by simp [RS_Entity.moveAll, sameShapeAll]
  | e :: es, e' :: es' => by
    simp [RS_Entity.moveAll, sameShapeAll, sameShape_move_left d e e',
      sameShapeAll_move_left d es es']
end

/-! ### The used-size fields play no part in `wordwrap` -/

@[simp] theorem withUsed_entities (m : RS_MText) (w h : ℚ) :
    (m.withUsed w h).entities = m.entities := rfl
@[simp] theorem withUsed_data (m : RS_MText) (w h : ℚ) : (m.withUsed w h).data = m.data := rfl
@[simp] theorem withUsed_maxV (m : RS_MText) (w h : ℚ) : (m.withUsed w h).maxV = m.maxV := rfl
@[simp] theorem withUsed_minV (m : RS_MText) (w h : ℚ) : (m.withUsed w h).minV = m.minV := rfl
@[simp] theorem withUsed_hasGlyphs (m : RS_MText) (w h : ℚ) :
    (m.withUsed w h).hasGlyphs = m.hasGlyphs := rfl
@[simp] theorem withUsed_move (m : RS_MText) (w h : ℚ) (d : RS_Vector) :
    (m.withUsed w h).move d = (m.move d).withUsed w h := rfl
@[simp] theorem withUsed_lineFeed (m : RS_MText) (w h x : ℚ) :
    (m.withUsed w h).lineFeed x = m.lineFeed x := rfl
@[simp] theorem withUsed_withUsed (m : RS_MText) (w h w' h' : ℚ) :
    (m.withUsed w h).withUsed w' h' = m.withUsed w' h' := rfl
@[simp] theorem withUsed_layoutEnd (m : RS_MText) (w h : ℚ) :
    (m.withUsed w h).layoutEnd = m.layoutEnd := rfl
theorem layoutEnd_eq_withUsed (m : RS_MText) :
    m.layoutEnd = m.withUsed m.getSize.x m.getSize.y := rfl

theorem withUsed_splitAt (m : RS_MText) (w h : ℚ) (g : Nat) (t : Int) (leftMarg : ℚ) :
    (m.withUsed w h).splitAt g t leftMarg
      = (m.splitAt g t leftMarg).map (fun p => (p.1, p.2.withUsed w h)) := by
  unfold RS_MText.splitAt
  simp only [withUsed_data, withUsed_entities, withUsed_lineFeed]
  split <;> rfl

theorem withUsed_wordwrapGlyphs (m : RS_MText) (w h : ℚ) (leftMarg rightMarg : ℚ) :
    (m.withUsed w h).wordwrapGlyphs leftMarg rightMarg
      = (m.wordwrapGlyphs leftMarg rightMarg).map (fun p => (p.1, p.2.withUsed w h)) := by
  unfold RS_MText.wordwrapGlyphs
  simp only [withUsed_data, withUsed_entities, withUsed_lineFeed, withUsed_splitAt,
    withUsed_move]
  split
  · rfl
  · split
    · rfl
    · split
      · rfl
      · split
        · rfl
        · split
          · rfl
          · split
            · rfl
            · split <;> rfl

theorem withUsed_wordwrap (fuel : Nat) (m : RS_MText) (w h : ℚ) (leftMarg rightMarg : ℚ) :
    wordwrap fuel (m.withUsed w h) leftMarg rightMarg
      = (wordwrap fuel m leftMarg rightMarg).map (fun p => (p.1, p.2.withUsed w h)) := by
  cases fuel with
  | zero => rfl
  | succ fuel =>
    rw [wordwrap, wordwrap]
    simp only [withUsed_hasGlyphs, withUsed_wordwrapGlyphs, withUsed_entities]
    split
    · rfl
    · split <;> rfl

theorem withUsed_wrapWhile (fuel : Nat) (m : RS_MText) (w h : ℚ) (leftMarg rightMarg : ℚ) :
    wrapWhile fuel (m.withUsed w h) leftMarg rightMarg
      = (wrapWhile fuel m leftMarg rightMarg).map (fun x => x.withUsed w h) := by
  induction fuel generalizing m with
  | zero => rfl
  | succ fuel ih =>
    rw [wrapWhile, wrapWhile, withUsed_wordwrap]
    cases hw : wordwrap fuel m leftMarg rightMarg with
    | error f => rfl
    | ok p =>
      obtain ⟨b, m'⟩ := p
      cases b with
      | true => simpa [Except.map] using ih m'
      | false => rfl

theorem withUsed_wrapAll (fuel : Nat) (m : RS_MText) (w h : ℚ) (leftMarg rightMarg : ℚ) :
    wrapAll fuel (m.withUsed w h) leftMarg rightMarg
      = (wrapAll fuel m leftMarg rightMarg).map (fun p => (p.1.withUsed w h, p.2)) := by
  unfold wrapAll
  rw [withUsed_wrapWhile]
  cases hw : wrapWhile fuel m leftMarg rightMarg with
  | error f => rfl
  | ok m' =>
    simp only [Except.map, withUsed_entities]
    split <;> rfl

theorem withUsed_layoutGlyphs (fuel : Nat) (m : RS_MText) (w h : ℚ) (rtrnV : RS_Vector)
    (leftMargin rightMargin : ℚ) :
    (m.withUsed w h).layoutGlyphs fuel rtrnV leftMargin rightMargin
      = (m.layoutGlyphs fuel rtrnV leftMargin rightMargin).map
          (fun p => (p.1.withUsed w h, p.2)) := by
  unfold RS_MText.layoutGlyphs
  simp only [withUsed_data, withUsed_maxV, withUsed_move, withUsed_wrapAll, withUsed_lineFeed]
  split
  · split
    · rfl
    · split
      · rfl
      · rfl
  · split
    · rfl
    · split
      · split <;> rfl
      · rfl

/-! ### What `wordwrap` can do to a glyph holder -/

theorem splitAt_entities (self self' : RS_MText) (g : Nat) (t : Int) (leftMarg : ℚ) (b : Bool)
    (h : self.splitAt g t leftMarg = .ok (b, self')) :
    b = true ∧ ∃ A B : RS_MText, self'.entities = [A.toEntity, B.toEntity] := by
  unfold RS_MText.splitAt at h
  dsimp only at h
  split at h
  · rename_i front last _ _
    simp only [Except.ok.injEq, Prod.mk.injEq] at h
    obtain ⟨hb, hs⟩ := h
    exact ⟨hb.symm, front,
      last.move (self.lineFeed (leftMarg - last.data.insertionPoint.x)), by rw [← hs]⟩
  · cases h
  · cases h

theorem wordwrapGlyphs_cases (self self' : RS_MText) (leftMarg rightMarg : ℚ) (b : Bool)
    (h : self.wordwrapGlyphs leftMarg rightMarg = .ok (b, self')) :
    (b = false ∧ self' = self) ∨ (b = true ∧ ∃ δ, self' = self.move δ)
      ∨ (b = true ∧ ∃ A B : RS_MText, self'.entities = [A.toEntity, B.toEntity]) := by
  unfold RS_MText.wordwrapGlyphs at h
  dsimp only at h
  split at h
  · cases h
  · split at h
    · simp only [Except.ok.injEq, Prod.mk.injEq] at h
      exact Or.inl ⟨h.1.symm, h.2.symm⟩
    · split at h
      · cases h
      · split at h
        · exact Or.inr (Or.inr (splitAt_entities _ _ _ _ _ _ h))
        · split at h
          · cases h
          · split at h
            · cases h
            · split at h
              · exact Or.inr (Or.inr (splitAt_entities _ _ _ _ _ _ h))
              · simp only [Except.ok.injEq, Prod.mk.injEq] at h
                exact Or.inr (Or.inl ⟨h.1.symm, _, h.2.symm⟩)

theorem hasGlyphs_entities_ne_nil (m : RS_MText) (h : m.hasGlyphs = true) : m.entities ≠ [] := by
  intro h0
  simp [RS_MText.hasGlyphs, h0] at h

theorem hasGlyphs_of_head_mtext (m : RS_MText) (c : MTextCore) (es rest : List RS_Entity)
    (h : m.entities = .mtext c es :: rest) : m.hasGlyphs = false := by
  simp [RS_MText.hasGlyphs, h, RS_Entity.isInsert]

theorem wordwrap_true_entities (fuel : Nat) (self self' : RS_MText) (leftMarg rightMarg : ℚ)
    (h : wordwrap fuel self leftMarg rightMarg = .ok (true, self')) : self'.entities ≠ [] := by
  cases fuel with
  | zero => cases h
  | succ fuel =>
    rw [wordwrap] at h
    split at h
    · rename_i hg
      rcases wordwrapGlyphs_cases _ _ _ _ _ h with ⟨hb, _⟩ | ⟨_, δ, hs⟩ | ⟨_, A, B, hs⟩
      · cases hb
      · rw [hs]
        exact hasGlyphs_entities_ne_nil _ (by simpa using hg)
      · rw [hs]; simp
    · split at h
      · cases h
      · simp at h

theorem wrapLast_keeps_head (c : MTextCore) (es0 : List RS_Entity) (leftMarg rightMarg : ℚ) :
    ∀ (fuel : Nat) (rest ents : List RS_Entity), rest ≠ [] →
      wrapLast fuel (.mtext c es0 :: rest) leftMarg rightMarg = .ok ents →
      ∃ rest', ents = .mtext c es0 :: rest' := by
  intro fuel
  induction fuel with
  | zero => intro rest ents _ h; cases h
  | succ fuel ih =>
    intro rest ents hrest h
    rw [wrapLast] at h
    have hdrop : (RS_Entity.mtext c es0 :: rest).dropLast = .mtext c es0 :: rest.dropLast := by
      cases rest with
      | nil => exact absurd rfl hrest
      | cons r rs => rfl
    rw [hdrop] at h
    split at h
    · cases h
    · split at h
      · cases h
      · split at h
        · cases h
        · rename_i child hw
          have hne : rest.dropLast ++ child.entities ≠ [] := by
            intro h0
            exact wordwrap_true_entities _ _ _ _ _ hw (List.append_eq_nil.mp h0).2
          exact ih _ _ hne (by simpa using h)
        · simp only [Except.ok.injEq] at h
          exact ⟨_, h.symm⟩

theorem wrapWhile_rigid (leftMarg rightMarg : ℚ) :
    ∀ (fuel : Nat) (self self' : RS_MText), self.hasGlyphs = true →
      wrapWhile fuel self leftMarg rightMarg = .ok self' → self'.hasGlyphs = true →
      ∃ δ, self' = self.move δ := by
  intro fuel
  induction fuel with
  | zero => intro self self' _ h; cases h
  | succ fuel ih =>
    intro self self' hg h hg'
    rw [wrapWhile] at h
    cases fuel with
    | zero => simp [wordwrap] at h
    | succ fuel =>
      rw [wordwrap, if_pos hg] at h
      cases hw : self.wordwrapGlyphs leftMarg rightMarg with
      | error f => rw [hw] at h; cases h
      | ok p =>
        obtain ⟨b, s1⟩ := p
        rw [hw] at h
        rcases wordwrapGlyphs_cases _ _ _ _ _ hw with ⟨hb, hs⟩ | ⟨hb, δ, hs⟩ | ⟨hb, A, B, hs⟩
        · subst hb
          simp only [Except.ok.injEq] at h
          exact ⟨⟨0, 0⟩, by rw [← h, hs, RS_MText.move_origin]⟩
        · subst hb
          simp only at h
          obtain ⟨δ', h'⟩ := ih s1 self' (by rw [hs]; simpa using hg) h hg'
          exact ⟨δ + δ', by rw [h', hs, RS_MText.move_twice]⟩
        · subst hb
          simp only at h
          exfalso
          rw [wrapWhile] at h
          cases fuel with
          | zero => simp [wordwrap] at h
          | succ fuel =>
            have hng : s1.hasGlyphs = false := hasGlyphs_of_head_mtext _ _ _ _ hs
            rw [wordwrap, hng] at h
            simp only [Bool.false_eq_true, if_false] at h
            cases hl : wrapLast fuel s1.entities leftMarg rightMarg with
            | error f => rw [hl] at h; cases h
            | ok ents =>
              rw [hl] at h
              simp only [Except.ok.injEq] at h
              rw [hs] at hl
              obtain ⟨rest', hr⟩ := wrapLast_keeps_head _ _ _ _ _ _ _ (by simp) hl
              have : self'.hasGlyphs = false := by
                rw [← h]
                exact hasGlyphs_of_head_mtext _ _ _ rest' hr
              rw [this] at hg'
              cases hg'

theorem wrapAll_rigid (fuel : Nat) (self self' : RS_MText) (leftMarg rightMarg : ℚ)
    (c : RS_Vector) (hg : self.hasGlyphs = true)
    (h : wrapAll fuel self leftMarg rightMarg = .ok (self', c)) (hg' : self'.hasGlyphs = true) :
    ∃ δ, self' = self.move δ := by
  unfold wrapAll at h
  split at h
  · cases h
  · rename_i s1 hw
    split at h
    · cases h
    · simp only [Except.ok.injEq, Prod.mk.injEq] at h
      rw [← h.1] at hg' ⊢
      exact wrapWhile_rigid _ _ _ _ _ hg hw hg'

theorem layoutGlyphs_rigid (fuel : Nat) (self self' : RS_MText) (rtrnV c : RS_Vector)
    (leftMargin rightMargin : ℚ) (hg : self.hasGlyphs = true)
    (h : self.layoutGlyphs fuel rtrnV leftMargin rightMargin = .ok (self', c))
    (hg' : self'.hasGlyphs = true) : ∃ δ, self' = self.move δ := by
  unfold RS_MText.layoutGlyphs at h
  split at h
  · split at h
    · cases h
    · dsimp only at h
      split at h
      · simp only [Except.ok.injEq, Prod.mk.injEq] at h
        exact ⟨_, h.1.symm⟩
      · obtain ⟨δ, hd⟩ := wrapAll_rigid _ _ _ _ _ _ (by simpa using hg) h hg'
        exact ⟨_, by rw [hd, RS_MText.move_twice]⟩
  · split at h
    · simp only [Except.ok.injEq, Prod.mk.injEq] at h
      exact ⟨⟨0, 0⟩, by rw [← h.1, RS_MText.move_origin]⟩
    · split at h
      · split at h
        · simp only [Except.ok.injEq, Prod.mk.injEq] at h
          exact ⟨_, h.1.symm⟩
        · simp only [Except.ok.injEq, Prod.mk.injEq] at h
          exact ⟨⟨0, 0⟩, by rw [← h.1, RS_MText.move_origin]⟩
      · exact wrapAll_rigid _ _ _ _ _ _ hg h hg'

/-! ### The start and the end of `layout` -/

theorem moved_moved (d : RS_MTextData) (a b : RS_Vector) :
    (d.moved a).moved b = d.moved (a + b) := by
  cases d
  simp [RS_MTextData.moved, RS_Vector.vadd_assoc]

theorem moved_zero (d : RS_MTextData) : d.moved ⟨0, 0⟩ = d := by
  cases d
  simp [RS_MTextData.moved, RS_Vector.add_zero']

theorem wantsLineReturn_congr (a b : RS_MText) (leftMargin : ℚ) (h : a.data = b.data) :
    a.wantsLineReturn leftMargin = b.wantsLineReturn leftMargin := by
  unfold RS_MText.wantsLineReturn
  rw [h]

theorem RS_Vector.add_sub_cancel' (a p : RS_Vector) : a + (p - a) = p := by
  ext <;> simp

theorem RS_Vector.sub_add_add (p v : RS_Vector) : (p - (p + v)) + v = ⟨0, 0⟩ := by
  ext <;> simp

theorem RS_Vector.add_sub_add (v p a : RS_Vector) : v + (p - (a + v)) = p - a := by
  ext <;> simp <;> ring

theorem layoutStart_withUsed (m : RS_MText) (w h : ℚ) (posnV : RS_Vector) (leftMargin : ℚ) :
    (m.withUsed w h).layoutStart posnV leftMargin
      = (((m.layoutStart posnV leftMargin).1).withUsed w h,
          (m.layoutStart posnV leftMargin).2) := by
  unfold RS_MText.layoutStart
  dsimp only
  simp only [withUsed_data, withUsed_move]
  rw [wantsLineReturn_congr ((m.move (posnV - m.data.insertionPoint)).withUsed w h)
    (m.move (posnV - m.data.insertionPoint)) leftMargin rfl]
  split <;> rfl

theorem layoutStart_move (m : RS_MText) (v posnV : RS_Vector) (leftMargin : ℚ) :
    (m.move v).layoutStart posnV leftMargin = m.layoutStart posnV leftMargin := by
  unfold RS_MText.layoutStart
  dsimp only
  have h : (m.move v).move (posnV - (m.move v).data.insertionPoint)
      = m.move (posnV - m.data.insertionPoint) := by
    rw [RS_MText.move_twice, move_data, moved_insertionPoint, RS_Vector.add_sub_add]
  rw [h]

theorem layoutStart_fixed (m s x : RS_MText) (posnV rtrnV : RS_Vector) (leftMargin : ℚ)
    (h : m.layoutStart posnV leftMargin = (s, rtrnV))
    (hd : x.data = s.data) (hmax : x.maxV = s.maxV) :
    x.layoutStart posnV leftMargin = (x, rtrnV) := by
  unfold RS_MText.layoutStart at h ⊢
  dsimp only at h ⊢
  have hip : (m.move (posnV - m.data.insertionPoint)).data.insertionPoint = posnV := by
    rw [move_data, moved_insertionPoint, RS_Vector.add_sub_cancel']
  split at h
  · rename_i hw
    simp only [Prod.mk.injEq] at h
    obtain ⟨hs, hr⟩ := h
    rw [hip] at hs
    have hxd : x.data
        = (m.move (posnV - m.data.insertionPoint)).data.moved
            ⟨leftMargin - posnV.x,
              -((m.move (posnV - m.data.insertionPoint)).data.height * STDLINESPACE
                  * (m.move (posnV - m.data.insertionPoint)).data.lineSpacingFactor
                + (m.move (posnV - m.data.insertionPoint)).data.vertClear)⟩ := by
      rw [hd, ← hs, move_data]
    have hxip : x.data.insertionPoint = posnV + ⟨leftMargin - posnV.x,
              -((m.move (posnV - m.data.insertionPoint)).data.height * STDLINESPACE
                  * (m.move (posnV - m.data.insertionPoint)).data.lineSpacingFactor
                + (m.move (posnV - m.data.insertionPoint)).data.vertClear)⟩ := by
      rw [hxd, moved_insertionPoint, hip]
    have hx1d : (x.move (posnV - x.data.insertionPoint)).data
        = (m.move (posnV - m.data.insertionPoint)).data := by
      rw [move_data, hxip]
      rw [hxd, moved_moved, RS_Vector.add_sub_add, RS_Vector.sub_self', moved_zero]
    rw [wantsLineReturn_congr _ _ leftMargin hx1d, if_pos hw, hx1d, hip]
    rw [RS_MText.move_twice, hxip, RS_Vector.sub_add_add, RS_MText.move_origin, hmax, ← hr, ← hs,
      hip]
  · rename_i hw
    simp only [Prod.mk.injEq] at h
    obtain ⟨hs, hr⟩ := h
    have hxip : x.data.insertionPoint = posnV := by rw [hd, ← hs, hip]
    have hx1 : x.move (posnV - x.data.insertionPoint) = x := by
      rw [hxip]
      have : posnV - posnV = (⟨0, 0⟩ : RS_Vector) := by ext <;> simp
      rw [this, RS_MText.move_origin]
    rw [hx1]
    have hwx : x.wantsLineReturn leftMargin
        = (m.move (posnV - m.data.insertionPoint)).wantsLineReturn leftMargin :=
      wantsLineReturn_congr _ _ leftMargin (by rw [hd, ← hs])
    rw [hwx, if_neg hw, hxip, ← hr, hip]

theorem layoutStart_is_move (m : RS_MText) (posnV : RS_Vector) (leftMargin : ℚ) :
    ∃ v, (m.layoutStart posnV leftMargin).1 = m.move v := by
  unfold RS_MText.layoutStart
  dsimp only
  split
  · exact ⟨_, RS_MText.move_twice _ _ _⟩
  · exact ⟨_, rfl⟩

theorem hasGlyphs_of_sameShapeAll (a b : RS_MText)
    (h : sameShapeAll a.entities b.entities = true) : b.hasGlyphs = a.hasGlyphs := by
  unfold RS_MText.hasGlyphs
  cases ha : a.entities with
  | nil =>
    cases hb : b.entities with
    | nil => rfl
    | cons e' es' => rw [ha, hb] at h; simp [sameShapeAll] at h
  | cons e es =>
    cases hb : b.entities with
    | nil => rw [ha, hb] at h; simp [sameShapeAll] at h
    | cons e' es' =>
      rw [ha, hb] at h
      simp only [sameShapeAll, Bool.and_eq_true] at h
      cases e <;> cases e' <;> simp_all [sameShape, RS_Entity.isInsert]

theorem toEntity_of_asMText (e : RS_Entity) (m : RS_MText) (h : e.asMText = some m) :
    e = m.toEntity := by
  cases e with
  | insert n ip mn mx => cases h
  | line a b => cases h
  | mtext core es =>
    simp only [RS_Entity.asMText, Option.some.injEq] at h
    rw [← h]
    rfl

/-! ### A second `layout` after one that kept the shape -/

theorem layout_twice_aux (l r : ℚ) : ∀ fuel : Nat,
    (∀ (T0 T1 : RS_MText) (p c : RS_Vector), layout fuel T0 p l r = .ok (T1, c) →
        sameShapeAll T0.entities T1.entities = true → layout fuel T1 p l r = .ok (T1, c))
    ∧ (∀ (es es' : List RS_Entity) (rt c : RS_Vector),
        layoutChildren fuel es rt l r = .ok (es', c) →
        sameShapeAll es es' = true → layoutChildren fuel es' rt l r = .ok (es', c)) := by
  intro fuel
  induction fuel with
  | zero =>
    constructor
    · intro T0 T1 p c h _
      cases h
    · intro es es' rt c h _
      cases es with
      | nil =>
        rw [layoutChildren] at h
        simp only [Except.ok.injEq, Prod.mk.injEq] at h
        rw [← h.1, ← h.2, layoutChildren]
      | cons e rest => rw [layoutChildren] at h; cases h
  | succ fuel ih =>
    obtain ⟨ihP, ihQ⟩ := ih
    constructor
    · intro T0 T1 p c h hs
      rw [layout] at h ⊢
      dsimp only at h ⊢
      obtain ⟨v, hv⟩ := layoutStart_is_move T0 p l
      cases hst : T0.layoutStart p l with
      | mk s rt =>
        rw [hst] at h hv
        dsimp only at h hv
        have hss : sameShapeAll s.entities T1.entities = true := by
          rw [hv, move_entities, sameShapeAll_move_left]; exact hs
        have hg1 : T1.hasGlyphs = s.hasGlyphs := hasGlyphs_of_sameShapeAll s T1 hss
        by_cases hg : s.hasGlyphs = true
        · rw [if_pos hg] at h
          cases hl : s.layoutGlyphs fuel rt l r with
          | error f => rw [hl] at h; cases h
          | ok q =>
            obtain ⟨s', c'⟩ := q
            rw [hl] at h
            simp only [Except.ok.injEq, Prod.mk.injEq] at h
            obtain ⟨hT, hc⟩ := h
            have hg' : s'.hasGlyphs = true := by
              rw [← hg, ← hg1, ← hT]; rfl
            obtain ⟨δ, hδ⟩ := layoutGlyphs_rigid _ _ _ _ _ _ _ hg hl hg'
            have hstart : T1.layoutStart p l
                = (s.withUsed s'.getSize.x s'.getSize.y, rt) := by
              rw [← hT, layoutEnd_eq_withUsed, layoutStart_withUsed, hδ, layoutStart_move,
                layoutStart_fixed T0 s s p rt l hst rfl rfl]
            rw [hstart]
            dsimp only
            rw [withUsed_hasGlyphs, if_pos hg, withUsed_layoutGlyphs, hl]
            simp only [Except.map, withUsed_layoutEnd, hT, hc]
        · rw [if_neg hg] at h
          cases hl : layoutChildren fuel s.entities rt l r with
          | error f => rw [hl] at h; cases h
          | ok q =>
            obtain ⟨ents', c'⟩ := q
            rw [hl] at h
            simp only [Except.ok.injEq, Prod.mk.injEq] at h
            obtain ⟨hT, hc⟩ := h
            have hents : T1.entities = ents' := by rw [← hT]; rfl
            have hstart : T1.layoutStart p l = (T1, rt) :=
              layoutStart_fixed T0 s T1 p rt l hst (by rw [← hT]; rfl) (by rw [← hT]; rfl)
            rw [hstart]
            dsimp only
            have hg1' : ¬ T1.hasGlyphs = true := by rw [hg1]; exact hg
            rw [if_neg hg1', hents, ihQ _ _ _ _ hl (by rw [← hents]; exact hss)]
            simp only [Except.ok.injEq, Prod.mk.injEq]
            refine ⟨?_, hc⟩
            rw [← hT]
            rfl
    · intro es es' rt c h hs
      cases es with
      | nil =>
        rw [layoutChildren] at h
        simp only [Except.ok.injEq, Prod.mk.injEq] at h
        rw [← h.1, ← h.2, layoutChildren]
      | cons e rest =>
        rw [layoutChildren] at h
        cases he : e.asMText with
        | none => rw [he] at h; cases h
        | some child =>
          rw [he] at h
          dsimp only at h
          cases hl : layout fuel child rt l r with
          | error f => rw [hl] at h; cases h
          | ok q =>
            obtain ⟨child', rt'⟩ := q
            rw [hl] at h
            dsimp only at h
            cases hr : layoutChildren fuel rest rt' l r with
            | error f => rw [hr] at h; cases h
            | ok q2 =>
              obtain ⟨rest', c''⟩ := q2
              rw [hr] at h
              simp only [Except.ok.injEq, Prod.mk.injEq] at h
              obtain ⟨hes, hc⟩ := h
              rw [← hes, toEntity_of_asMText e child he] at hs
              simp only [sameShapeAll, RS_MText.toEntity, sameShape, Bool.and_eq_true] at hs
              have h1 := ihP child child' rt rt' hl hs.1
              have h2 := ihQ rest rest' rt' c'' hr hs.2
              rw [← hes, layoutChildren]
              have ha : child'.toEntity.asMText = some child' := rfl
              rw [ha]
              dsimp only
              rw [h1]
              dsimp only
              rw [h2, hc]

theorem layout_abc_first :
    layout 10 abcLeaf ⟨0, 0⟩ 0 10 = .ok (abcWrapped, ⟨6, -15000003 / 1000000⟩) := by
  decide!

theorem layout_abc_second :
    layout 10 abcWrapped ⟨0, 0⟩ 0 10 = .ok (abcRelaid, ⟨12, 0⟩) := by
  decide!

/-- C9: the glyph holder `abcLeaf` (text `a b c`, three glyphs 6 wide) is laid out at (0, 0)
between the margins 0 and 10. The first `layout` splits it by word wrap and leaves two
fragments only, `a ` and `b ` (the fragment with the glyph of `c` is dropped by the composite
branch of `wordwrap`); the fragment `b ` stands on a second line at (0, -15.000003) and the
cursor (6, -15.000003) is returned. A second `layout` with the same position and margins
returns, puts that fragment back on the first line at (6, 0) behind `a `, where its glyph
reaches x = 12, beyond the right margin 10 (a holder of one glyph is reported as fitting by
`wordwrap`), and returns the cursor (12, 0): positions and cursor differ from those after the
first call. -/
theorem layout_twice_moves_fragment :
    layout 10 abcLeaf ⟨0, 0⟩ 0 10 = .ok (abcWrapped, ⟨6, -15000003 / 1000000⟩)
    ∧ layout 10 abcWrapped ⟨0, 0⟩ 0 10 = .ok (abcRelaid, ⟨12, 0⟩)
    ∧ abcLeaf.entities.length = 3
    ∧ abcWrapped.entities = [(abcFront 0 0).toEntity, abcSecond.toEntity]
    ∧ abcWrapped.entities[1]? = some abcSecond.toEntity
    ∧ abcRelaid.entities[1]? = some abcSecondInline.toEntity
    ∧ abcSecond.data.insertionPoint = ⟨0, -15000003 / 1000000⟩
    ∧ abcSecondInline.data.insertionPoint = ⟨6, 0⟩
    ∧ abcSecondInline.maxV.x = 12
    ∧ wordwrap 1 abcSecondInline 0 10 = .ok (false, abcSecondInline)
    ∧ abcRelaid ≠ abcWrapped :=
  ⟨layout_abc_first, layout_abc_second, rfl, rfl, rfl, rfl, rfl, rfl, rfl, by decide!,
    by decide!⟩

/-- When a call of `layout` returns and leaves the shape of the tree as it was (no glyph
holder was split by word wrap), a second call with the same target position and the
same margins returns, gives the very same tree (every insertion point, glyph position,
bounding box and used size, and the shape) and returns the same cursor. -/
theorem layout_second_call_same (fuel : Nat) (T0 T1 : RS_MText) (posnV cursor : RS_Vector)
    (leftMargin rightMargin : ℚ)
    (hfirst : layout fuel T0 posnV leftMargin rightMargin = .ok (T1, cursor))
    (hshape : sameShape T0.toEntity T1.toEntity = true) :
    layout fuel T1 posnV leftMargin rightMargin = .ok (T1, cursor) :=
  (layout_twice_aux leftMargin rightMargin fuel).1 T0 T1 posnV cursor hfirst
    (by simpa [RS_MText.toEntity, sameShape] using hshape)

/-- An instance, the run `abcWrapped` (two fragments, the second on its own line): its
`layout` at (0, 0) between the margins 0 and 10 keeps the shape, and one more `layout` changes
nothing. -/
theorem layout_second_call_same_abc :
    layout 10 abcWrapped ⟨0, 0⟩ 0 10 = .ok (abcRelaid, ⟨12, 0⟩)
    ∧ sameShape abcWrapped.toEntity abcRelaid.toEntity = true
    ∧ layout 10 abcRelaid ⟨0, 0⟩ 0 10 = .ok (abcRelaid, ⟨12, 0⟩) :=
  ⟨layout_abc_second, by decide,
    layout_second_call_same 10 abcWrapped abcRelaid ⟨0, 0⟩ ⟨12, 0⟩ 0 10 layout_abc_second
      (by decide)⟩

/-! ## `LC_CodeTag::loadFrom` and `LC_CodeTag::getFinalEnd` -/

theorem toInt32_natCast (n : Nat) (h : n < 2147483648) : toInt32 n = (n : Int) := by
  unfold toInt32
  have : n % 4294967296 = n := Nat.mod_eq_of_lt (by omega)
  rw [this, if_pos h]

theorem midFrom_natCast (s : QString) (n : Nat) (h : n ≤ s.length) :
    midFrom s (n : Int) = s.drop n := by
  unfold midFrom mid
  rw [if_neg (by omega), if_neg (by omega), if_pos (Or.inl (by omega))]
  simp

/-- The first position of a character satisfying `p`: `findIdx` finds it. -/
theorem findIdx_first (p : Char → Bool) (l : QString) (i : Int) (k : Nat)
    (hk : ∃ c, l[k]? = some c ∧ p c = true)
    (hfirst : ∀ j, j < k → ∀ c, l[j]? = some c → p c = false) :
    findIdx p l i = i + k := by
  induction l generalizing i k with
  | nil => obtain ⟨c, hc, _⟩ := hk; simp at hc
  | cons d ds ih =>
    simp only [findIdx]
    cases k with
    | zero =>
      obtain ⟨c, hc, hp⟩ := hk
      simp only [List.getElem?_cons_zero, Option.some.injEq] at hc
      rw [hc, if_pos hp]
      simp
    | succ k =>
      have hd : p d = false := hfirst 0 (by omega) d (by simp)
      rw [hd]
      simp only [Bool.false_eq_true, if_false]
      obtain ⟨c, hc, hp⟩ := hk
      rw [ih (i + 1) k ⟨c, by simpa using hc, hp⟩
        (fun j hj c hc => hfirst (j + 1) (by omega) c (by simpa using hc))]
      push_cast
      omega

/-- The first position at which `pat` is a leading part: `findStr` finds it. -/
theorem findStr_first (pat l : QString) (i : Int) (k : Nat) (hkl : k ≤ l.length)
    (hk : pat.isPrefixOf (l.drop k) = true)
    (hfirst : ∀ j, j < k → pat.isPrefixOf (l.drop j) = false) :
    findStr pat l i = i + k := by
  induction l generalizing i k with
  | nil =>
    have : k = 0 := by simpa using hkl
    subst this
    simp only [List.drop_nil] at hk
    have hp : pat = [] := by
      cases pat with
      | nil => rfl
      | cons a as => simp [List.isPrefixOf] at hk
    simp [findStr, hp]
  | cons d ds ih =>
    simp only [findStr]
    cases k with
    | zero =>
      simp only [List.drop_zero] at hk
      rw [if_pos hk]
      simp
    | succ k =>
      have hd : pat.isPrefixOf (d :: ds) = false := by simpa using hfirst 0 (by omega)
      rw [hd]
      simp only [Bool.false_eq_true, if_false]
      rw [ih (i + 1) k (by simpa using hkl) (by simpa using hk)
        (fun j hj => by simpa using hfirst (j + 1) (by omega))]
      push_cast
      omega

/-- The tag that `loadFrom` leaves has the end that `getFinalEnd` returned and the start that
was passed in. -/
theorem loadFrom_of_getFinalEnd (fuel : Nat) (prev : LC_CodeTag) (rawtxt : QString)
    (nposn e : Nat)
    (h : LC_CodeTag.getFinalEnd fuel
        { prev with starttag := nposn, text := midFrom rawtxt (toInt32 nposn) } = .ok e) :
    ∃ t, LC_CodeTag.loadFrom fuel prev rawtxt nposn = .ok t ∧ t.starttag = nposn
      ∧ t.endtag = e := by
  unfold LC_CodeTag.loadFrom
  dsimp only
  rw [h]
  dsimp only
  split
  · split
    · split
      · exact ⟨_, rfl, rfl, rfl⟩
      · exact ⟨_, rfl, rfl, rfl⟩
    · split
      · exact ⟨_, rfl, rfl, rfl⟩
      · split
        · exact ⟨_, rfl, rfl, rfl⟩
        · exact ⟨_, rfl, rfl, rfl⟩
  · exact ⟨_, rfl, rfl, rfl⟩

theorem charAt_drop (s : QString) (n k : Nat) (c : Char) (h : s[n + k]? = some c) :
    charAt (s.drop n) (k : Int) = c := by
  rw [charAt_natCast, List.getD_eq_getElem?_getD, List.getElem?_drop, h]
  rfl

/-- C11: a setting tag (`\A`, `\C`, `\H`, `\Q`, `\T`, `\W`, `\X`, `\F`, `\f`, `\p`) that starts
at the cursor `s` of a source string in which the first `;` at or after `s` is at the absolute
index `p`, loaded into a tag whose stacking flag is clear on entry: `loadFrom` returns, and
`endtag` (the value written back to the cursor) is `p + 1`. -/
theorem loadFrom_setting_end (fuel : Nat) (prev : LC_CodeTag) (rawtxt : QString) (s p : Nat)
    (c : Char)
    (hsize : rawtxt.length < 2147483648)
    (hclear : prev.isstack = false)
    (h0 : rawtxt[s]? = some '\\') (h1 : rawtxt[s + 1]? = some c)
    (hc : c ∈ "ACHQTWXFfp".toList)
    (hsp : s ≤ p) (hp : rawtxt[p]? = some ';')
    (hfirst : ∀ i, s ≤ i → i < p → rawtxt[i]? ≠ some ';') :
    ∃ t, LC_CodeTag.loadFrom fuel prev rawtxt s = .ok t ∧ t.starttag = s
      ∧ t.endtag = p + 1 := by
  have hslen : s + 1 < rawtxt.length := by
    rcases Nat.lt_or_ge (s + 1) rawtxt.length with h | h
    · exact h
    · rw [List.getElem?_eq_none h] at h1; cases h1
  have hplen : p < rawtxt.length := by
    rcases Nat.lt_or_ge p rawtxt.length with h | h
    · exact h
    · rw [List.getElem?_eq_none h] at hp; cases hp
  apply loadFrom_of_getFinalEnd
  rw [toInt32_natCast s (by omega), midFrom_natCast rawtxt s (by omega)]
  have hc0 : charAt (rawtxt.drop s) 0 = '\\' := charAt_drop rawtxt s 0 _ h0
  have hc1 : charAt (rawtxt.drop s) 1 = c := charAt_drop rawtxt s 1 _ h1
  have hLOKS : (indexOfChar "LOKS".toList c 1 != -1) = false := by
    simp only [String.toList, List.mem_cons, List.mem_singleton] at hc
    rcases hc with h | h | h | h | h | h | h | h | h | h | h <;> first | (subst h; decide) | cases h
  have holkP : inSet "olkP" c = false := by
    simp only [String.toList, List.mem_cons, List.mem_singleton] at hc
    rcases hc with h | h | h | h | h | h | h | h | h | h | h <;> first | (subst h; decide) | cases h
  have hidx : indexOfChar (rawtxt.drop s) ';' 0 = (p : Int) - s := by
    have key := findIdx_first (fun d => d == ';') (rawtxt.drop s) 0 (p - s)
      ⟨';', by rw [List.getElem?_drop, show s + (p - s) = p by omega]; exact hp, by decide⟩
      (fun j hj d hd => by
        rw [List.getElem?_drop] at hd
        have := hfirst (s + j) (by omega) (by omega)
        rw [hd] at this
        simpa using this)
    have hcl : clampFrom (rawtxt.drop s) 0 = 0 := by simp [clampFrom]
    unfold indexOfChar
    rw [hcl, List.drop_zero, Nat.cast_zero, key]
    omega
  have hspan : LC_CodeTag.isspantag
      { prev with starttag := s, text := rawtxt.drop s } = false := by
    unfold LC_CodeTag.isspantag
    dsimp only
    rw [hc0, hc1, hLOKS, hclear]
    simp
  unfold LC_CodeTag.getFinalEnd
  rw [hspan]
  dsimp only
  rw [hc0, hc1, holkP, hidx]
  have hne2 : ¬ (('\\' : Char) = '^') := by decide
  have hnn : ¬ ((p : Int) - s + 1 = -1) := by omega
  simp only [Bool.false_eq_true, if_false, and_false, hne2, false_and, if_neg hnn]
  congr 1
  unfold toUInt
  omega

/-- Witness of C11: the tag `\H2.5;` at the cursor 2 of `ab\H2.5;cd`, whose `;` is at 7. -/
theorem loadFrom_setting_end_witness :
    ∃ t, LC_CodeTag.loadFrom 0 sampleEnv.uninitTag "ab\\H2.5;cd".toList 2 = .ok t
      ∧ t.starttag = 2 ∧ t.endtag = 7 + 1 :=
  loadFrom_setting_end 0 sampleEnv.uninitTag "ab\\H2.5;cd".toList 2 7 'H' (by decide) rfl
    (by decide) (by decide) (by decide) (by decide) (by decide)
    (fun i h1 h2 => by interval_cases i <;> decide)

theorem isPrefixOf_semicolon (l : QString) (k : Nat) :
    (";".toList.isPrefixOf (l.drop k) = true) ↔ l[k]? = some ';' := by
  cases h : l.drop k with
  | nil =>
    have hk : l.length ≤ k := by simpa using h
    simp [List.isPrefixOf, List.getElem?_eq_none hk]
  | cons d ds =>
    have hd : l[k]? = some d := by
      have := congrArg (fun x => x[0]?) h
      simpa [List.getElem?_drop] using this
    rw [hd]
    simp [List.isPrefixOf]
    constructor
    · intro e; exact e.symm
    · intro e; exact e.symm

/-- A span tag that starts at the cursor `s` of a source string (`\O`, `\K` or `\S`, with
any field values of the tag object on entry, or `\L` on a tag object whose stacking flag is
set on entry), whose close construct `pat` (the tag `\o`, `\k`, `\l` respectively, or the
`;` of the stacking tag) occurs for the first time at or after `s` at the absolute offset `e`:
`loadFrom` returns, and `endtag` is `e`, the offset of the first character of the close
construct. -/
theorem loadFrom_span_end (fuel : Nat) (prev : LC_CodeTag) (rawtxt pat : QString) (s e : Nat)
    (c : Char)
    (hsize : rawtxt.length < 2147483648)
    (h0 : rawtxt[s]? = some '\\') (h1 : rawtxt[s + 1]? = some c)
    (hpat : (c = 'L' ∧ pat = "\\l".toList) ∨ (c = 'O' ∧ pat = "\\o".toList)
      ∨ (c = 'K' ∧ pat = "\\k".toList) ∨ (c = 'S' ∧ pat = ";".toList))
    (hL : c = 'L' → prev.isstack = true)
    (hse : s ≤ e) (hclose : pat <+: rawtxt.drop e)
    (hfirst : ∀ i, s ≤ i → i < e → ¬ pat <+: rawtxt.drop i) :
    ∃ t, LC_CodeTag.loadFrom fuel prev rawtxt s = .ok t ∧ t.starttag = s ∧ t.endtag = e := by
  have hslen : s + 1 < rawtxt.length := by
    rcases Nat.lt_or_ge (s + 1) rawtxt.length with h | h
    · exact h
    · rw [List.getElem?_eq_none h] at h1; cases h1
  have hpne : pat ≠ [] := by
    rcases hpat with ⟨_, h⟩ | ⟨_, h⟩ | ⟨_, h⟩ | ⟨_, h⟩ <;> rw [h] <;> decide
  have helen : e < rawtxt.length := by
    rcases Nat.lt_or_ge e rawtxt.length with h | h
    · exact h
    · rw [List.drop_eq_nil_of_le h] at hclose
      exact absurd (List.prefix_nil.mp hclose) hpne
  have hclose' : pat.isPrefixOf ((rawtxt.drop s).drop (e - s)) = true := by
    rw [List.drop_drop, show s + (e - s) = e by omega]
    exact List.isPrefixOf_iff_prefix.mpr hclose
  have hfirst' : ∀ j, j < e - s → pat.isPrefixOf ((rawtxt.drop s).drop j) = false := by
    intro j hj
    rw [List.drop_drop]
    exact Bool.eq_false_iff.mpr
      (fun h => hfirst (s + j) (by omega) (by omega) (List.isPrefixOf_iff_prefix.mp h))
  apply loadFrom_of_getFinalEnd
  rw [toInt32_natCast s (by omega), midFrom_natCast rawtxt s (by omega)]
  have hc0 : charAt (rawtxt.drop s) 0 = '\\' := charAt_drop rawtxt s 0 _ h0
  have hc1 : charAt (rawtxt.drop s) 1 = c := charAt_drop rawtxt s 1 _ h1
  have hlen1 : (rawtxt.drop s).length > 1 := by simp; omega
  have hspan : LC_CodeTag.isspantag
      { prev with starttag := s, text := rawtxt.drop s } = true := by
    unfold LC_CodeTag.isspantag
    dsimp only
    rcases hpat with ⟨h, _⟩ | ⟨h, _⟩ | ⟨h, _⟩ | ⟨h, _⟩
    · rw [hL h]
      simp
    · subst h
      rw [hc1, show (indexOfChar "LOKS".toList 'O' 1 != -1) = true by decide,
        decide_eq_true hlen1]
      simp
    · subst h
      rw [hc1, show (indexOfChar "LOKS".toList 'K' 1 != -1) = true by decide,
        decide_eq_true hlen1]
      simp
    · subst h
      rw [hc1, show (indexOfChar "LOKS".toList 'S' 1 != -1) = true by decide,
        decide_eq_true hlen1]
      simp
  have hcl : clampFrom (rawtxt.drop s) 0 = 0 := by simp [clampFrom]
  have hne : ¬ (('\\' : Char) = '\x7b') := by decide
  have hnn : ¬ ((e : Int) - s = -1) := by omega
  have hfin : toUInt ((e : Int) - s + (s : Int)) = e := by
    unfold toUInt
    omega
  unfold LC_CodeTag.getFinalEnd
  rw [hspan]
  dsimp only
  rw [hc0, hc1]
  simp only [if_true, if_neg hne]
  rcases hpat with ⟨h, hp⟩ | ⟨h, hp⟩ | ⟨h, hp⟩ | ⟨h, hp⟩
  · subst h
    have hidx : indexOfStr (rawtxt.drop s) ['\\', 'L'.toLower] 0 = (e : Int) - s := by
      have hlow : ['\\', 'L'.toLower] = "\\l".toList := by decide
      unfold indexOfStr
      rw [hlow, ← hp, hcl, if_neg (by omega), List.drop_zero, Nat.cast_zero,
        findStr_first _ (rawtxt.drop s) 0 (e - s) (by simp; omega)
          hclose' hfirst']
      omega
    have hin : inSet "OLK" 'L' = true := by decide
    rw [hin, hidx]
    simp only [if_true, if_neg hnn, hfin]
  · subst h
    have hidx : indexOfStr (rawtxt.drop s) ['\\', 'O'.toLower] 0 = (e : Int) - s := by
      have hlow : ['\\', 'O'.toLower] = "\\o".toList := by decide
      unfold indexOfStr
      rw [hlow, ← hp, hcl, if_neg (by omega), List.drop_zero, Nat.cast_zero,
        findStr_first _ (rawtxt.drop s) 0 (e - s) (by simp; omega)
          hclose' hfirst']
      omega
    have hin : inSet "OLK" 'O' = true := by decide
    rw [hin, hidx]
    simp only [if_true, if_neg hnn, hfin]
  · subst h
    have hidx : indexOfStr (rawtxt.drop s) ['\\', 'K'.toLower] 0 = (e : Int) - s := by
      have hlow : ['\\', 'K'.toLower] = "\\k".toList := by decide
      unfold indexOfStr
      rw [hlow, ← hp, hcl, if_neg (by omega), List.drop_zero, Nat.cast_zero,
        findStr_first _ (rawtxt.drop s) 0 (e - s) (by simp; omega)
          hclose' hfirst']
      omega
    have hin : inSet "OLK" 'K' = true := by decide
    rw [hin, hidx]
    simp only [if_true, if_neg hnn, hfin]
  · subst h
    have hidx : indexOfChar (rawtxt.drop s) ';' 0 = (e : Int) - s := by
      have key := findIdx_first (fun d => d == ';') (rawtxt.drop s) 0 (e - s)
        ⟨';', by rw [← isPrefixOf_semicolon, ← hp]; exact hclose', by decide⟩
        (fun j hj d hd => by
          have h2 := hfirst' j hj
          rw [hp] at h2
          have h3 : ¬ ((rawtxt.drop s)[j]? = some ';') := by
            rw [← isPrefixOf_semicolon, h2]; exact Bool.false_ne_true
          rw [hd] at h3
          simpa using h3)
      unfold indexOfChar
      rw [hcl, List.drop_zero, Nat.cast_zero, key]
      omega
    have hin : inSet "OLK" 'S' = false := by decide
    rw [hin, hidx]
    simp only [Bool.false_eq_true, if_false, if_neg hnn, hfin]

/-- An instance: the tag `\O` at the cursor 2 of `ab\Ocd\oef`, whose `\o` is at 6. -/
theorem loadFrom_span_end_overline :
    ∃ t, LC_CodeTag.loadFrom 0 sampleEnv.uninitTag "ab\\Ocd\\oef".toList 2 = .ok t
      ∧ t.starttag = 2 ∧ t.endtag = 6 :=
  loadFrom_span_end 0 sampleEnv.uninitTag "ab\\Ocd\\oef".toList "\\o".toList 2 6 'O'
    (by decide) (by decide) (by decide) (Or.inr (Or.inl ⟨rfl, rfl⟩)) (by decide) (by decide)
    (List.isPrefixOf_iff_prefix.mp (by decide))
    (fun i h1 h2 => by
      rw [← List.isPrefixOf_iff_prefix]
      interval_cases i <;> decide)

/-- Unless the tag text starts with an opening brace, `loadFrom` does not enter
`getMatchingEnd`, and its result does not depend on the fuel. -/
theorem loadFrom_fuel_irrelevant (fuel : Nat) (prev : LC_CodeTag) (rawtxt : QString)
    (nposn : Nat) (h : charAt (midFrom rawtxt (toInt32 nposn)) 0 ≠ '\x7b') :
    LC_CodeTag.loadFrom fuel prev rawtxt nposn = LC_CodeTag.loadFrom 0 prev rawtxt nposn := by
  unfold LC_CodeTag.loadFrom LC_CodeTag.getFinalEnd
  dsimp only
  rw [if_neg h, if_neg h]

/-- C12: the underline-open tag `\L` at the cursor 2 of `ab\Lcd\lef`, whose close tag `\l`
starts at the offset 6, loaded into a tag object whose stacking flag is clear: `loadFrom` sets
`endtag = 2`, the cursor itself, not 6. `isspantag` does not take `\L` for a span tag (its
search in `"LOKS"` starts at index 1), so `getFinalEnd` takes the branch of a setting tag,
finds no `;` and returns `0 + starttag`. The overline tag `\O` at the same place ends at 6,
and so does `\L` on a tag object whose stacking flag is set on entry. -/
theorem loadFrom_underline_open_ends_at_cursor (fuel : Nat) :
    (LC_CodeTag.loadFrom fuel sampleEnv.uninitTag "ab\\Lcd\\lef".toList 2).map
        (fun t => (t.starttag, t.endtag)) = .ok (2, 2)
    ∧ LC_CodeTag.isspantag { sampleEnv.uninitTag with text := "\\Lcd\\lef".toList } = false
    ∧ indexOfStr "ab\\Lcd\\lef".toList "\\l".toList 2 = 6
    ∧ (LC_CodeTag.loadFrom fuel sampleEnv.uninitTag "ab\\Ocd\\oef".toList 2).map
        (fun t => (t.starttag, t.endtag)) = .ok (2, 6)
    ∧ (LC_CodeTag.loadFrom fuel { sampleEnv.uninitTag with isstack := true }
        "ab\\Lcd\\lef".toList 2).map (fun t => (t.starttag, t.endtag)) = .ok (2, 6) := by
  refine ⟨?_, by decide, by decide, ?_, ?_⟩
  · rw [loadFrom_fuel_irrelevant fuel _ _ _ (by decide)]
    decide
  · rw [loadFrom_fuel_irrelevant fuel _ _ _ (by decide)]
    decide
  · rw [loadFrom_fuel_irrelevant fuel _ _ _ (by decide)]
    decide

/-- The overline tag with no close tag at the cursor 3 of `abc\O`: `getFinalEnd` finds no
`\o` and returns the length 2 of the tag text, which `loadFrom` stores as `endtag`. -/
theorem loadFrom_unclosed_overline (fuel : Nat) (prev : LC_CodeTag) :
    ∃ t, LC_CodeTag.loadFrom fuel prev "abc\\O".toList 3 = .ok t ∧ t.starttag = 3
      ∧ t.endtag = 2 := by
  have hspan : LC_CodeTag.isspantag
      { prev with starttag := 3, text := midFrom "abc\\O".toList (toInt32 3) } = true := by
    unfold LC_CodeTag.isspantag
    have h1 : (decide ((midFrom "abc\\O".toList (toInt32 3)).length > 1)
        && (indexOfChar "LOKS".toList (charAt (midFrom "abc\\O".toList (toInt32 3)) 1) 1
            != -1)) = true := by decide
    dsimp only
    rw [h1]
    simp
  have hend : LC_CodeTag.getFinalEnd fuel
      { prev with starttag := 3, text := midFrom "abc\\O".toList (toInt32 3) } = .ok 2 := by
    unfold LC_CodeTag.getFinalEnd
    rw [hspan]
    dsimp only
    have h0 : ¬ (charAt (midFrom "abc\\O".toList (toInt32 3)) 0 = '\x7b') := by decide
    have h1 : inSet "OLK" (charAt (midFrom "abc\\O".toList (toInt32 3)) 1) = true := by decide
    have h2 : indexOfStr (midFrom "abc\\O".toList (toInt32 3))
        ['\\', (charAt (midFrom "abc\\O".toList (toInt32 3)) 1).toLower] 0 = -1 := by decide
    have h3 : (midFrom "abc\\O".toList (toInt32 3)).length = 2 := by decide
    simp only [if_true, if_neg h0, h1, h2, h3]
  exact loadFrom_of_getFinalEnd fuel prev "abc\\O".toList 3 2 hend

/-- C13: for the source string `abc\O` and the cursor 3 (an overline tag with no close tag),
`loadFrom` leaves `starttag = 3` and `endtag = 2`: the end lies before the start, whatever
the fields of the tag were on entry. -/
theorem loadFrom_end_before_start (fuel : Nat) (prev : LC_CodeTag) :
    ∃ t, LC_CodeTag.loadFrom fuel prev "abc\\O".toList 3 = .ok t ∧ t.starttag = 3
      ∧ t.endtag = 2 ∧ t.endtag < t.starttag := by
  obtain ⟨t, ht, hs, he⟩ := loadFrom_unclosed_overline fuel prev
  exact ⟨t, ht, hs, he, by rw [hs, he]; decide⟩

/-- The tag loop of `setText` on the text `\Zab`, whose code section ends at offset 2, comes
back to the same state after every pass. -/
theorem tagLoop_unknown_code_diverges (fuel : Nat) :
    tagLoop sampleEnv fuel 2 0 (sampleData "\\Zab".toList) = .error .fuel := by
  induction fuel with
  | zero => rfl
  | succ fuel ih =>
    have hload : LC_CodeTag.loadFrom fuel sampleEnv.uninitTag
        (sampleData "\\Zab".toList).text 0
        = .ok { text := [], isstack := false, dblVal := 0, intVal := 0, strVal := [],
                starttag := 0, endtag := 0 } := by
      rw [loadFrom_fuel_irrelevant fuel _ _ _ (by decide)]
      decide!
    have happly : (sampleData "\\Zab".toList).applyCode
        { text := [], isstack := false, dblVal := 0, intVal := 0, strVal := [],
          starttag := 0, endtag := 0 } = .ok (sampleData "\\Zab".toList) := by
      decide!
    rw [tagLoop, if_pos (by decide), hload]
    dsimp only
    rw [happly]
    exact ih

/-- C14: the cursor is not always moved forward.  For the source string `\Zab` and the cursor
0 (an escape code that is none of the known ones), `loadFrom` on a tag whose stacking flag is
clear writes back `endtag = 0`, which is not greater than the cursor; the loop
`while (nchr < vecSecnStarts.at(1))` of `setText`, whose bound is 2 for this text, therefore
never ends, whatever the fuel.  For `abc\O` and the cursor 3 the value written back is 2,
whatever the fields of the tag were on entry. -/
theorem loadFrom_unknown_code_no_progress (fuel : Nat) :
    (LC_CodeTag.loadFrom fuel sampleEnv.uninitTag "\\Zab".toList 0).map
        (fun t => (t.starttag, t.endtag)) = .ok (0, 0)
    ∧ getSecnStarts 6 "\\Zab".toList = .ok [0, 2, 4]
    ∧ tagLoop sampleEnv fuel 2 0 (sampleData "\\Zab".toList) = .error .fuel
    ∧ ∀ prev : LC_CodeTag, ∃ t, LC_CodeTag.loadFrom fuel prev "abc\\O".toList 3 = .ok t
        ∧ t.endtag = 2 := by
  refine ⟨?_, by decide, tagLoop_unknown_code_diverges fuel, fun prev => ?_⟩
  · rw [loadFrom_fuel_irrelevant fuel _ _ _ (by decide)]
    decide
  · obtain ⟨t, ht, _, he⟩ := loadFrom_unclosed_overline fuel prev
    exact ⟨t, ht, he⟩

/-- C15: an unterminated tag does not always end at the length of the source string.  For
`\H2` and the cursor 0 (a setting tag with no `;`, loaded into a tag whose stacking flag is
clear) `loadFrom` sets `endtag = 0`, not 3; for `ab\Sc` and the cursor 2 (a stacking tag with
no `;`) it sets `endtag = 3`, the length of the rest of the string, not 5; for `abc\O` and the
cursor 3 (an overline tag with no close tag) it sets `endtag = 2`, not 5, whatever the fields
of the tag were on entry. -/
theorem loadFrom_unterminated_not_length (fuel : Nat) :
    (LC_CodeTag.loadFrom fuel sampleEnv.uninitTag "\\H2".toList 0).map
        (fun t => (t.starttag, t.endtag)) = .ok (0, 0)
    ∧ "\\H2".toList.length = 3
    ∧ (LC_CodeTag.loadFrom fuel sampleEnv.uninitTag "ab\\Sc".toList 2).map
        (fun t => (t.starttag, t.endtag)) = .ok (2, 3)
    ∧ "ab\\Sc".toList.length = 5
    ∧ (∀ prev : LC_CodeTag, ∃ t, LC_CodeTag.loadFrom fuel prev "abc\\O".toList 3 = .ok t
        ∧ t.endtag = 2)
    ∧ "abc\\O".toList.length = 5 := by
  refine ⟨?_, by decide, ?_, by decide, fun prev => ?_, by decide⟩
  · rw [loadFrom_fuel_irrelevant fuel _ _ _ (by decide)]
    decide
  · rw [loadFrom_fuel_irrelevant fuel _ _ _ (by decide)]
    decide
  · obtain ⟨t, ht, _, he⟩ := loadFrom_unclosed_overline fuel prev
    exact ⟨t, ht, he⟩

/-- C17: the numeric payload of a well-formed setting tag read at the cursor 0 is not the
number between the code letter and the semicolon.  For `\H2.5;` the converted substring is
`2.5;` (the semicolon included), so `dblVal` is 0 and `applyCode` sets the height to 0, not
2.5; likewise `\W0.8;` gives the width factor 0 and `\A12;` gives `intVal = 0`. -/
theorem loadFrom_numeric_payload_zero (fuel : Nat) :
    (LC_CodeTag.loadFrom fuel sampleEnv.uninitTag "\\H2.5;".toList 0).map
        (fun t => (t.text, t.endtag, mid t.text 2 (toInt32 (toUInt ((t.endtag : Int) - 2))),
          t.dblVal)) = .ok ("\\H2.5;".toList, 6, "2.5;".toList, 0)
    ∧ ((LC_CodeTag.loadFrom fuel sampleEnv.uninitTag "\\H2.5;".toList 0).bind
        (fun t => (sampleData []).applyCode t)).map (fun d => d.height) = .ok 0
    ∧ ((LC_CodeTag.loadFrom fuel sampleEnv.uninitTag "\\W0.8;".toList 0).bind
        (fun t => (sampleData []).applyCode t)).map (fun d => d.textWidthFac) = .ok 0
    ∧ (LC_CodeTag.loadFrom fuel sampleEnv.uninitTag "\\A12;".toList 0).map
        (fun t => t.intVal) = .ok 0
    ∧ toDouble "2.5".toList = 5 / 2 ∧ toInt "12".toList = 12 := by
  refine ⟨?_, ?_, ?_, ?_, by decide!, by decide!⟩
  · rw [loadFrom_fuel_irrelevant fuel _ _ _ (by decide)]
    decide!
  · rw [loadFrom_fuel_irrelevant fuel _ _ _ (by decide)]
    decide!
  · rw [loadFrom_fuel_irrelevant fuel _ _ _ (by decide)]
    decide!
  · rw [loadFrom_fuel_irrelevant fuel _ _ _ (by decide)]
    decide!

/-- C18: characters after the tag's `;` do influence the style name.  For the font tag
`\Fx;` at the cursor 2 the style name becomes `x;c` when the source is `ab\Fx;c|d`, and `x`
when the source is `ab\Fx;cdd`: the tag text is cut at the absolute offset 6, so it holds
two characters from behind the `;`, and the `|` among them is taken for the tag's. -/
theorem font_tag_reads_past_semicolon (fuel : Nat) :
    ((LC_CodeTag.loadFrom fuel sampleEnv.uninitTag "ab\\Fx;c|d".toList 2).bind
        (fun t => (sampleData []).applyCode t)).map (fun d => d.style) = .ok "x;c".toList
    ∧ ((LC_CodeTag.loadFrom fuel sampleEnv.uninitTag "ab\\Fx;cdd".toList 2).bind
        (fun t => (sampleData []).applyCode t)).map (fun d => d.style) = .ok "x".toList
    ∧ (LC_CodeTag.loadFrom fuel sampleEnv.uninitTag "ab\\Fx;c|d".toList 2).map
        (fun t => (t.text, t.endtag)) = .ok ("\\Fx;c|".toList, 6) := by
  refine ⟨?_, ?_, ?_⟩
  · rw [loadFrom_fuel_irrelevant fuel _ _ _ (by decide)]
    decide!
  · rw [loadFrom_fuel_irrelevant fuel _ _ _ (by decide)]
    decide!
  · rw [loadFrom_fuel_irrelevant fuel _ _ _ (by decide)]
    decide!

/-! ## `LC_CodeTag::isspantag` -/

/-- C16, the claim as worded fails: with the stacking flag clear, `isspantag` returns `false`
for the decoration-close tags `\l`, `\o` and `\k`: the string `"LOKS"` that is searched
holds capital letters only, and `getFinalEnd` treats the close tags in its branch for tags
that are no span tags. -/
theorem isspantag_close_tag_false :
    LC_CodeTag.isspantag { sampleEnv.uninitTag with text := "\\l".toList } = false
    ∧ LC_CodeTag.isspantag { sampleEnv.uninitTag with text := "\\o".toList } = false
    ∧ LC_CodeTag.isspantag { sampleEnv.uninitTag with text := "\\k".toList } = false := by
  decide

/-- C16, amended: for a tag whose stacking flag is clear and whose text starts with a backslash
and a code letter other than `L`, `isspantag` returns `true` exactly when the letter is `S`,
`O` or `K` (so it returns `false` for the close tags `\l`, `\o`, `\k`, for setting tags and
for `\P`); it returns `true` for a text that starts with an opening brace, and `false` for a
text that starts with `^I`. -/
theorem isspantag_by_kind (t : LC_CodeTag) (hclear : t.isstack = false) :
    (∀ c rest, t.text = '\\' :: c :: rest → c ≠ 'L' →
        (t.isspantag = true ↔ c = 'S' ∨ c = 'O' ∨ c = 'K'))
    ∧ (∀ rest, t.text = '\x7b' :: rest → t.isspantag = true)
    ∧ (∀ rest, t.text = '^' :: 'I' :: rest → t.isspantag = false) := by
  refine ⟨?_, ?_, ?_⟩
  · intro c rest htext _
    unfold LC_CodeTag.isspantag
    rw [hclear, htext]
    have h0 : charAt ('\\' :: c :: rest) 0 = '\\' := rfl
    have h1 : charAt ('\\' :: c :: rest) 1 = c := rfl
    rw [h0, h1]
    have hset : (indexOfChar "LOKS".toList c 1 != -1) = true ↔ c = 'S' ∨ c = 'O' ∨ c = 'K' := by
      unfold indexOfChar
      simp only [clampFrom, String.toList, findIdx]
      constructor
      · intro h
        by_contra hn
        simp only [not_or] at hn
        obtain ⟨hS, hO, hK⟩ := hn
        simp [hS, hO, hK, Ne.symm hS, Ne.symm hO, Ne.symm hK, findIdx] at h
      · intro h
        rcases h with h | h | h <;> subst h <;> decide
    simp
    simpa using hset
  · intro rest htext
    unfold LC_CodeTag.isspantag
    rw [htext]
    have h0 : charAt ('\x7b' :: rest) 0 = '\x7b' := rfl
    rw [h0]
    simp
  · intro rest htext
    unfold LC_CodeTag.isspantag
    rw [hclear, htext]
    have h0 : charAt ('^' :: 'I' :: rest) 0 = '^' := rfl
    have h1 : charAt ('^' :: 'I' :: rest) 1 = 'I' := rfl
    rw [h0, h1]
    have h2 : (indexOfChar "LOKS".toList 'I' 1 != -1) = false := by decide
    rw [h2]
    simp

/-- C16, amended, at the tags `\l` (a close tag), `\O` and `\H2;` with the flag clear. -/
theorem isspantag_by_kind_witness :
    (LC_CodeTag.isspantag { sampleEnv.uninitTag with text := "\\l".toList } = true
      ↔ 'l' = 'S' ∨ 'l' = 'O' ∨ 'l' = 'K')
    ∧ (LC_CodeTag.isspantag { sampleEnv.uninitTag with text := "\\O".toList } = true
      ↔ 'O' = 'S' ∨ 'O' = 'O' ∨ 'O' = 'K')
    ∧ (LC_CodeTag.isspantag { sampleEnv.uninitTag with text := "\\H2;".toList } = true
      ↔ 'H' = 'S' ∨ 'H' = 'O' ∨ 'H' = 'K') :=
  ⟨(isspantag_by_kind { sampleEnv.uninitTag with text := "\\l".toList } rfl).1 'l' [] rfl
      (by decide),
   (isspantag_by_kind { sampleEnv.uninitTag with text := "\\O".toList } rfl).1 'O' [] rfl
      (by decide),
   (isspantag_by_kind { sampleEnv.uninitTag with text := "\\H2;".toList } rfl).1 'H'
     "2;".toList rfl (by decide)⟩

/-! ## `RS_MText::buildStackAssy` -/

/-- C19: for the stack tag text `x\Sb^c;` (prefix `x`, upper part `b`, operator `^`, lower
part `c`) `buildStackAssy` returns an assembly with two children, not three: the prefix `x`
and one child that holds the text `b^c` at the lowered position (y = -0.33 × 9) with the
height 0.58 × 9; there is no upper child. -/
theorem buildStackAssy_two_children :
    ∃ m : RS_MText,
      buildStackAssy sampleEnv 12 (RS_MText.fresh (sampleData [])) (sampleData [])
          { sampleEnv.uninitTag with text := "x\\Sb^c;".toList } = .ok (some m)
      ∧ m.entities.length = 2
      ∧ m.entities.map (fun e => e.asMText.map
          (fun c => (c.data.text, c.data.insertionPoint, c.data.height)))
        = [some ("x".toList, ⟨0, 0⟩, 9),
           some ("b^c".toList, ⟨9, -(9 * DROPSUBSCRIPT)⟩, 9 * SUPERSUBFAC)] := by
  have h : ((buildStackAssy sampleEnv 12 (RS_MText.fresh (sampleData [])) (sampleData [])
          { sampleEnv.uninitTag with text := "x\\Sb^c;".toList }).toOption.join.map
        (fun m => m.entities.map (fun e => e.asMText.map
          (fun c => (c.data.text, c.data.insertionPoint, c.data.height)))))
      = some [some ("x".toList, ⟨0, 0⟩, 9),
              some ("b^c".toList, ⟨9, -(9 * DROPSUBSCRIPT)⟩, 9 * SUPERSUBFAC)] := by
    decide!
  cases hr : buildStackAssy sampleEnv 12 (RS_MText.fresh (sampleData [])) (sampleData [])
      { sampleEnv.uninitTag with text := "x\\Sb^c;".toList } with
  | error f => rw [hr] at h; cases h
  | ok r =>
    cases r with
    | none => rw [hr] at h; cases h
    | some m =>
      rw [hr] at h
      have h' : m.entities.map (fun e => e.asMText.map
          (fun c => (c.data.text, c.data.insertionPoint, c.data.height)))
        = [some ("x".toList, ⟨0, 0⟩, 9),
           some ("b^c".toList, ⟨9, -(9 * DROPSUBSCRIPT)⟩, 9 * SUPERSUBFAC)] :=
        Option.some.inj h
      refine ⟨m, rfl, ?_, h'⟩
      have := congrArg List.length h'
      simpa using this

/-! ## `setText` on the text `a\Sb^c;d` -/

/-- The scan state of `getSecnStarts` on `\Sb^c` (a stacking code with no semicolon) is the
same after one pass of the loop. -/
theorem secnStep_unterminated_stack_fixed :
    secnStep "\\Sb^c".toList { n := 0, isCodeSecn := true, vecStarts := [0] }
      = { n := 0, isCodeSecn := true, vecStarts := [0] } := by decide

theorem getSecnStarts_unterminated_stack_diverges (fuel : Nat) :
    getSecnStarts fuel "\\Sb^c".toList = .error .fuel := by
  unfold getSecnStarts
  induction fuel with
  | zero => rfl
  | succ fuel ih =>
    rw [secnLoop]
    have hlt : ((0 : Int) < ("\\Sb^c".toList.length : Int)) := by decide
    simp only [hlt, if_true, secnStep_unterminated_stack_fixed]
    exact ih

/-- `setText` on the text `\Sb^c` never returns: its `getSecnStarts` does not. -/
theorem setText_unterminated_stack_diverges (env : Env) (fuel : Nat) (isRoot : Bool)
    (self : RS_MText) : setText env fuel isRoot self "\\Sb^c".toList = .error .fuel := by
  cases fuel with
  | zero => rfl
  | succ fuel =>
    rw [setText]
    have hempty : "\\Sb^c".toList.isEmpty = false := rfl
    simp only [hempty, Bool.false_eq_true, if_false,
      getSecnStarts_unterminated_stack_diverges]

/-- `buildStackAssy` on the stack tag text `\Sb^c;` (no prefix): the offset `n` stays on the
backslash of `\S`, no upper child is made, and the child made for the lower part is given the
text `\Sb^c`, on which `setText` never returns. -/
theorem buildStackAssy_no_prefix_diverges (env : Env) (fuel : Nat) (self : RS_MText)
    (data : RS_MTextData) (ct : LC_CodeTag) (hct : ct.text = "\\Sb^c;".toList) :
    buildStackAssy env fuel self data ct = .error .fuel := by
  cases fuel with
  | zero => rfl
  | succ fuel =>
    rw [buildStackAssy]
    have h0 : indexOfStr "\\Sb^c;".toList "\\S".toList 0 = 0 := by decide
    have h1 : indexOfNotSlashHash "\\Sb^c;".toList 0 = 0 := by decide
    have h2 : indexOfStr "\\Sb^c;".toList ";".toList 0 = 5 := by decide
    have h3 : charAt "\\Sb^c;".toList 0 = '\\' := by decide
    have h4 : mid "\\Sb^c;".toList 0 (5 - 0) = "\\Sb^c".toList := by decide
    have h5 : ¬ (('\\' : Char) = '#') := by decide
    simp only [hct, h0, h1, h2, h3, h4, h5, ne_eq, not_true_eq_false, if_false, le_refl,
      if_true, gt_iff_lt, lt_self_iff_false, show (0 : Int) < 5 by decide,
      setText_unterminated_stack_diverges]

/-- The pass of the section loop of `setText` that starts at the stacking code of `a\Sb^c;d`
(section 2) never ends. -/
theorem sectionLoop_stack_diverges (fuel : Nat) (self : RS_MText) (datanow : RS_MTextData)
    (hT : self.data.text = "a\\Sb^c;d".toList) :
    sectionLoop sampleEnv fuel self [0, 0, 1, 6, 7, 8] datanow sampleEnv.uninitTag 2
      = .error .fuel := by
  cases fuel with
  | zero => rfl
  | succ fuel =>
    have hcond : ((2 : Nat) : Int) < (([0, 0, 1, 6, 7, 8] : List Nat).length : Int) - 2 := by
      decide
    have hsf : stackFoundAt "a\\Sb^c;d".toList 2 [0, 0, 1, 6, 7, 8] = true := by decide
    have hget : ([0, 0, 1, 6, 7, 8] : List Nat).getD 2 0 = 1 := rfl
    have hload : LC_CodeTag.loadFrom fuel sampleEnv.uninitTag "a\\Sb^c;d".toList 1
        = .ok { text := "\\Sb^c;".toList, isstack := true, dblVal := 0, intVal := 0,
                strVal := [], starttag := 1, endtag := 6 } := by
      rw [loadFrom_fuel_irrelevant fuel _ _ _ (by decide)]
      decide!
    have hb := buildStackAssy_no_prefix_diverges sampleEnv fuel self datanow
      { text := "\\Sb^c;".toList, isstack := true, dblVal := 0, intVal := 0,
        strVal := [], starttag := 1, endtag := 6 } rfl
    rw [sectionLoop]
    simp only [hT, hcond, hsf, hget, hload, hb, if_true]

/-- A child built for the text `a` under style data without decoration and tab settings:
`setText` either runs out of fuel or returns. -/
theorem setText_child_a (f : Nat) (d : RS_MTextData) (hd : d.text = "a".toList)
    (hdecor : d.decoration = MTextDecor.None) (htabs : d.tabs = none) :
    setText sampleEnv f false (RS_MText.fresh d) d.text = .error .fuel
      ∨ ∃ c, setText sampleEnv f false (RS_MText.fresh d) d.text = .ok c := by
  have hempty : "a".toList.isEmpty = false := rfl
  rcases f with _ | _ | _ | f
  · left; rfl
  · left
    rw [setText, hd]
    simp only [hempty, Bool.false_eq_true, if_false]
    rfl
  · left
    rw [setText, hd]
    simp only [hempty, Bool.false_eq_true, if_false]
    rfl
  · right
    have hne : d.text ≠ [] := by rw [hd]; decide
    have hc := construct_plain sampleEnv sampleFont (f + 1) false d hne
      (by rw [hd]; decide) (by rw [hd]; decide) (by rw [hd]; decide) (by rw [hd]; decide)
      rfl (by rw [hd]; simp)
    obtain ⟨G, hG, hins, _⟩ := glyphLoop_spec sampleFont d.text 0
      ⟨d.height / 9 * d.textWidthFac, d.height / 9⟩
      (d.height / 9 * d.textWidthFac * sampleFont.wordSpacing)
      (d.height / 9 * d.textWidthFac * sampleFont.letterSpacing)
      (d.insertionPoint.y - d.height) d.text.length 0 d.insertionPoint.x [] (by omega)
    have hent0 : (plainLeaf sampleFont d).entities = G := by
      have : (plainLeaf sampleFont d).entities = ([] : List RS_Entity) ++ G := by
        rw [← hG]; rfl
      simpa using this
    obtain ⟨node, hnode, _⟩ := finishText_leaf sampleEnv (f + 1) false (plainLeaf sampleFont d)
      (by rw [hent0]; exact hins) hdecor htabs hne (fun h => by cases h)
    exact ⟨node, by rw [← hnode, ← hc]; rfl⟩

theorem sectionLoop_first_diverges (fuel : Nat) (self : RS_MText) (datanow : RS_MTextData)
    (hT : self.data.text = "a\\Sb^c;d".toList)
    (hdecor : datanow.decoration = MTextDecor.None) (htabs : datanow.tabs = none) :
    sectionLoop sampleEnv fuel self [0, 0, 1, 6, 7, 8] datanow sampleEnv.uninitTag 0
      = .error .fuel := by
  cases fuel with
  | zero => rfl
  | succ fuel =>
    have hcond : ((0 : Nat) : Int) < (([0, 0, 1, 6, 7, 8] : List Nat).length : Int) - 2 := by
      decide
    have hsf : stackFoundAt "a\\Sb^c;d".toList 0 [0, 0, 1, 6, 7, 8] = false := by decide
    have hg0 : ([0, 0, 1, 6, 7, 8] : List Nat).getD 0 0 = 0 := rfl
    have hg1 : ([0, 0, 1, 6, 7, 8] : List Nat).getD (0 + 1) 0 = 0 := rfl
    have hg2 : ([0, 0, 1, 6, 7, 8] : List Nat).getD (0 + 2) 0 = 1 := rfl
    rw [sectionLoop]
    simp only [hT, hcond, hsf, hg0, hg1, hg2, if_true, Bool.false_eq_true, if_false]
    cases fuel with
    | zero => rfl
    | succ fuel =>
      have hsp : sampleEnv.uninitTag.isspantag = false := by decide
      have hmid : mid "a\\Sb^c;d".toList (toInt32 0)
          (toInt32 (toUInt (((1 : Nat) : Int) - ((0 : Nat) : Int)))) = "a".toList := by decide
      have hmod : (0 + 2) % 65536 = 2 := rfl
      rw [spanTagLoop]
      simp only [lt_self_iff_false, if_false, hsp, hmid, hmod, Bool.false_eq_true]
      rcases setText_child_a (fuel + 1) { datanow with text := "a".toList } rfl hdecor htabs
        with h | ⟨c, h⟩
      · rw [h]
      · rw [h]
        exact sectionLoop_stack_diverges (fuel + 1) _ _ hT

theorem secnLoop_mono (text : QString) :
    ∀ (fuel : Nat) (st : SecnState) (r : List Nat),
      secnLoop text fuel st = .ok r → secnLoop text (fuel + 1) st = .ok r := by
  intro fuel
  induction fuel with
  | zero => intro st r h; cases h
  | succ fuel ih =>
    intro st r h
    rw [secnLoop] at h ⊢
    split
    · rename_i hlt
      rw [if_pos hlt] at h
      exact ih _ _ h
    · rename_i hlt
      rw [if_neg hlt] at h
      exact h

theorem getSecnStarts_stack_scenario (fuel : Nat) :
    getSecnStarts fuel "a\\Sb^c;d".toList = .error .fuel
      ∨ getSecnStarts fuel "a\\Sb^c;d".toList = .ok [0, 0, 1, 6, 7, 8] := by
  rcases Nat.lt_or_ge fuel 4 with h | h
  · left
    interval_cases fuel <;> decide
  · right
    obtain ⟨k, rfl⟩ : ∃ k, fuel = 4 + k := ⟨fuel - 4, by omega⟩
    induction k with
    | zero => decide
    | succ k ih => exact secnLoop_mono _ _ _ _ (ih (by omega))

/-- C20: for the input `a\Sb^c;d` the constructor (`setText`) never returns, whatever the
fuel.  The boundary list is `[0, 0, 1, 6, 7, 8]`; the leaf `a` is built; the stack tag is
loaded with the text `\Sb^c;`; in `buildStackAssy` the offset `n` is 0 (no prefix) and is not
moved past `\S`, so no upper child is made and the lower child is constructed on the text
`\Sb^c`, whose `getSecnStarts` loops for ever on the stacking code without a semicolon. -/
theorem setText_stack_scenario_never_returns (fuel : Nat) :
    RS_MText.construct sampleEnv fuel true (sampleDataWidth 1000 "a\\Sb^c;d".toList)
      = .error .fuel := by
  unfold RS_MText.construct
  cases fuel with
  | zero => rfl
  | succ fuel =>
    have hempty : "a\\Sb^c;d".toList.isEmpty = false := rfl
    have htext : (sampleDataWidth 1000 "a\\Sb^c;d".toList).text = "a\\Sb^c;d".toList := rfl
    rw [setText]
    simp only [htext, hempty, Bool.false_eq_true, if_false]
    rcases getSecnStarts_stack_scenario fuel with h | h
    · rw [h]
    · rw [h]
      have hlen : ¬ (2 < ([0, 0, 1, 6, 7, 8] : List Nat).length
          ∧ ([0, 0, 1, 6, 7, 8] : List Nat).length < 5) := by decide
      simp only [if_neg hlen]
      rw [sectionLoop_first_diverges fuel _ _ rfl rfl rfl]

/-! ## `RS_MText::stackFoundAt` and the prefix split of `getSecnStarts` -/

/-- A boundary list that `getSecnStarts` returns with some fuel is returned with any larger
fuel. -/
theorem getSecnStarts_add (text : QString) (k : Nat) (r : List Nat)
    (h : getSecnStarts k text = .ok r) (fuel : Nat) : getSecnStarts (k + fuel) text = .ok r := by
  induction fuel with
  | zero => exact h
  | succ fuel ih => exact secnLoop_mono _ _ _ _ ih

/-- C21: for the text `a\Sb^c;d`, whose boundary list is `[0, 0, 1, 6, 7, 8]`, and `nsecn = 0`
(which is less than size - 3), the first `\S` is at offset 1, inside the next code section
`[1, 6)`, and the text holds no space at all; `stackFoundAt` returns `false`, because the
not-found value -1 of the search for a space is not greater than the offset of `\S`. -/
theorem stackFoundAt_no_space_false (fuel : Nat) :
    getSecnStarts (4 + fuel) "a\\Sb^c;d".toList = .ok [0, 0, 1, 6, 7, 8]
    ∧ indexOfStr "a\\Sb^c;d".toList "\\S".toList 0 = 1
    ∧ indexOfStr "a\\Sb^c;d".toList " ".toList 0 = -1
    ∧ stackFoundAt "a\\Sb^c;d".toList 0 [0, 0, 1, 6, 7, 8] = false :=
  ⟨getSecnStarts_add _ 4 _ (by decide) fuel, by decide, by decide, by decide⟩

/-- C22: for the text `ab\Sc^d;` the display text `ab` before the stacking code holds no
whitespace, and yet `getSecnStarts` inserts the two equal boundaries 1, 1 inside it: the
backward scan for a space stops at offset 0 because it cannot go further, which the code takes
for a space found at offset 0. -/
theorem getSecnStarts_splits_spaceless_prefix (fuel : Nat) :
    getSecnStarts (5 + fuel) "ab\\Sc^d;".toList = .ok [0, 0, 1, 1, 2, 7, 8]
    ∧ (∀ c ∈ "ab".toList, isSpace c = false)
    ∧ backToSpace "ab\\Sc^d;".toList 2 = 0 :=
  ⟨getSecnStarts_add _ 5 _ (by decide) fuel, by decide, by decide⟩

/-! ## `LC_MTextTabGroup::loadFrom` and `RS_MTextData::applyCode` -/

/-- C29: for the tab-settings tag text `\pt1,i2,l3;` the decoded list is
(LeftAlign, 1), (ItemIndent, 2), (LeftIndent, 3), whose first two entries are not
(ItemIndent, LeftIndent), and `hasListFormat()` is `false` on style data with this tab group;
but `loadFrom` has set the flag `listFormatter`, because a LeftIndent entry follows an
ItemIndent entry further on in the list. -/
theorem tabGroup_flag_disagrees :
    LC_MTextTabGroup.load "\\pt1,i2,l3;".toList
      = .ok { listFormatter := true,
              tablist := [(.LeftAlign, 1), (.ItemIndent, 2), (.LeftIndent, 3)] }
    ∧ RS_MTextData.hasListFormat
        { sampleData [] with
            tabs := some { listFormatter := true,
                           tablist := [(.LeftAlign, 1), (.ItemIndent, 2), (.LeftIndent, 3)] } }
      = false := by
  constructor
  · decide!
  · decide!

/-- C30: when the code letter of a tag (its second character, or its only character) is none
of `F`, `f`, `H`, `W`, `p`, `P`, `L`, `O`, `K`, `I` (so for `A`, `C`, `Q`, `T`, `X`, `S`,
the closing codes, the braces and every letter that is no code), `applyCode` returns and
leaves the style state as it was. -/
theorem applyCode_ignored (d : RS_MTextData) (codetag : LC_CodeTag)
    (hcode : toLatin1 (if codetag.text.length > 1 then charAt codetag.text 1
                       else charAt codetag.text 0) ∉ "FfHWpPLOKI".toList) :
    d.applyCode codetag = .ok d := by
  simp only [String.toList, List.mem_cons, List.mem_singleton, List.not_mem_nil, or_false,
    not_or] at hcode
  obtain ⟨hF, hf, hH, hW, hp, hP, hL, hO, hK, hI⟩ := hcode
  unfold RS_MTextData.applyCode
  dsimp only
  rw [if_neg (by rintro (h | h) <;> contradiction), if_neg hH, if_neg hW, if_neg hp, if_neg hP,
    if_neg hL, if_neg hO, if_neg hK, if_neg hI]

/-- Witness of C30: the tag `\A1;` applied to the sample style data. -/
theorem applyCode_ignored_witness :
    (sampleData "x".toList).applyCode { sampleEnv.uninitTag with text := "\\A1;".toList }
      = .ok (sampleData "x".toList) :=
  applyCode_ignored (sampleData "x".toList) { sampleEnv.uninitTag with text := "\\A1;".toList }
    (by decide)

/-! ## `setText` on the text `Plain text` -/

/-- On a non-empty text of ordinary display characters (no backslash, no brace, no `^I`, not
beginning with `^`) whose font is found, under style data without decoration and tab settings
and, for a root, with glyphs that fit within the reference width, the constructor returns one
glyph holder whose entities are the glyph placements of the text. -/
theorem construct_plain_leaf (env : Env) (font : RS_Font) (fuel : Nat) (isRoot : Bool)
    (d : RS_MTextData)
    (hne : d.text ≠ []) (hsize : d.text.length < 2147483648)
    (hplain : ∀ c ∈ d.text, c ≠ '\\' ∧ c ≠ '\x7b' ∧ c ≠ '\x7d')
    (hcaret : ∀ i < d.text.length, d.text.getD i NUL = '^' → d.text.getD (i + 1) NUL ≠ 'I')
    (hfirst : d.text.head? ≠ some '^')
    (hfont : env.requestFont d.style = some font)
    (hdecor : d.decoration = MTextDecor.None)
    (htabs : d.tabs = none)
    (hfuel : d.text.length + 2 ≤ fuel)
    (hfit : isRoot = true →
      ∀ e ∈ plainGlyphs font d d.text, e.getMax.x ≤ d.insertionPoint.x + d.width) :
    ∃ node, RS_MText.construct env fuel isRoot d = .ok node
      ∧ node.entities = plainGlyphs font d d.text
      ∧ (∀ e ∈ node.entities, e.isInsert = true)
      ∧ node.entities.length = (d.text.filter (fun c => !isSpace c)).length := by
  obtain ⟨f, rfl⟩ : ∃ f, fuel = f + 1 + 1 := ⟨fuel - 2, by omega⟩
  obtain ⟨G, hG, hins, hlen⟩ := glyphLoop_spec font d.text 0
    ⟨d.height / 9 * d.textWidthFac, d.height / 9⟩
    (d.height / 9 * d.textWidthFac * font.wordSpacing)
    (d.height / 9 * d.textWidthFac * font.letterSpacing)
    (d.insertionPoint.y - d.height) d.text.length 0 d.insertionPoint.x [] (by omega)
  have hPG : plainGlyphs font d d.text = G := by
    unfold plainGlyphs
    rw [hG]
    rfl
  have hent0 : (plainLeaf font d).entities = plainGlyphs font d d.text := rfl
  rw [construct_plain env font f isRoot d hne hsize hplain hcaret hfirst hfont (by omega)]
  obtain ⟨node, hnode, hent⟩ := finishText_leaf env f isRoot (plainLeaf font d)
    (by rw [hent0, hPG]; exact hins) hdecor htabs hne (by rw [hent0]; exact hfit)
  refine ⟨node, hnode, by rw [hent, hent0], by rw [hent, hent0, hPG]; exact hins, ?_⟩
  rw [hent, hent0, hPG, hlen]
  simp

theorem hasGlyphs_of_inserts (m : RS_MText) (hne : m.entities ≠ [])
    (h : ∀ e ∈ m.entities, e.isInsert = true) : m.hasGlyphs = true := by
  unfold RS_MText.hasGlyphs
  cases he : m.entities with
  | nil => exact absurd he hne
  | cons e es => exact h e (by rw [he]; exact List.mem_cons_self e es)

/-- C26, the claim as worded fails: for the input `Plain text` with the sample font and the
reference width 1000 the constructor returns one glyph holder with 9 glyph placements, one for
each of the nine characters that are no space, not 10. -/
theorem setText_plain_text_nine_glyphs :
    ∃ node, RS_MText.construct sampleEnv 20 true (sampleDataWidth 1000 "Plain text".toList)
        = .ok node
      ∧ (∀ e ∈ node.entities, e.isInsert = true)
      ∧ node.entities.length = 9 ∧ node.entities.length ≠ 10
      ∧ "Plain text".toList.length = 10 := by
  obtain ⟨node, hnode, _, hins, hlen⟩ := construct_plain_leaf sampleEnv sampleFont 20 true
    (sampleDataWidth 1000 "Plain text".toList) (by decide) (by decide) (by decide) (by decide)
    (by decide) rfl rfl rfl (by decide) (fun _ => by decide!)
  have h9 : node.entities.length = 9 := by rw [hlen]; decide
  exact ⟨node, hnode, hins, h9, by rw [h9]; decide, by decide⟩

/-- C26, amended: for the input `Plain text`, with the font found, style data without
decoration and tab settings and, for a root, a reference width within which the glyphs fit,
`setText` returns one glyph holder (a Leaf) that holds 9 glyph placements and nothing else. -/
theorem setText_plain_text_leaf (env : Env) (font : RS_Font) (fuel : Nat) (isRoot : Bool)
    (d : RS_MTextData)
    (htext : d.text = "Plain text".toList)
    (hfont : env.requestFont d.style = some font)
    (hdecor : d.decoration = MTextDecor.None)
    (htabs : d.tabs = none)
    (hfuel : 12 ≤ fuel)
    (hfit : isRoot = true →
      ∀ e ∈ plainGlyphs font d d.text, e.getMax.x ≤ d.insertionPoint.x + d.width) :
    ∃ node, RS_MText.construct env fuel isRoot d = .ok node
      ∧ node.hasGlyphs = true
      ∧ (∀ e ∈ node.entities, e.isInsert = true)
      ∧ node.entities.length = 9 := by
  obtain ⟨node, hnode, _, hins, hlen⟩ := construct_plain_leaf env font fuel isRoot d
    (by rw [htext]; decide) (by rw [htext]; decide) (by rw [htext]; decide)
    (by rw [htext]; decide) (by rw [htext]; decide) hfont hdecor htabs
    (by rw [htext]; exact hfuel) hfit
  have h9 : node.entities.length = 9 := by rw [hlen, htext]; decide
  refine ⟨node, hnode, hasGlyphs_of_inserts node ?_ hins, hins, h9⟩
  intro h0
  rw [h0] at h9
  cases h9

/-- C26, amended, for a root with the sample font and the reference width 1000. -/
theorem setText_plain_text_leaf_witness :
    ∃ node, RS_MText.construct sampleEnv 12 true (sampleDataWidth 1000 "Plain text".toList)
        = .ok node
      ∧ node.hasGlyphs = true
      ∧ (∀ e ∈ node.entities, e.isInsert = true)
      ∧ node.entities.length = 9 :=
  setText_plain_text_leaf sampleEnv sampleFont 12 true
    (sampleDataWidth 1000 "Plain text".toList) rfl rfl rfl rfl (by decide)
    (fun _ => by decide!)

/-! ## `setText` on the text `\LUnderlined\l` -/

/-- A tag with an empty text has no code letter: `applyCode` leaves the style state as it
is. -/
theorem applyCode_empty_tag (d : RS_MTextData) (ct : LC_CodeTag) (h : ct.text = []) :
    d.applyCode ct = .ok d := by
  unfold RS_MTextData.applyCode
  rw [h]
  have hF : ¬ (toLatin1 (if ([] : QString).length > 1 then charAt [] 1 else charAt [] 0) = 'F'
      ∨ toLatin1 (if ([] : QString).length > 1 then charAt [] 1 else charAt [] 0) = 'f') := by
    decide
  have hH : ¬ toLatin1 (if ([] : QString).length > 1 then charAt [] 1 else charAt [] 0) = 'H' := by
    decide
  have hW : ¬ toLatin1 (if ([] : QString).length > 1 then charAt [] 1 else charAt [] 0) = 'W' := by
    decide
  have hp : ¬ toLatin1 (if ([] : QString).length > 1 then charAt [] 1 else charAt [] 0) = 'p' := by
    decide
  have hP : ¬ toLatin1 (if ([] : QString).length > 1 then charAt [] 1 else charAt [] 0) = 'P' := by
    decide
  have hL : ¬ toLatin1 (if ([] : QString).length > 1 then charAt [] 1 else charAt [] 0) = 'L' := by
    decide
  have hO : ¬ toLatin1 (if ([] : QString).length > 1 then charAt [] 1 else charAt [] 0) = 'O' := by
    decide
  have hK : ¬ toLatin1 (if ([] : QString).length > 1 then charAt [] 1 else charAt [] 0) = 'K' := by
    decide
  have hI : ¬ toLatin1 (if ([] : QString).length > 1 then charAt [] 1 else charAt [] 0) = 'I' := by
    decide
  dsimp only
  rw [if_neg hF, if_neg hH, if_neg hW, if_neg hp, if_neg hP, if_neg hL, if_neg hO, if_neg hK,
    if_neg hI]

/-- The tag loop of `setText` on the text `\LUnderlined\l`, whose code section ends at offset
2, with a newly constructed tag whose stacking flag reads false: the tag `\L` is no span tag,
`getFinalEnd` finds no `;` and returns the cursor 0, the tag text is cut to nothing, and the
loop comes back to the same state after every pass. -/
theorem tagLoop_underline_diverges (fuel : Nat) (d : RS_MTextData)
    (hT : d.text = "\\LUnderlined\\l".toList) :
    tagLoop sampleEnv fuel 2 0 d = .error .fuel := by
  induction fuel with
  | zero => rfl
  | succ fuel ih =>
    have hload : LC_CodeTag.loadFrom fuel sampleEnv.uninitTag "\\LUnderlined\\l".toList 0
        = .ok { text := [], isstack := false, dblVal := 0, intVal := 0, strVal := [],
                starttag := 0, endtag := 0 } := by
      rw [loadFrom_fuel_irrelevant fuel _ _ _ (by decide)]
      decide!
    rw [tagLoop, if_pos (by decide), hT, hload]
    dsimp only
    rw [applyCode_empty_tag d _ rfl]
    exact ih

theorem getSecnStarts_underlined (fuel : Nat) :
    getSecnStarts fuel "\\LUnderlined\\l".toList = .error .fuel
      ∨ getSecnStarts fuel "\\LUnderlined\\l".toList = .ok [0, 2, 12, 14] := by
  rcases Nat.lt_or_ge fuel 13 with h | h
  · left
    interval_cases fuel <;> decide
  · right
    obtain ⟨k, rfl⟩ : ∃ k, fuel = 13 + k := ⟨fuel - 13, by omega⟩
    exact getSecnStarts_add _ 13 _ (by decide) k

/-- C27: for the input `\LUnderlined\l` (sample font, reference width 1000) the constructor
(`setText`) never returns, whatever the fuel, when the stacking flag of a newly constructed
tag reads false. The boundary list `[0, 2, 12, 14]` has four entries, so the branch for a
single display section is taken; its tag loop loads the tag at the cursor 0, `isspantag` does
not take `\L` for a span tag, `getFinalEnd` finds no `;` and returns the cursor 0 as the
end, and the loop `while (nchr < vecSecnStarts.at(1))` makes no progress. When the
indeterminate flag reads true, the constructor returns a root that holds the 10 glyphs and
the line itself (11 entities, none of them an `RS_MText`), no composite with one child. -/
theorem setText_underlined_never_returns (fuel : Nat) :
    getSecnStarts 14 "\\LUnderlined\\l".toList = .ok [0, 2, 12, 14]
    ∧ (LC_CodeTag.loadFrom fuel sampleEnv.uninitTag "\\LUnderlined\\l".toList 0).map
        (fun t => (t.starttag, t.endtag)) = .ok (0, 0)
    ∧ RS_MText.construct sampleEnv fuel true
        (sampleDataWidth 1000 "\\LUnderlined\\l".toList) = .error .fuel
    ∧ (RS_MText.construct
          { sampleEnv with uninitTag := { sampleEnv.uninitTag with isstack := true } } 20 true
          (sampleDataWidth 1000 "\\LUnderlined\\l".toList)).toOption.map
        (fun m => (m.hasGlyphs, m.data.decoration, m.entities.length,
          m.entities.map (fun e => e.asMText.isSome)))
      = some (true, MTextDecor.Underline, 11,
          [false, false, false, false, false, false, false, false, false, false, false]) := by
  refine ⟨by decide, ?_, ?_, by decide!⟩
  · rw [loadFrom_fuel_irrelevant fuel _ _ _ (by decide)]
    decide
  · unfold RS_MText.construct
    cases fuel with
    | zero => rfl
    | succ fuel =>
      have hempty : "\\LUnderlined\\l".toList.isEmpty = false := rfl
      have htext : (sampleDataWidth 1000 "\\LUnderlined\\l".toList).text
          = "\\LUnderlined\\l".toList := rfl
      rw [setText]
      simp only [htext, hempty, Bool.false_eq_true, if_false]
      rcases getSecnStarts_underlined fuel with h | h
      · rw [h]
      · rw [h]
        have hlen : (2 < ([0, 2, 12, 14] : List Nat).length
            ∧ ([0, 2, 12, 14] : List Nat).length < 5) := by decide
        have hget : ([0, 2, 12, 14] : List Nat).getD 1 0 = 2 := rfl
        simp only [if_pos hlen, hget]
        rw [tagLoop_underline_diverges fuel _ (by decide)]

/-! ## `setText` on a text with a no-break space -/

/-- C28: for the input `a\~b` (sample font, reference width 1000) the glyph holder gets four
glyph placements, not two.  The boundary list `[0, 0, 4]` is made before the substitution,
which shortens the text to three characters; the character put in place of `\~` is no space
and gets a glyph, and the walk over the display text also reads index 3, behind the end of the
substituted text, and places a glyph for the null character read there. -/
theorem setText_nbsp_places_glyphs :
    getSecnStarts 6 "a\\~b".toList = .ok [0, 0, 4]
    ∧ replaceNbsp "a\\~b".toList = ['a', nbspReplacement, 'b']
    ∧ isSpace nbspReplacement = false
    ∧ charAt (replaceNbsp "a\\~b".toList) 3 = NUL
    ∧ (RS_MText.construct sampleEnv 20 true
          (sampleDataWidth 1000 "a\\~b".toList)).toOption.map
        (fun m => (m.data.text, m.entities))
      = some (['a', nbspReplacement, 'b'],
          [.insert ['a'] ⟨0, -9⟩ ⟨0, -9⟩ ⟨6, 0⟩,
           .insert [nbspReplacement] ⟨9, -9⟩ ⟨9, -9⟩ ⟨15, 0⟩,
           .insert ['b'] ⟨18, -9⟩ ⟨18, -9⟩ ⟨24, 0⟩,
           .insert [NUL] ⟨27, -9⟩ ⟨27, -9⟩ ⟨33, 0⟩]) := by
  refine ⟨by decide, by decide, by decide, by decide, ?_⟩
  decide!

/-! ## Re-segmenting a display section -/

/-- C25: for the source string `x ^y\Sa^b;` the boundary list is `[0, 0, 2, 2, 4, 9, 10]`;
its display section `[2, 4)`, made by the split in front of the stacking code, is the text
`^y`, and `getSecnStarts` on `^y` alone yields `[0, 1, 2]`, not `[0, 0, 2]`: the caret that
is not followed by `I` opens no display section, so there is an inner boundary at 1. -/
theorem getSecnStarts_section_not_idempotent (fuel : Nat) :
    getSecnStarts (7 + fuel) "x ^y\\Sa^b;".toList = .ok [0, 0, 2, 2, 4, 9, 10]
    ∧ mid "x ^y\\Sa^b;".toList 2 (4 - 2) = "^y".toList
    ∧ getSecnStarts (3 + fuel) "^y".toList = .ok [0, 1, 2] :=
  ⟨getSecnStarts_add _ 7 _ (by decide) fuel, by decide,
    getSecnStarts_add _ 3 _ (by decide) fuel⟩

/-! ## `getSecnStarts` on literal display text -/

/-- One pass of the scan over an ordinary display character. -/
theorem secnStep_ordinary (t : QString) (st : SecnState) (c : Char)
    (hc : charAt t st.n = c)
    (h1 : c ≠ '\\') (h2 : c ≠ '^') (h3 : c ≠ '\x7b') (h4 : c ≠ '\x7d') :
    secnStep t st = { switchTo false st with n := (switchTo false st).n + 1 } := by
  unfold secnStep
  dsimp only
  rw [hc]
  rw [if_neg (toLatin1_ne c _ (by decide) h1), if_neg (toLatin1_ne c _ (by decide) h2),
    if_neg (by
      rintro (h | h)
      · exact toLatin1_ne c _ (by decide) h3 h
      · exact toLatin1_ne c _ (by decide) h4 h)]

/-- One pass of the scan over one of the escapes `\\`, `\{`, `\}`, `\~`. -/
theorem secnStep_escape (t : QString) (st : SecnState) (e : Char)
    (hc : charAt t st.n = '\\') (he : charAt t (st.n + 1) = e)
    (hesc : (e == '\\' || e == '\x7b' || e == '\x7d' || e == '~') = true) :
    secnStep t st = { switchTo false st with n := (switchTo false st).n + 1 + 1 } := by
  unfold secnStep
  dsimp only
  rw [hc, he]
  have h0 : toLatin1 '\\' = '\\' := by decide
  have hin : inSet "\\\x7b\x7d~" e = true := by
    simp only [Bool.or_eq_true, beq_iff_eq] at hesc
    rcases hesc with ((h | h) | h) | h <;> subst h <;> decide
  rw [h0, if_pos rfl, hin, if_pos rfl]

theorem switchTo_same (b : Bool) (n : Int) (vec : List Nat) :
    switchTo b { n := n, isCodeSecn := b, vecStarts := vec }
      = { n := n, isCodeSecn := b, vecStarts := vec } := by
  unfold switchTo
  simp

theorem secnLoop_literal (t : QString) :
    ∀ (fuel k : Nat) (suffix : QString) (vec : List Nat),
      k + suffix.length = t.length → t.drop k = suffix → isLiteralText suffix = true →
      t.length < 2147483648 → suffix.length + 1 ≤ fuel →
      secnLoop t fuel { n := k, isCodeSecn := false, vecStarts := vec }
        = .ok (vec ++ [t.length]) := by
  intro fuel
  induction fuel with
  | zero => intro k suffix vec _ _ _ _ hf; omega
  | succ fuel ih =>
    intro k suffix vec hk hdrop hlit hsize hf
    rw [secnLoop]
    dsimp only
    match suffix, hk, hdrop, hlit, hf with
    | [], hk, hdrop, hlit, hf =>
      simp only [List.length_nil, Nat.add_zero] at hk
      rw [if_neg (by omega), hk, toUInt_natCast _ (by omega)]
    | [c], hk, hdrop, hlit, hf =>
      simp only [List.length_cons, List.length_nil] at hk hf
      rw [if_pos (by omega)]
      have hc : charAt t ((k : Nat) : Int) = c := by
        have := charAt_drop t k 0 c (by
          have h := congrArg (fun l => l[0]?) hdrop
          simpa [List.getElem?_drop] using h)
        rw [hdrop] at this
        rw [charAt_natCast, List.getD_eq_getElem?_getD]
        have h := congrArg (fun l => l[0]?) hdrop
        simp only [List.getElem?_drop, Nat.add_zero] at h
        rw [h]; rfl
      simp only [isLiteralText, Bool.not_eq_true', Bool.or_eq_false_iff, beq_eq_false_iff_ne,
        ne_eq] at hlit
      obtain ⟨⟨⟨h1, h2⟩, h3⟩, h4⟩ := hlit
      rw [secnStep_ordinary t _ c hc h1 h2 h3 h4, switchTo_same]
      have := ih (k + 1) [] vec (by simp; omega)
        (by rw [← List.drop_drop, hdrop]; rfl) rfl hsize (by simp; omega)
      simpa using this
    | c :: e :: rest, hk, hdrop, hlit, hf =>
      simp only [List.length_cons] at hk hf
      rw [if_pos (by omega)]
      have hget : ∀ i, t[k + i]? = (c :: e :: rest)[i]? := by
        intro i
        rw [← hdrop, List.getElem?_drop]
      have hc : charAt t ((k : Nat) : Int) = c := by
        rw [charAt_natCast, List.getD_eq_getElem?_getD]
        have := hget 0
        simp only [Nat.add_zero, List.getElem?_cons_zero] at this
        rw [this]; rfl
      have he : charAt t ((k : Nat) + 1 : Int) = e := by
        have h : ((k : Nat) + 1 : Int) = ((k + 1 : Nat) : Int) := by push_cast; rfl
        rw [h, charAt_natCast, List.getD_eq_getElem?_getD, hget 1]
        simp
      by_cases hbs : c = '\\'
      · subst hbs
        simp only [isLiteralText, if_true, Bool.and_eq_true] at hlit
        obtain ⟨hesc, hrest⟩ := hlit
        rw [secnStep_escape t _ e hc he hesc, switchTo_same]
        have := ih (k + 2) rest vec (by omega)
          (by rw [← List.drop_drop, hdrop]; rfl) hrest hsize (by omega)
        have h2 : ((k : Nat) : Int) + 1 + 1 = ((k + 2 : Nat) : Int) := by push_cast; ring
        simp only [h2]
        exact this
      · simp only [isLiteralText, if_neg hbs, Bool.and_eq_true, Bool.not_eq_true',
          Bool.or_eq_false_iff, beq_eq_false_iff_ne, ne_eq] at hlit
        obtain ⟨⟨⟨h2, h3⟩, h4⟩, hrest⟩ := hlit
        rw [secnStep_ordinary t _ c hc hbs h2 h3 h4, switchTo_same]
        have := ih (k + 1) (e :: rest) vec (by simp; omega)
          (by rw [← List.drop_drop, hdrop]; rfl) hrest hsize (by simp; omega)
        simpa using this

theorem switchTo_first :
    switchTo false { n := 0, isCodeSecn := true, vecStarts := [0] }
      = { n := 0, isCodeSecn := false, vecStarts := [0, 0] } := by decide

/-- C23: for every non-empty source string built only from ordinary display characters
(anything other than `\`, `^`, `{`, `}`) and the escapes `\\`, `\{`, `\}`, `\~`, and shorter
than 2^31 characters, `getSecnStarts` returns (with fuel for one pass per character and two
more) exactly `[0, 0, length]`. -/
theorem getSecnStarts_literal (t : QString) (fuel : Nat) (hne : t ≠ [])
    (hlit : isLiteralText t = true) (hsize : t.length < 2147483648)
    (hfuel : t.length + 2 ≤ fuel) :
    getSecnStarts fuel t = .ok [0, 0, t.length] := by
  obtain ⟨f, rfl⟩ : ∃ f, fuel = f + 1 := ⟨fuel - 1, by omega⟩
  unfold getSecnStarts
  rw [secnLoop]
  dsimp only
  match t, hne, hlit, hsize, hfuel with
  | [c], _, hlit, hsize, hfuel =>
    simp only [List.length_cons, List.length_nil] at hfuel
    rw [if_pos (by simp)]
    simp only [isLiteralText, Bool.not_eq_true', Bool.or_eq_false_iff, beq_eq_false_iff_ne,
      ne_eq] at hlit
    obtain ⟨⟨⟨h1, h2⟩, h3⟩, h4⟩ := hlit
    rw [secnStep_ordinary [c] { n := 0, isCodeSecn := true, vecStarts := [0] } c rfl h1 h2 h3 h4,
      switchTo_first]
    exact secnLoop_literal [c] f 1 [] [0, 0] rfl rfl rfl hsize (by simp; omega)
  | c :: e :: rest, _, hlit, hsize, hfuel =>
    simp only [List.length_cons] at hfuel
    rw [if_pos (by simp; omega)]
    by_cases hbs : c = '\\'
    · subst hbs
      simp only [isLiteralText, if_true, Bool.and_eq_true] at hlit
      obtain ⟨hesc, hrest⟩ := hlit
      rw [secnStep_escape ('\\' :: e :: rest) { n := 0, isCodeSecn := true, vecStarts := [0] } e
        rfl rfl hesc, switchTo_first]
      exact secnLoop_literal ('\\' :: e :: rest) f 2 rest [0, 0] (by simp; omega) rfl hrest
        hsize (by omega)
    · simp only [isLiteralText, if_neg hbs, Bool.and_eq_true, Bool.not_eq_true',
        Bool.or_eq_false_iff, beq_eq_false_iff_ne, ne_eq] at hlit
      obtain ⟨⟨⟨h2, h3⟩, h4⟩, hrest⟩ := hlit
      rw [secnStep_ordinary (c :: e :: rest) { n := 0, isCodeSecn := true, vecStarts := [0] } c
        rfl hbs h2 h3 h4, switchTo_first]
      exact secnLoop_literal (c :: e :: rest) f 1 (e :: rest) [0, 0] (by simp; omega) rfl hrest
        hsize (by simp; omega)

/-- Witness of C23: the text `a\\b\~c` (an escaped backslash and a no-break space escape). -/
theorem getSecnStarts_literal_witness :
    getSecnStarts 9 "a\\\\b\\~c".toList = .ok [0, 0, "a\\\\b\\~c".toList.length] :=
  getSecnStarts_literal "a\\\\b\\~c".toList 9 (by decide) (by decide) (by decide) (by decide)

/-! ## The order of the boundary list -/

theorem indexOfChar_range (s : QString) (c : Char) (start : Int) (h0 : 0 ≤ start) :
    indexOfChar s c start = -1
      ∨ (start ≤ indexOfChar s c start ∧ indexOfChar s c start < s.length) := by
  unfold indexOfChar
  have hcl : clampFrom s start = start.toNat := by
    unfold clampFrom
    rw [if_neg (by omega)]
  rw [hcl]
  rcases findIdx_eq_neg_one_or (fun d => d == c) (s.drop start.toNat) (start.toNat : Int)
    with h | ⟨h1, h2⟩
  · left; exact h
  · right
    have hlen : ((s.drop start.toNat).length : Int) ≤ (s.length : Int) - start.toNat
        ∨ (s.drop start.toNat).length = 0 := by
      rw [List.length_drop]
      omega
    have hst : (start.toNat : Int) = start := Int.toNat_of_nonneg h0
    constructor
    · omega
    · rcases hlen with h | h
      · omega
      · rw [h] at h2
        omega

theorem switchTo_n (b : Bool) (st : SecnState) : (switchTo b st).n = st.n := by
  unfold switchTo
  split <;> rfl

theorem secnStep_n (t : QString) (st : SecnState) : (secnStep t st).n = scanNext t st.n := by
  unfold scanNext secnStep
  simp only [switchTo_n]
  split_ifs <;> simp only [switchTo_n]

theorem orderedUpTo_mono (v : List Nat) (n m : Int) (h : orderedUpTo v n) (hnm : n ≤ m) :
    orderedUpTo v m :=
  ⟨h.1, fun x hx => le_trans (h.2 x hx) hnm⟩

theorem orderedUpTo_push (v : List Nat) (n : Int) (k : Nat) (h : orderedUpTo v n)
    (hnk : n ≤ (k : Int)) : orderedUpTo (v ++ [k]) k := by
  constructor
  · rw [List.pairwise_append]
    refine ⟨h.1, List.pairwise_singleton _ _, ?_⟩
    intro a ha b hb
    simp only [List.mem_singleton] at hb
    subst hb
    have := h.2 a ha
    omega
  · intro x hx
    rcases List.mem_append.mp hx with hx | hx
    · have := h.2 x hx
      omega
    · simp only [List.mem_singleton] at hx
      subst hx
      exact le_refl _

theorem toUInt_of_range (n : Int) (h0 : 0 ≤ n) (h1 : n < 4294967296) : (toUInt n : Int) = n := by
  unfold toUInt
  omega

theorem switchTo_ordered (b : Bool) (st : SecnState) (h0 : 0 ≤ st.n) (h1 : st.n < 4294967296)
    (h : orderedUpTo st.vecStarts st.n) : orderedUpTo (switchTo b st).vecStarts st.n := by
  unfold switchTo
  split
  · have := orderedUpTo_push st.vecStarts st.n (toUInt st.n) h
      (by rw [toUInt_of_range _ h0 h1])
    rw [toUInt_of_range _ h0 h1] at this
    exact this
  · exact h

theorem insertBeforeLast_concat (L : List Nat) (b v : Nat) :
    insertBeforeLast (L ++ [b]) v = L ++ [v, b] := by
  unfold insertBeforeLast
  rw [List.dropLast_concat]
  have : (L ++ [b]).drop ((L ++ [b]).length - 1) = [b] := by
    simp
  rw [this]

theorem exists_two_last (vec : List Nat) (h : 2 < vec.length) :
    ∃ l a b, vec = l ++ [a, b] := by
  rcases List.eq_nil_or_concat vec with h0 | ⟨L, b, hL⟩
  · rw [h0] at h; simp at h
  · rcases List.eq_nil_or_concat L with h1 | ⟨l, a, hl⟩
    · rw [hL, h1] at h; simp at h
    · exact ⟨l, a, b, by rw [hL, hl]; simp⟩

theorem pairwise_insert_two (l : List Nat) (a v b : Nat)
    (hp : (l ++ [a, b]).Pairwise (· ≤ ·)) (hav : a ≤ v) (hvb : v ≤ b) :
    (l ++ [a, v, v, b]).Pairwise (· ≤ ·) := by
  rw [List.pairwise_append] at hp ⊢
  obtain ⟨hl, hab, hcross⟩ := hp
  have hab' : a ≤ b := (List.pairwise_cons.mp hab).1 b (by simp)
  refine ⟨hl, ?_, ?_⟩
  · apply List.Pairwise.cons
    · intro x hx
      simp only [List.mem_cons, List.mem_singleton, List.not_mem_nil, or_false] at hx
      rcases hx with hx | hx | hx <;> omega
    · apply List.Pairwise.cons
      · intro x hx
        simp only [List.mem_cons, List.mem_singleton, List.not_mem_nil, or_false] at hx
        rcases hx with hx | hx <;> omega
      · apply List.Pairwise.cons
        · intro x hx
          simp only [List.mem_singleton] at hx
          omega
        · exact List.pairwise_singleton _ _
  · intro x hx y hy
    have hxa : x ≤ a := hcross x hx a (by simp)
    simp only [List.mem_cons, List.mem_singleton, List.not_mem_nil, or_false] at hy
    rcases hy with hy | hy | hy | hy <;> omega

theorem stackSplit_ordered (t : QString) (vec : List Nat) (n : Int)
    (h : orderedUpTo vec n) : orderedUpTo (stackSplit t vec) n := by
  unfold stackSplit
  split
  · rename_i hlen
    obtain ⟨l, a, b, rfl⟩ := exists_two_last vec hlen
    dsimp only
    have hlast : (l ++ [a, b]).getLastD 0 = b := by simp
    have hprev : (l ++ [a, b]).getD ((l ++ [a, b]).length - 2) 0 = a := by
      have : (l ++ [a, b]).length - 2 = l.length := by simp
      rw [this, List.getD_eq_getElem?_getD, List.getElem?_append_right (le_refl _)]
      simp
    rw [hlast, hprev]
    split
    · rename_i hge
      split
      · rename_i hlt
        have e1 : l ++ [a, b] = (l ++ [a]) ++ [b] := by simp
        rw [e1, insertBeforeLast_concat]
        have e2 : (l ++ [a]) ++ [backToSpace t b + 1, b]
            = ((l ++ [a]) ++ [backToSpace t b + 1]) ++ [b] := by simp
        rw [e2, insertBeforeLast_concat]
        have e3 : ((l ++ [a]) ++ [backToSpace t b + 1]) ++ [backToSpace t b + 1, b]
            = l ++ [a, backToSpace t b + 1, backToSpace t b + 1, b] := by simp
        rw [e3]
        obtain ⟨hp, hb⟩ := h
        refine ⟨pairwise_insert_two l a _ b hp (by omega) (by omega), ?_⟩
        intro x hx
        have hbn := hb b (by simp)
        rcases List.mem_append.mp hx with hx | hx
        · exact hb x (List.mem_append_left _ hx)
        · simp only [List.mem_cons, List.mem_singleton, List.not_mem_nil, or_false] at hx
          rcases hx with hx | hx | hx | hx
          · exact hb x (by simp [hx])
          · subst hx; push_cast; omega
          · subst hx; push_cast; omega
          · subst hx; exact hbn
      · exact h
    · exact h
  · exact h

theorem ordered_step (t : QString) (n k : Int) (v : List Nat) (hv : orderedUpTo v n)
    (hk : n < k) (hk2 : k ≤ (t.length : Int) + 1) :
    k = 0 ∨ (n < k ∧ k ≤ (t.length : Int) + 1 ∧ orderedUpTo v k) :=
  Or.inr ⟨hk, hk2, orderedUpTo_mono _ _ _ hv (le_of_lt hk)⟩

/-- One pass of the scan loop either sends the position back to 0 (a code whose semicolon is
missing) or moves it forward and keeps the boundary list in order. -/
theorem secnStep_ordered (t : QString) (st : SecnState) (hsize : t.length < 2147483648)
    (h0 : 0 ≤ st.n) (hlt : st.n < t.length) (hg : orderedUpTo st.vecStarts st.n) :
    (secnStep t st).n = 0
      ∨ (st.n < (secnStep t st).n ∧ (secnStep t st).n ≤ (t.length : Int) + 1
          ∧ orderedUpTo (secnStep t st).vecStarts (secnStep t st).n) := by
  have hsT := switchTo_ordered true st h0 (by omega) hg
  have hsF := switchTo_ordered false st h0 (by omega) hg
  unfold secnStep
  dsimp only
  simp only [switchTo_n]
  by_cases hbs : toLatin1 (charAt t st.n) = '\\'
  · rw [if_pos hbs]
    by_cases hesc : inSet "\\\x7b\x7d~" (charAt t (st.n + 1)) = true
    · rw [if_pos hesc]
      exact ordered_step t st.n (st.n + 1 + 1) _ hsF (by omega) (by omega)
    · rw [if_neg hesc]
      by_cases h1 : inSet "OLKolk" (charAt t (st.n + 1)) = true
      · rw [if_pos h1]
        exact ordered_step t st.n (st.n + 1 + 1) _ hsT (by omega) (by omega)
      · rw [if_neg h1]
        by_cases h2 : inSet "ACFfHpQTWX" (charAt t (st.n + 1)) = true
        · rw [if_pos h2]
          rcases indexOfChar_range t ';' (st.n + 1) (by omega) with h | ⟨ha, hb⟩
          · left
            show indexOfChar t ';' (st.n + 1) + 1 = 0
            rw [h]; rfl
          · exact ordered_step t st.n (indexOfChar t ';' (st.n + 1) + 1) _ hsT (by omega) (by omega)
        · rw [if_neg h2]
          by_cases h3 : charAt t (st.n + 1) = 'P'
          · rw [if_pos h3]
            exact ordered_step t st.n (st.n + 1 + 1) _ hsT (by omega) (by omega)
          · rw [if_neg h3]
            by_cases h4 : charAt t (st.n + 1) = 'S'
            · rw [if_pos h4]
              by_cases h5 : indexOfChar t ';' (st.n + 1) = -1
              · rw [if_pos h5]
                left
                show indexOfChar t ';' (st.n + 1) + 1 = 0
                rw [h5]; rfl
              · rw [if_neg h5]
                rcases indexOfChar_range t ';' (st.n + 1) (by omega) with h | ⟨ha, hb⟩
                · exact absurd h h5
                · right
                  have hm : (toUInt (indexOfChar t ';' (st.n + 1)) : Int)
                      = indexOfChar t ';' (st.n + 1) :=
                    toUInt_of_range _ (by omega) (by omega)
                  have hpush := orderedUpTo_push _ st.n
                    (toUInt (indexOfChar t ';' (st.n + 1)))
                    (stackSplit_ordered t _ _ hsT) (by rw [hm]; omega)
                  rw [hm] at hpush
                  exact ⟨by show st.n < indexOfChar t ';' (st.n + 1) + 1; omega,
                    by show indexOfChar t ';' (st.n + 1) + 1 ≤ (t.length : Int) + 1; omega,
                    orderedUpTo_mono _ (indexOfChar t ';' (st.n + 1))
                      (indexOfChar t ';' (st.n + 1) + 1) hpush (by omega)⟩
            · rw [if_neg h4]
              exact ordered_step t st.n (st.n + 1 + 1) _ hsT (by omega) (by omega)
  · rw [if_neg hbs]
    by_cases hc : toLatin1 (charAt t st.n) = '^'
    · rw [if_pos hc]
      by_cases hI : charAt t (st.n + 1) = 'I'
      · rw [if_pos hI]
        exact ordered_step t st.n (st.n + 1 + 1) _ hsT (by omega) (by omega)
      · rw [if_neg hI]
        exact ordered_step t st.n (st.n + 1) _ hg (by omega) (by omega)
    · rw [if_neg hc]
      by_cases hb : toLatin1 (charAt t st.n) = '\x7b' ∨ toLatin1 (charAt t st.n) = '\x7d'
      · rw [if_pos hb]
        exact ordered_step t st.n (st.n + 1) _ hsT (by omega) (by omega)
      · rw [if_neg hb]
        exact ordered_step t st.n (st.n + 1) _ hsF (by omega) (by omega)


/-- When the scan position comes back to 0 after `j + 1` passes that all stay inside the text,
the loop goes round for ever: from any state whose position is one of these `j + 1` positions
no fuel suffices. -/
theorem secnLoop_cycle (t : QString) (j : Nat)
    (hback : scanNext t ((scanNext t)^[j] 0) = 0)
    (hin : ∀ i ≤ j, 0 ≤ (scanNext t)^[i] 0 ∧ (scanNext t)^[i] 0 < (t.length : Int)) :
    ∀ (fuel : Nat) (st : SecnState), (∃ i ≤ j, st.n = (scanNext t)^[i] 0) →
      secnLoop t fuel st = .error .fuel := by
  intro fuel
  induction fuel with
  | zero => intro st _; rfl
  | succ fuel ih =>
    intro st ⟨i, hi, hn⟩
    rw [secnLoop, if_pos (by rw [hn]; exact (hin i hi).2)]
    apply ih
    rcases Nat.lt_or_ge i j with hlt | hge
    · exact ⟨i + 1, hlt, by rw [secnStep_n, hn, Function.iterate_succ_apply']⟩
    · have hij : i = j := by omega
      subst hij
      exact ⟨0, Nat.zero_le _, by rw [secnStep_n, hn, hback]; rfl⟩

theorem secnLoop_ordered (t : QString) (hsize : t.length < 2147483648) :
    ∀ (fuel : Nat) (st : SecnState) (r : List Nat) (j : Nat),
      0 ≤ st.n → st.n ≤ (t.length : Int) + 1 → orderedUpTo st.vecStarts st.n →
      st.n = (scanNext t)^[j] 0 →
      (∀ i < j, 0 ≤ (scanNext t)^[i] 0 ∧ (scanNext t)^[i] 0 < (t.length : Int)) →
      secnLoop t fuel st = .ok r → r.Pairwise (· ≤ ·) := by
  intro fuel
  induction fuel with
  | zero => intro st r j _ _ _ _ _ h; cases h
  | succ fuel ih =>
    intro st r j h0 hle hg hn hin h
    rw [secnLoop] at h
    by_cases hlt : st.n < (t.length : Int)
    · rw [if_pos hlt] at h
      have hin' : ∀ i ≤ j, 0 ≤ (scanNext t)^[i] 0 ∧ (scanNext t)^[i] 0 < (t.length : Int) := by
        intro i hi
        rcases Nat.lt_or_ge i j with h1 | h1
        · exact hin i h1
        · have hij : i = j := by omega
          subst hij
          rw [← hn]
          exact ⟨h0, hlt⟩
      have hnext : (secnStep t st).n = (scanNext t)^[j + 1] 0 := by
        rw [secnStep_n, hn, Function.iterate_succ_apply']
      rcases secnStep_ordered t st hsize h0 hlt hg with hz | ⟨h1, h2, h3⟩
      · have hdiv := secnLoop_cycle t j
          (by rw [← Function.iterate_succ_apply' (scanNext t) j 0, ← hnext]; exact hz) hin'
          fuel (secnStep t st) ⟨0, Nat.zero_le _, by rw [hz]; rfl⟩
        rw [hdiv] at h
        cases h
      · exact ih (secnStep t st) r (j + 1) (by omega) h2 h3 hnext
          (fun i hi => hin' i (by omega)) h
    · rw [if_neg hlt] at h
      simp only [Except.ok.injEq] at h
      rw [← h]
      have hu : (toUInt st.n : Int) = st.n := toUInt_of_range _ h0 (by omega)
      exact (orderedUpTo_push st.vecStarts st.n (toUInt st.n) hg (by rw [hu])).1

/-- C24: whenever `getSecnStarts` returns a boundary list for a source string (shorter than
2^31 characters), the offsets of the list are in non-decreasing order. -/
theorem getSecnStarts_ordered (t : QString) (fuel : Nat) (r : List Nat)
    (hsize : t.length < 2147483648) (h : getSecnStarts fuel t = .ok r) :
    r.Pairwise (· ≤ ·) := by
  unfold getSecnStarts at h
  exact secnLoop_ordered t hsize fuel _ r 0 (le_refl _) (by simp; omega)
    ⟨List.pairwise_singleton _ _, by simp⟩ rfl (fun i hi => by omega) h

/-- Witness of C24: the list of `x y\Sa^b;`, with the two boundaries inserted in front of the
stacking code and the boundary at its semicolon. -/
theorem getSecnStarts_ordered_witness :
    getSecnStarts 10 "x y\\Sa^b;".toList = .ok [0, 0, 2, 2, 3, 8, 9]
      ∧ ([0, 0, 2, 2, 3, 8, 9] : List Nat).Pairwise (· ≤ ·) :=
  ⟨by decide,
    getSecnStarts_ordered "x y\\Sa^b;".toList 10 [0, 0, 2, 2, 3, 8, 9] (by decide) (by decide)⟩


/-! ## `getSecn`, the alignment number, repeated `\P`, the reused tag, `setDecorations` -/

/-- C32, the claim as worded fails: for the non-decreasing boundary list
`[0, 0, 2, 2, 4, 9, 10]` (the list that `getSecnStarts` makes of the text `x ^y\Sa^b;`) and
the character index 3, which lies before the last boundary, `getSecn` returns 2, and section
2 is the empty range from 2 to 2; the index falls within section 3, from 2 to 4, where the
loop stops, and the statement after the loop steps back to the section before, because the
boundaries 2 and 3 are equal. -/
theorem getSecn_steps_back_to_empty_section :
    getSecnStarts 11 "x ^y\\Sa^b;".toList = .ok [0, 0, 2, 2, 4, 9, 10]
      ∧ getSecn 3 [0, 0, 2, 2, 4, 9, 10] = 2
      ∧ getSecnBack 3 [0, 0, 2, 2, 4, 9, 10] 6 = 3
      ∧ ¬ ([0, 0, 2, 2, 4, 9, 10].getD (getSecn 3 [0, 0, 2, 2, 4, 9, 10]) 0 ≤ 3
            ∧ 3 < [0, 0, 2, 2, 4, 9, 10].getD (getSecn 3 [0, 0, 2, 2, 4, 9, 10] + 1) 0)
      ∧ ([0, 0, 2, 2, 4, 9, 10].getD 3 0 ≤ 3 ∧ 3 < [0, 0, 2, 2, 4, 9, 10].getD 4 0) := by
  refine ⟨by decide, by decide, by decide, by decide, by decide⟩

/-- Where the loop of `getSecn` stops: at index 0, or at the last index, not after the one it
started from, whose boundary does not exceed `nchr`. -/
theorem getSecnBack_spec (nchr : Nat) (v : List Nat) :
    ∀ k : Nat, getSecnBack nchr v k ≤ k
      ∧ (getSecnBack nchr v k = 0 ∨ v.getD (getSecnBack nchr v k) 0 ≤ nchr)
      ∧ ∀ i, getSecnBack nchr v k < i → i ≤ k → nchr < v.getD i 0 := by
  intro k
  induction k with
  | zero =>
    rw [getSecnBack]
    exact ⟨le_refl _, Or.inl rfl, fun i h1 h2 => by omega⟩
  | succ k ih =>
    rw [getSecnBack]
    split
    · rename_i hgt
      obtain ⟨h1, h2, h3⟩ := ih
      refine ⟨by omega, h2, fun i hi hik => ?_⟩
      rcases Nat.lt_or_ge i (k + 1) with h | h
      · exact h3 i hi (by omega)
      · have : i = k + 1 := by omega
        rw [this]
        exact hgt
    · rename_i hgt
      exact ⟨le_refl _, Or.inr (by omega), fun i h1 h2 => by omega⟩

/-- C32, amended: for every boundary list `v` of at most 65536 entries with `v[0] = 0` and
every `nchr` less than the last boundary, there is an index `j` with
`v[j] <= nchr < v[j+1]`, the last one whose boundary does not exceed `nchr`, and `getSecn`
returns `j`, unless `j > 0` and `v[j-1] = v[j]`: then it returns `j - 1`, the index of the
empty section that stands directly before the section holding `nchr`. -/
theorem getSecn_section (v : List Nat) (nchr : Nat) (hlen : v.length ≤ 65536)
    (h0 : v[0]? = some 0) (hlast : ∃ l, v.getLast? = some l ∧ nchr < l) :
    ∃ j, j + 1 < v.length ∧ v.getD j 0 ≤ nchr ∧ nchr < v.getD (j + 1) 0
      ∧ (∀ i, j < i → i < v.length → nchr < v.getD i 0)
      ∧ getSecn nchr v = if 0 < j ∧ v.getD (j - 1) 0 = v.getD j 0 then j - 1 else j := by
  obtain ⟨l, hl, hnl⟩ := hlast
  have hpos : 0 < v.length := by
    rcases Nat.eq_zero_or_pos v.length with h | h
    · rw [List.length_eq_zero.mp h] at h0; cases h0
    · exact h
  have hmod : (v.length - 1) % 65536 = v.length - 1 := Nat.mod_eq_of_lt (by omega)
  have hv0 : v.getD 0 0 = 0 := by
    rw [List.getD_eq_getElem?_getD, h0]; rfl
  have hvl : v.getD (v.length - 1) 0 = l := by
    rw [List.getD_eq_getElem?_getD, ← List.getLast?_eq_getElem?, hl]; rfl
  obtain ⟨h1, h2, h3⟩ := getSecnBack_spec nchr v (v.length - 1)
  have hle : v.getD (getSecnBack nchr v (v.length - 1)) 0 ≤ nchr := by
    rcases h2 with h | h
    · rw [h, hv0]; exact Nat.zero_le _
    · exact h
  have hlt : getSecnBack nchr v (v.length - 1) < v.length - 1 := by
    rcases Nat.lt_or_ge (getSecnBack nchr v (v.length - 1)) (v.length - 1) with h | h
    · exact h
    · have he : getSecnBack nchr v (v.length - 1) = v.length - 1 := by omega
      rw [he, hvl] at hle
      omega
  refine ⟨getSecnBack nchr v (v.length - 1), by omega, hle, h3 _ (by omega) (by omega),
    fun i hi hiv => h3 i hi (by omega), ?_⟩
  unfold getSecn
  rw [hmod]

/-- Witness of C32, amended: in the boundary list `[0, 0, 1, 3, 4, 8, 12]` of the text
`a\Pb\A1;cdef` the character index 5 lies in section 4, from 4 to 8, which `getSecn`
returns. -/
theorem getSecn_section_witness :
    ∃ j, j + 1 < [0, 0, 1, 3, 4, 8, 12].length ∧ [0, 0, 1, 3, 4, 8, 12].getD j 0 ≤ 5
      ∧ 5 < [0, 0, 1, 3, 4, 8, 12].getD (j + 1) 0
      ∧ (∀ i, j < i → i < [0, 0, 1, 3, 4, 8, 12].length → 5 < [0, 0, 1, 3, 4, 8, 12].getD i 0)
      ∧ getSecn 5 [0, 0, 1, 3, 4, 8, 12]
          = if 0 < j ∧ [0, 0, 1, 3, 4, 8, 12].getD (j - 1) 0 = [0, 0, 1, 3, 4, 8, 12].getD j 0
            then j - 1 else j :=
  getSecn_section [0, 0, 1, 3, 4, 8, 12] 5 (by decide) rfl ⟨12, rfl, by decide⟩

/-- C33: for every `a` from 1 to 9, `setAlignment(a)` followed by `getAlignment()` returns
`a`; and `getAlignment()` returns a value from 1 to 9 on every object. -/
theorem setAlignment_getAlignment (m : RS_MText) (a : Int) (h1 : 1 ≤ a) (h9 : a ≤ 9) :
    (m.setAlignment a).getAlignment = a ∧ 1 ≤ m.getAlignment ∧ m.getAlignment ≤ 9 := by
  refine ⟨?_, ?_⟩
  · interval_cases a <;> simp only [RS_MText.setAlignment, RS_MText.getAlignment] <;> decide!
  · unfold RS_MText.getAlignment
    split <;> decide

/-- Witness of C33: the alignment number 5 on the sample glyph holder. -/
theorem setAlignment_getAlignment_witness :
    (fittingLeaf.setAlignment 5).getAlignment = 5
      ∧ 1 ≤ fittingLeaf.getAlignment ∧ fittingLeaf.getAlignment ≤ 9 :=
  setAlignment_getAlignment fittingLeaf 5 (by decide) (by decide)

/-- One `\P` tag applied to a style state: the first one sets the break mode and clears the
extra clearance, a further one adds one line height. -/
theorem applyCode_P (d : RS_MTextData) (codetag : LC_CodeTag)
    (hcode : toLatin1 (if codetag.text.length > 1 then charAt codetag.text 1
                       else charAt codetag.text 0) = 'P') :
    d.applyCode codetag
      = .ok (if d.linebreak = MTextBreakMode.ForceNow then
          { d with vertClear := d.vertClear + d.height * STDLINESPACE * d.lineSpacingFactor }
        else { d with linebreak := .ForceNow, vertClear := 0 }) := by
  unfold RS_MTextData.applyCode
  dsimp only
  rw [hcode]
  simp only [show ¬ ('P' = 'F' ∨ 'P' = 'f') by decide, show ¬ 'P' = 'H' by decide,
    show ¬ 'P' = 'W' by decide, show ¬ 'P' = 'p' by decide, if_false, if_true]
  split <;> rfl

/-- Further `\P` tags applied to a state that is already in the forced-break mode: each adds
one line height to the extra clearance. -/
theorem applyCode_P_further (tags : List LC_CodeTag) (d : RS_MTextData)
    (hmode : d.linebreak = MTextBreakMode.ForceNow)
    (hP : ∀ t ∈ tags, toLatin1 (if t.text.length > 1 then charAt t.text 1
                                else charAt t.text 0) = 'P') :
    tags.foldlM RS_MTextData.applyCode d
      = .ok { d with vertClear := d.vertClear
                + (tags.length : ℚ) * (d.height * STDLINESPACE * d.lineSpacingFactor) } := by
  induction tags generalizing d with
  | nil =>
    simp only [List.foldlM_nil, List.length_nil, Nat.cast_zero, zero_mul, add_zero]
    rfl
  | cons t ts ih =>
    rw [List.foldlM_cons, applyCode_P d t (hP t (List.mem_cons_self _ _)), if_pos hmode]
    refine (ih { d with vertClear := d.vertClear
        + d.height * STDLINESPACE * d.lineSpacingFactor } hmode
      (fun u hu => hP u (List.mem_cons_of_mem _ hu))).trans ?_
    congr 1
    simp only [List.length_cons, Nat.cast_add, Nat.cast_one]
    congr 1
    ring

/-- C35: from a style state whose break mode is not force-now, `k >= 1` tags with the code
letter `P` applied in a row by `applyCode` give the state with break mode force-now and
`vertClear = (k - 1) * height * 1.666667 * lineSpacingFactor`; every other field is as
before. -/
theorem applyCode_repeated_P (d : RS_MTextData) (tags : List LC_CodeTag)
    (hmode : d.linebreak ≠ MTextBreakMode.ForceNow) (hk : 1 ≤ tags.length)
    (hP : ∀ t ∈ tags, toLatin1 (if t.text.length > 1 then charAt t.text 1
                                else charAt t.text 0) = 'P') :
    tags.foldlM RS_MTextData.applyCode d
      = .ok { d with linebreak := .ForceNow,
                     vertClear := ((tags.length : ℚ) - 1) * d.height * (1666667 / 1000000)
                                    * d.lineSpacingFactor } := by
  cases tags with
  | nil => simp at hk
  | cons t ts =>
    rw [List.foldlM_cons, applyCode_P d t (hP t (List.mem_cons_self _ _)), if_neg hmode]
    refine (applyCode_P_further ts { d with linebreak := .ForceNow, vertClear := 0 } rfl
      (fun u hu => hP u (List.mem_cons_of_mem _ hu))).trans ?_
    congr 1
    simp only [List.length_cons, Nat.cast_add, Nat.cast_one, STDLINESPACE]
    congr 1
    ring

/-- Witness of C35: three `\P` tags on the sample style data leave two line heights of extra
clearance. -/
theorem applyCode_repeated_P_witness :
    [({ sampleEnv.uninitTag with text := "\\P".toList } : LC_CodeTag),
      { sampleEnv.uninitTag with text := "\\P".toList },
      { sampleEnv.uninitTag with text := "\\P".toList }].foldlM RS_MTextData.applyCode
        (sampleData "x".toList)
      = .ok { sampleData "x".toList with
                linebreak := .ForceNow,
                vertClear := (((3 : Nat) : ℚ) - 1) * 9 * (1666667 / 1000000) * 1 } :=
  applyCode_repeated_P (sampleData "x".toList)
    [{ sampleEnv.uninitTag with text := "\\P".toList },
      { sampleEnv.uninitTag with text := "\\P".toList },
      { sampleEnv.uninitTag with text := "\\P".toList }]
    (by decide) (by decide) (by decide)

/-- C38: the setting tag `\H2;` loaded at the cursor 0 into a tag object whose `isstack` flag
is clear gives `endtag = 4` and the tag text `\H2;`; loaded into a tag object that held a
stacking tag before (`isstack` set) it gives `endtag = 3` and the tag text `\H2`: the
flag left by the previous load is read by `getFinalEnd` before `loadFrom` resets it. So also
in the source `\S1/2;\H2;`: the load at the cursor 0 leaves the flag set, and the load at the
cursor 6 into that same object ends at 9, where a tag object with a clear flag ends at 10. -/
theorem loadFrom_depends_on_previous_tag (fuel : Nat) :
    (LC_CodeTag.loadFrom fuel { sampleEnv.uninitTag with isstack := false }
        "\\H2;".toList 0).map (fun t => (t.endtag, t.text, t.isstack))
      = .ok (4, "\\H2;".toList, false)
    ∧ (LC_CodeTag.loadFrom fuel { sampleEnv.uninitTag with isstack := true }
        "\\H2;".toList 0).map (fun t => (t.endtag, t.text, t.isstack))
      = .ok (3, "\\H2".toList, false)
    ∧ ∃ prev, LC_CodeTag.loadFrom fuel sampleEnv.uninitTag "\\S1/2;\\H2;".toList 0 = .ok prev
        ∧ prev.isstack = true
        ∧ (LC_CodeTag.loadFrom fuel prev "\\S1/2;\\H2;".toList 6).map (fun t => t.endtag)
            = .ok 9
        ∧ (LC_CodeTag.loadFrom fuel { prev with isstack := false }
            "\\S1/2;\\H2;".toList 6).map (fun t => t.endtag) = .ok 10 := by
  refine ⟨?_, ?_, (⟨"\\S1/2".toList, true, 0, 0, [], 0, 5⟩ : LC_CodeTag), ?_, rfl, ?_, ?_⟩
  all_goals rw [loadFrom_fuel_irrelevant fuel _ _ _ (by decide)]
  all_goals decide!

/-- The loop over the children in `setDecorations` returns a list exactly when every child is
an `RS_MText` whose own `setDecorations` returns; the list holds the children in order, each
with the child list that its own `setDecorations` left. -/
theorem setDecorationsAll_iff (ents ents' : List RS_Entity) :
    setDecorationsAll ents = .ok ents'
      ↔ List.Forall₂ (fun e e' => ∃ core es es', e = .mtext core es ∧ e' = .mtext core es'
          ∧ setDecorations core.data core.minV core.maxV es = .ok es') ents ents' := by
  induction ents generalizing ents' with
  | nil =>
    rw [setDecorationsAll]
    constructor
    · intro h
      injection h with h
      subst h
      exact List.Forall₂.nil
    · intro h
      cases h
      rfl
  | cons e rest ih =>
    cases e with
    | insert n ip mn mx =>
      rw [setDecorationsAll.eq_def]
      dsimp only
      constructor
      · intro h; cases h
      · intro h
        cases h with
        | cons h1 _ =>
          obtain ⟨_, _, _, he, _⟩ := h1
          cases he
    | line a b =>
      rw [setDecorationsAll.eq_def]
      dsimp only
      constructor
      · intro h; cases h
      · intro h
        cases h with
        | cons h1 _ =>
          obtain ⟨_, _, _, he, _⟩ := h1
          cases he
    | mtext core es =>
      rw [setDecorationsAll]
      constructor
      · intro h
        cases h1 : setDecorations core.data core.minV core.maxV es with
        | error f => rw [h1] at h; cases h
        | ok es' =>
          rw [h1] at h
          dsimp only at h
          cases h2 : setDecorationsAll rest with
          | error f => rw [h2] at h; cases h
          | ok rest' =>
            rw [h2] at h
            dsimp only at h
            injection h with h
            subst h
            exact List.Forall₂.cons ⟨core, es, es', rfl, rfl, h1⟩ ((ih rest').mp h2)
      · intro h
        cases h with
        | cons h1 h2 =>
          obtain ⟨core', es0, es', he, he', h1⟩ := h1
          cases he
          subst he'
          rw [h1, (ih _).mpr h2]

/-- C39: `setDecorations` on a node `m`. With a decoration other than none and `multiLine`
false it appends exactly one line entity, from `(minV.x, minV.y - 0.33 * height)` to
`(maxV.x, minV.y - 0.33 * height)`, after the children, which stay as they are. On a node
that is no glyph holder, with decoration none or `multiLine` true, it returns a child list
exactly when every child is an `RS_MText` whose own `setDecorations` returns, and the list
then holds the same children in order (nothing appended), each with the child list that its
own `setDecorations` left. On a glyph holder with decoration none it changes nothing. -/
theorem setDecorations_cases (m : RS_MText) :
    (m.data.decoration ≠ MTextDecor.None → m.data.multiLine = false →
      setDecorations m.data m.minV m.maxV m.entities
        = .ok (m.entities ++ [.line ⟨m.minV.x, m.minV.y - 33 / 100 * m.data.height⟩
                                    ⟨m.maxV.x, m.minV.y - 33 / 100 * m.data.height⟩]))
    ∧ (m.hasGlyphs = false → (m.data.decoration = MTextDecor.None ∨ m.data.multiLine = true) →
        ∀ ents', setDecorations m.data m.minV m.maxV m.entities = .ok ents'
          ↔ List.Forall₂ (fun e e' => ∃ core es es', e = .mtext core es ∧ e' = .mtext core es'
              ∧ setDecorations core.data core.minV core.maxV es = .ok es') m.entities ents')
    ∧ (m.hasGlyphs = true → m.data.decoration = MTextDecor.None →
        setDecorations m.data m.minV m.maxV m.entities = .ok m.entities) := by
  refine ⟨?_, ?_, ?_⟩
  · intro hd hm
    rw [setDecorations.eq_def]
    dsimp only
    rw [if_pos ⟨hd, hm⟩]
    simp only [DROPUNDERLINE, mul_comm (33 / 100 : ℚ)]
  · intro hg hd ents'
    have hno : ¬ (m.data.decoration ≠ MTextDecor.None ∧ m.data.multiLine = false) := by
      rintro ⟨h1, h2⟩
      rcases hd with h | h
      · exact h1 h
      · rw [h] at h2; cases h2
    unfold RS_MText.hasGlyphs at hg
    rw [setDecorations.eq_def]
    dsimp only
    rw [if_neg hno, hg]
    exact setDecorationsAll_iff m.entities ents'
  · intro hg hd
    unfold RS_MText.hasGlyphs at hg
    rw [setDecorations.eq_def]
    dsimp only
    rw [if_neg (fun h => h.1 hd), hg]
    rfl

/-- Witness of C39: an underlined glyph holder gets its line, a composite without decoration
hands the call to its one child, and a glyph holder without decoration stays as it is. -/
theorem setDecorations_cases_witness :
    setDecorations { fittingLeaf.data with decoration := .Underline } fittingLeaf.minV
        fittingLeaf.maxV fittingLeaf.entities
      = .ok (fittingLeaf.entities ++ [.line ⟨0, -9 - 33 / 100 * 9⟩ ⟨1, -9 - 33 / 100 * 9⟩])
    ∧ setDecorations compositeOfOne.data compositeOfOne.minV compositeOfOne.maxV
        compositeOfOne.entities = .ok [fittingLeaf.toEntity]
    ∧ setDecorations fittingLeaf.data fittingLeaf.minV fittingLeaf.maxV fittingLeaf.entities
      = .ok fittingLeaf.entities :=
  ⟨(setDecorations_cases { fittingLeaf with
        data := { fittingLeaf.data with decoration := .Underline } }).1 (by decide) rfl,
    ((setDecorations_cases compositeOfOne).2.1 rfl (Or.inl rfl) [fittingLeaf.toEntity]).mpr
      (List.Forall₂.cons ⟨fittingLeaf.toMTextCore, fittingLeaf.entities, fittingLeaf.entities,
        rfl, rfl, (setDecorations_cases fittingLeaf).2.2 rfl rfl⟩ List.Forall₂.nil),
    (setDecorations_cases fittingLeaf).2.2 rfl rfl⟩

/-! ## The line return of `layout` -/

/-- The line-return test of `layout` after the move to the target `posnV`. -/
theorem wantsLineReturn_at_target (self : RS_MText) (posnV : RS_Vector) (leftMargin : ℚ) :
    (self.move (posnV - self.data.insertionPoint)).wantsLineReturn leftMargin
      = (decide (posnV.x > leftMargin)
          && ((self.data.linebreak == MTextBreakMode.ForceNow)
              || (self.data.hasListFormat && !self.data.isListText))) := by
  unfold RS_MText.wantsLineReturn
  rw [move_data, moved_insertionPoint, RS_Vector.add_sub_cancel']
  rfl

/-- The first part of `layout` when the line return is made: the object stands at the left
margin, one line and the extra clearance below the target, and the return vector is its
upper right corner. -/
theorem layoutStart_line_return (self : RS_MText) (posnV : RS_Vector) (leftMargin : ℚ)
    (hright : posnV.x > leftMargin)
    (hmode : self.data.linebreak = MTextBreakMode.ForceNow
      ∨ (self.data.hasListFormat = true ∧ self.data.isListText = false)) :
    (self.layoutStart posnV leftMargin).1.data
        = { self.data with insertionPoint := ⟨leftMargin,
              posnV.y - (self.data.height * STDLINESPACE * self.data.lineSpacingFactor
                          + self.data.vertClear)⟩ }
      ∧ (self.layoutStart posnV leftMargin).2 = (self.layoutStart posnV leftMargin).1.maxV
      ∧ (self.layoutStart posnV leftMargin).1.hasGlyphs = self.hasGlyphs := by
  have hw : (self.move (posnV - self.data.insertionPoint)).wantsLineReturn leftMargin
      = true := by
    rw [wantsLineReturn_at_target, decide_eq_true hright]
    rcases hmode with h | ⟨h1, h2⟩
    · rw [h]; rfl
    · rw [h1, h2]; simp
  unfold RS_MText.layoutStart
  dsimp only
  rw [if_pos hw]
  refine ⟨?_, rfl, ?_⟩
  · rw [move_data, move_data, moved_moved]
    unfold RS_MTextData.moved
    congr 1
    ext
    · simp
    · simp only [RS_Vector.add_y, RS_Vector.sub_y]
      ring
  · simp

/-- The first part of `layout` when the target is at or left of the left margin: no line
return, whatever the break mode. -/
theorem layoutStart_no_return (self : RS_MText) (posnV : RS_Vector) (leftMargin : ℚ)
    (hleft : posnV.x ≤ leftMargin) :
    (self.move (posnV - self.data.insertionPoint)).wantsLineReturn leftMargin = false
      ∧ self.layoutStart posnV leftMargin
          = (self.move (posnV - self.data.insertionPoint), posnV) := by
  have hw : (self.move (posnV - self.data.insertionPoint)).wantsLineReturn leftMargin
      = false := by
    rw [wantsLineReturn_at_target, decide_eq_false (not_lt.mpr hleft)]
    rfl
  refine ⟨hw, ?_⟩
  unfold RS_MText.layoutStart
  dsimp only
  rw [hw]
  simp only [Bool.false_eq_true, if_false, move_data, moved_insertionPoint,
    RS_Vector.add_sub_cancel']

/-- The backward scan of `wordwrap` reads only the right extents in x: a vertical move of the
glyphs does not change it. -/
theorem scanBack_moveAll_vertical (ents : List RS_Entity) (text : QString) (rightMarg y : ℚ) :
    ∀ (g : Nat) (t : Int),
      scanBack (RS_Entity.moveAll ⟨0, y⟩ ents) text rightMarg g t
        = scanBack ents text rightMarg g t := by
  intro g
  induction g with
  | zero => intro t; rfl
  | succ g ih =>
    intro t
    rw [scanBack, scanBack, moveAll_eq_map, List.getElem?_map]
    cases he : ents[g + 1]? with
    | none => rfl
    | some e =>
      simp only [Option.map_some', getMax_move, RS_Vector.add_x, add_zero]
      split
      · cases skipSpaces text (t - 1) with
        | error f => rfl
        | ok t' =>
          simp only
          rw [← moveAll_eq_map]
          exact ih t'
      · rfl

/-- When `wordwrap` on a glyph holder returns `true` and leaves a glyph holder, it has found
no place to break; it then does the same on the holder moved vertically, moving it to the left
margin and one line down. -/
theorem wordwrapGlyphs_whole_move (self s1 : RS_MText) (leftMarg rightMarg y : ℚ)
    (h : self.wordwrapGlyphs leftMarg rightMarg = .ok (true, s1))
    (hg1 : s1.hasGlyphs = true) :
    (self.move ⟨0, y⟩).wordwrapGlyphs leftMarg rightMarg
      = .ok (true, (self.move ⟨0, y⟩).move
          ((self.move ⟨0, y⟩).lineFeed
            (leftMarg - (self.move ⟨0, y⟩).data.insertionPoint.x))) := by
  have hsplit : ∀ (g : Nat) (t : Int),
      self.splitAt g t leftMarg = .ok (true, s1) → False := by
    intro g t hs
    obtain ⟨_, A, B, hAB⟩ := splitAt_entities _ _ _ _ _ _ hs
    have : s1.hasGlyphs = false := hasGlyphs_of_head_mtext _ _ _ _ hAB
    rw [this] at hg1
    cases hg1
  unfold RS_MText.wordwrapGlyphs at h ⊢
  dsimp only at h ⊢
  simp only [move_data, moved_text, move_entities, length_moveAll,
    scanBack_moveAll_vertical] at h ⊢
  cases hsb : scanBack self.entities self.data.text rightMarg (self.entities.length - 1)
      ((self.data.text.length : Int) - 1) with
  | error f => rw [hsb] at h; cases h
  | ok p =>
    obtain ⟨g, t⟩ := p
    rw [hsb] at h
    dsimp only at h ⊢
    by_cases hgl : g = self.entities.length - 1
    · rw [if_pos hgl] at h
      simp at h
    · rw [if_neg hgl] at h ⊢
      cases hd : derefTxt self.data.text (t + 1) with
      | error f => rw [hd] at h; cases h
      | ok c =>
        rw [hd] at h
        dsimp only at h ⊢
        by_cases hc : isSpace c = true
        · rw [if_pos hc] at h
          exact (hsplit _ _ h).elim
        · rw [if_neg hc] at h ⊢
          cases hsc : scanToSpace self.data.text g t with
          | error f => rw [hsc] at h; cases h
          | ok q =>
            obtain ⟨g', t'⟩ := q
            rw [hsc] at h
            dsimp only at h ⊢
            cases hd' : derefTxt self.data.text t' with
            | error f => rw [hd'] at h; cases h
            | ok c' =>
              rw [hd'] at h
              dsimp only at h ⊢
              by_cases hc' : isSpace c' = true
              · rw [if_pos hc'] at h
                exact (hsplit _ _ h).elim
              · rw [if_neg hc']

/-- A glyph holder at the left margin on which `wordwrap` finds no place to break makes the
loop `while (wordwrap(...))` run for ever: every call moves it one line down. -/
theorem wrapWhile_whole_move_diverges (leftMarg rightMarg : ℚ) :
    ∀ (fuel : Nat) (self : RS_MText), self.hasGlyphs = true →
      self.data.insertionPoint.x = leftMarg →
      (∃ s1, self.wordwrapGlyphs leftMarg rightMarg = .ok (true, s1) ∧ s1.hasGlyphs = true) →
      wrapWhile fuel self leftMarg rightMarg = .error .fuel := by
  intro fuel
  induction fuel with
  | zero => intro self _ _ _; rfl
  | succ fuel ih =>
    intro self hg hx hw
    obtain ⟨s1, hs1, hg1⟩ := hw
    rw [wrapWhile]
    cases fuel with
    | zero => simp [wordwrap]
    | succ fuel =>
      have h0 := wordwrapGlyphs_whole_move self s1 leftMarg rightMarg 0 hs1 hg1
      rw [RS_MText.move_origin] at h0
      have hfeed : self.lineFeed (leftMarg - self.data.insertionPoint.x)
          = ⟨0, -self.data.height * STDLINESPACE * self.data.lineSpacingFactor⟩ := by
        unfold RS_MText.lineFeed
        rw [hx, sub_self]
      rw [hfeed] at h0
      rw [wordwrap, if_pos hg, h0]
      simp only
      apply ih
      · simpa using hg
      · simp [hx]
      · exact ⟨_, wordwrapGlyphs_whole_move self s1 leftMarg rightMarg _ hs1 hg1, by simpa using hg⟩

/-- The object that `splitAt` leaves has the data of the object before, with `multiLine`
cleared. -/
theorem splitAt_data (self self' : RS_MText) (g : Nat) (t : Int) (leftMarg : ℚ) (b : Bool)
    (h : self.splitAt g t leftMarg = .ok (b, self')) :
    self'.data = { self.data with multiLine := false } := by
  unfold RS_MText.splitAt at h
  dsimp only at h
  split at h
  · simp only [Except.ok.injEq, Prod.mk.injEq] at h
    rw [← h.2]
  · cases h
  · cases h

/-- The insertion point after `wordwrap` on a glyph holder that is split or left alone. -/
theorem wordwrapGlyphs_insertionPoint (self self' : RS_MText) (leftMarg rightMarg : ℚ)
    (b : Bool) (h : self.wordwrapGlyphs leftMarg rightMarg = .ok (b, self'))
    (hstay : b = false ∨ self'.hasGlyphs = false) (hg : self.hasGlyphs = true) :
    self'.data.insertionPoint = self.data.insertionPoint := by
  have hmoved : ∀ δ, self' = self.move δ → b = true → False := by
    intro δ hs hb
    rcases hstay with h1 | h1
    · rw [h1] at hb; cases hb
    · rw [hs, hasGlyphs_move, hg] at h1; cases h1
  unfold RS_MText.wordwrapGlyphs at h
  dsimp only at h
  split at h
  · cases h
  · split at h
    · simp only [Except.ok.injEq, Prod.mk.injEq] at h
      rw [← h.2]
    · split at h
      · cases h
      · split at h
        · rw [splitAt_data _ _ _ _ _ _ h]
        · split at h
          · cases h
          · split at h
            · cases h
            · split at h
              · rw [splitAt_data _ _ _ _ _ _ h]
              · simp only [Except.ok.injEq, Prod.mk.injEq] at h
                exact (hmoved _ h.2.symm h.1.symm).elim

/-- When the loop `while (wordwrap(...))` on a glyph holder at the left margin ends, the
insertion point is where it was. -/
theorem wrapWhile_insertionPoint (leftMarg rightMarg : ℚ) (fuel : Nat) (self self' : RS_MText)
    (hg : self.hasGlyphs = true) (hx : self.data.insertionPoint.x = leftMarg)
    (h : wrapWhile fuel self leftMarg rightMarg = .ok self') :
    self'.data.insertionPoint = self.data.insertionPoint := by
  cases fuel with
  | zero => cases h
  | succ fuel =>
    have hall := h
    rw [wrapWhile] at h
    cases fuel with
    | zero => simp [wordwrap] at h
    | succ fuel =>
      rw [wordwrap, if_pos hg] at h
      cases hw : self.wordwrapGlyphs leftMarg rightMarg with
      | error f => rw [hw] at h; cases h
      | ok p =>
        obtain ⟨b, s1⟩ := p
        rw [hw] at h
        cases b with
        | false =>
          simp only [Except.ok.injEq] at h
          rw [← h]
          exact wordwrapGlyphs_insertionPoint _ _ _ _ _ hw (Or.inl rfl) hg
        | true =>
          simp only at h
          by_cases hg1 : s1.hasGlyphs = true
          · rw [wrapWhile_whole_move_diverges leftMarg rightMarg _ self hg hx
              ⟨s1, hw, hg1⟩] at hall
            cases hall
          · have hg1' : s1.hasGlyphs = false := by simpa using hg1
            have hip := wordwrapGlyphs_insertionPoint _ _ _ _ _ hw (Or.inr hg1') hg
            rw [wrapWhile] at h
            cases fuel with
            | zero => simp [wordwrap] at h
            | succ fuel =>
              rw [wordwrap, hg1'] at h
              simp only [Bool.false_eq_true, if_false] at h
              cases hl : wrapLast fuel s1.entities leftMarg rightMarg with
              | error f => rw [hl] at h; cases h
              | ok ents =>
                rw [hl] at h
                simp only [Except.ok.injEq] at h
                rw [← h]
                exact hip

/-- The glyph-holder branch of `layout` on an object that is no list text, whose break mode
is not `Never` and which stands at the left margin, leaves the insertion point where it
is. -/
theorem layoutGlyphs_insertionPoint (fuel : Nat) (self self' : RS_MText) (rtrnV c : RS_Vector)
    (leftMargin rightMargin : ℚ) (hg : self.hasGlyphs = true)
    (hlist : self.data.isListText = false)
    (hmode : self.data.linebreak ≠ MTextBreakMode.Never)
    (hx : self.data.insertionPoint.x = leftMargin)
    (h : self.layoutGlyphs fuel rtrnV leftMargin rightMargin = .ok (self', c)) :
    self'.data.insertionPoint = self.data.insertionPoint := by
  unfold RS_MText.layoutGlyphs at h
  rw [hlist] at h
  simp only [Bool.false_eq_true, if_false] at h
  split at h
  · simp only [Except.ok.injEq, Prod.mk.injEq] at h
    rw [← h.1]
  · unfold wrapAll at h
    split at h
    · cases h
    · rename_i s1 hw
      split at h
      · cases h
      · simp only [Except.ok.injEq, Prod.mk.injEq] at h
        rw [← h.1]
        exact wrapWhile_insertionPoint _ _ _ _ _ hg hx hw

/-- A result read through `toOption` and a projection comes from a returned value. -/
theorem toOption_map_eq_some {α β : Type} (x : Except Fault α) (f : α → β) (b : β)
    (h : x.toOption.map f = some b) : ∃ a, x = .ok a ∧ f a = b := by
  cases x with
  | error e => cases h
  | ok a => exact ⟨a, rfl, Option.some.inj h⟩

/-- A result read through `toOption` and a partial projection comes from a returned value. -/
theorem toOption_bind_eq_some {α β : Type} (x : Except Fault α) (f : α → Option β) (b : β)
    (h : x.toOption.bind f = some b) : ∃ a, x = .ok a ∧ f a = some b := by
  cases x with
  | error e => cases h
  | ok a => exact ⟨a, rfl, h⟩

/-- C34: for the text `a\Pb\A1;cdef` the multi-section branch of `setText` makes three child
runs, for `a`, `\Pb` and `\A1;cdef`. The break mode set by the one `\P` is still force-now
in the style state of the third child, the later sibling of the run that follows `\P`
(`resetOneUseVals` would have made it as-needed, but `setText` does not call it); so the
line-return step of `layout` takes that child to the left margin and one line down from
every target right of the margin, as it does for the second child. -/
theorem setText_forced_break_reaches_later_sibling :
    ∃ (node third : RS_MText), RS_MText.construct sampleEnv 12 false
        (sampleData "a\\Pb\\A1;cdef".toList) = .ok node
      ∧ node.entities.map (fun e => e.asMText.map
          (fun c => (c.data.text, c.data.linebreak, c.data.listText)))
        = [some ("a".toList, MTextBreakMode.AtNeed, false),
           some ("\\Pb".toList, MTextBreakMode.ForceNow, false),
           some ("\\A1;cdef".toList, MTextBreakMode.ForceNow, false)]
      ∧ node.entities[2]? = some third.toEntity
      ∧ third.data.linebreak = MTextBreakMode.ForceNow
      ∧ third.data.resetOneUseVals.linebreak = MTextBreakMode.AtNeed
      ∧ ∀ p : RS_Vector, p.x > 0 →
          (third.layoutStart p 0).1.data.insertionPoint = ⟨0, p.y - 15000003 / 1000000⟩ := by
  have h1 : ((RS_MText.construct sampleEnv 12 false
        (sampleData "a\\Pb\\A1;cdef".toList)).toOption.map
      (fun node => node.entities.map (fun e => e.asMText.map
          (fun c => (c.data.text, c.data.linebreak, c.data.listText)))))
      = some [some ("a".toList, MTextBreakMode.AtNeed, false),
           some ("\\Pb".toList, MTextBreakMode.ForceNow, false),
           some ("\\A1;cdef".toList, MTextBreakMode.ForceNow, false)] := by decide!
  have h2 : ((RS_MText.construct sampleEnv 12 false
        (sampleData "a\\Pb\\A1;cdef".toList)).toOption.bind
      (fun node => (node.entities[2]?.bind RS_Entity.asMText).map
          (fun c => (c.data.linebreak, c.data.height, c.data.lineSpacingFactor,
            c.data.vertClear))))
      = some (MTextBreakMode.ForceNow, 9, 1, 0) := by decide!
  obtain ⟨node, hnode, h1'⟩ := toOption_map_eq_some _ _ _ h1
  obtain ⟨node2, hnode2, h2'⟩ := toOption_bind_eq_some _ _ _ h2
  have hsame : node2 = node := Except.ok.inj (hnode2.symm.trans hnode)
  rw [hsame] at h2'
  clear h1 h2 hnode2 hsame node2
  revert h1' h2' hnode
  generalize RS_MText.construct sampleEnv 12 false (sampleData "a\\Pb\\A1;cdef".toList) = res
  intro hnode h1' h2'
  cases he : node.entities[2]? with
  | none => rw [he] at h2'; cases h2'
  | some e =>
    rw [he] at h2'
    cases ha : e.asMText with
    | none =>
      rw [Option.some_bind, ha] at h2'
      cases h2'
    | some third =>
      rw [Option.some_bind, ha] at h2'
      have h3 := Option.some.inj h2'
      simp only [Prod.mk.injEq] at h3
      obtain ⟨hlb, hh, hl, hv⟩ := h3
      refine ⟨node, third, hnode, h1', ?_, hlb, rfl, ?_⟩
      · rw [he, toEntity_of_asMText e third ha]
      · intro p hp
        rw [(layoutStart_line_return third p 0 hp (Or.inl hlb)).1]
        show (⟨0, p.y - (third.data.height * STDLINESPACE * third.data.lineSpacingFactor
          + third.data.vertClear)⟩ : RS_Vector) = _
        rw [hh, hl, hv]
        congr 1
        norm_num [STDLINESPACE]

/-! ## The two cursors of the backward scan in `wordwrap` -/

/-- C36: the glyph holder that `setText` builds for the text `a b ` (two glyphs, the text
ends with a space) and the right margin 10: the backward scan ends with the glyph cursor on
glyph 0, the glyph of `a`, and the text cursor on offset 2, the character `b`. The two
cursors start on the last glyph `b` and on the trailing space, and stay one place apart; the
split that follows gives the first fragment the whole text `a b ` with the glyph of `a`, and
the second fragment the empty text with the glyph of `b`. -/
theorem wordwrap_scan_cursors_out_of_step :
    ∃ leaf : RS_MText,
      RS_MText.construct sampleEnv 8 false (sampleData "a b ".toList) = .ok leaf
      ∧ leaf.hasGlyphs = true
      ∧ leaf.data.text = "a b ".toList
      ∧ leaf.entities = [.insert ['a'] ⟨0, -9⟩ ⟨0, -9⟩ ⟨6, 0⟩,
                         .insert ['b'] ⟨51 / 4, -9⟩ ⟨51 / 4, -9⟩ ⟨75 / 4, 0⟩]
      ∧ scanBack leaf.entities leaf.data.text 10 (leaf.entities.length - 1)
          ((leaf.data.text.length : Int) - 1) = .ok (0, 2)
      ∧ charAt leaf.data.text 2 = 'b'
      ∧ leaf.entities[0]? = some (.insert ['a'] ⟨0, -9⟩ ⟨0, -9⟩ ⟨6, 0⟩)
      ∧ (leaf.wordwrapGlyphs 0 10).toOption.map
          (fun r => r.2.entities.map (fun e => e.asMText.map
            (fun c => (c.data.text, c.entities.length))))
        = some [some ("a b ".toList, 1), some ([], 1)] := by
  have h1 : (RS_MText.construct sampleEnv 8 false (sampleData "a b ".toList)).toOption.map
      (fun m => (m.data.text, m.entities))
      = some ("a b ".toList, [.insert ['a'] ⟨0, -9⟩ ⟨0, -9⟩ ⟨6, 0⟩,
                         .insert ['b'] ⟨51 / 4, -9⟩ ⟨51 / 4, -9⟩ ⟨75 / 4, 0⟩]) := by decide!
  have h2 : (RS_MText.construct sampleEnv 8 false (sampleData "a b ".toList)).toOption.bind
      (fun m => (m.wordwrapGlyphs 0 10).toOption.map
          (fun r => r.2.entities.map (fun e => e.asMText.map
            (fun c => (c.data.text, c.entities.length)))))
      = some [some ("a b ".toList, 1), some ([], 1)] := by decide!
  obtain ⟨leaf, hleaf, h1'⟩ := toOption_map_eq_some _ _ _ h1
  obtain ⟨leaf2, hleaf2, h2'⟩ := toOption_bind_eq_some _ _ _ h2
  have hsame : leaf2 = leaf := Except.ok.inj (hleaf2.symm.trans hleaf)
  rw [hsame] at h2'
  clear h1 h2 hleaf2 hsame leaf2
  revert hleaf h1' h2'
  generalize RS_MText.construct sampleEnv 8 false (sampleData "a b ".toList) = res
  intro hleaf h1' h2'
  simp only [Prod.mk.injEq] at h1'
  obtain ⟨htext, hents⟩ := h1'
  refine ⟨leaf, hleaf, ?_, htext, hents, ?_, ?_, ?_, h2'⟩
  · unfold RS_MText.hasGlyphs
    rw [hents]
    rfl
  · rw [hents, htext]
    decide!
  · rw [htext]
    decide
  · rw [hents]
    rfl

/-! ## The first fragment of a split -/

/-- Where the backward scan of `wordwrap` stops: at glyph 0, or at a glyph whose right extent
does not exceed the right margin; never behind the glyph it started from. -/
theorem scanBack_stop (ents : List RS_Entity) (text : QString) (rightMarg : ℚ) :
    ∀ (g0 : Nat) (t0 : Int) (g : Nat) (t : Int),
      scanBack ents text rightMarg g0 t0 = .ok (g, t) →
      g ≤ g0 ∧ (g = 0 ∨ ∃ e, ents[g]? = some e ∧ e.getMax.x ≤ rightMarg) := by
  intro g0
  induction g0 with
  | zero =>
    intro t0 g t h
    rw [scanBack] at h
    simp only [Except.ok.injEq, Prod.mk.injEq] at h
    exact ⟨by omega, Or.inl h.1.symm⟩
  | succ g0 ih =>
    intro t0 g t h
    rw [scanBack] at h
    cases he : ents[g0 + 1]? with
    | none => rw [he] at h; cases h
    | some e =>
      rw [he] at h
      dsimp only at h
      by_cases hgt : e.getMax.x > rightMarg
      · rw [if_pos hgt] at h
        cases hs : skipSpaces text (t0 - 1) with
        | error f => rw [hs] at h; cases h
        | ok t' =>
          rw [hs] at h
          obtain ⟨h1, h2⟩ := ih t' g t h
          exact ⟨by omega, h2⟩
      · rw [if_neg hgt] at h
        simp only [Except.ok.injEq, Prod.mk.injEq] at h
        refine ⟨by omega, Or.inr ⟨e, ?_, not_lt.mp hgt⟩⟩
        rw [← h.1]
        exact he

/-- The scan back to a space never passes the glyph it started from. -/
theorem scanToSpace_le (text : QString) :
    ∀ (g : Nat) (t : Int) (g' : Nat) (t' : Int),
      scanToSpace text g t = .ok (g', t') → g' ≤ g := by
  intro g
  induction g with
  | zero =>
    intro t g' t' h
    rw [scanToSpace] at h
    simp only [Except.ok.injEq, Prod.mk.injEq] at h
    omega
  | succ g ih =>
    intro t g' t' h
    rw [scanToSpace] at h
    cases hd : derefTxt text t with
    | error f => rw [hd] at h; cases h
    | ok c =>
      rw [hd] at h
      dsimp only at h
      split at h
      · have := ih _ _ _ h
        omega
      · simp only [Except.ok.injEq, Prod.mk.injEq] at h
        omega

/-- The last character of `left(t + 1)` is the character at offset `t`. -/
theorem left_getLast (text : QString) (t : Int) (h0 : 0 ≤ t) (h1 : t < text.length) :
    (left text (t + 1)).getLast? = some (charAt text t) := by
  obtain ⟨n, rfl⟩ := Int.eq_ofNat_of_zero_le h0
  have hn : n < text.length := by exact_mod_cast h1
  have hc : charAt text (n : Int) = text[n] := by
    rw [charAt_natCast, List.getD_eq_getElem?_getD, List.getElem?_eq_getElem hn]
    rfl
  rw [hc]
  unfold left
  split
  · rename_i hfull
    have hlen : text.length = n + 1 := by omega
    rw [List.getLast?_eq_getElem?, List.getElem?_eq_getElem (by omega)]
    simp only [hlen, Nat.add_sub_cancel]
  · rename_i hpart
    have e1 : ((n : Int) + 1).toNat = n + 1 := by omega
    rw [e1, List.getLast?_eq_getElem?, List.length_take,
      Nat.min_eq_left (by omega), Nat.add_sub_cancel, List.getElem?_take_of_lt (by omega),
      List.getElem?_eq_getElem hn]

/-- In a list of entities whose right extents do not decrease, the entities up to one whose
right extent is within a bound are all within that bound. -/
theorem take_succ_within (ents : List RS_Entity) (rightMarg : ℚ) (g : Nat) (eg : RS_Entity)
    (hmono : ents.Pairwise (fun a b => a.getMax.x ≤ b.getMax.x))
    (hg : ents[g]? = some eg) (hle : eg.getMax.x ≤ rightMarg) :
    ∀ e ∈ ents.take (g + 1), e.getMax.x ≤ rightMarg := by
  have hp : (ents.take (g + 1)).Pairwise (fun a b => a.getMax.x ≤ b.getMax.x) :=
    hmono.sublist (List.take_sublist _ _)
  rw [List.take_succ, hg] at hp ⊢
  simp only [Option.toList_some, List.mem_append, List.mem_singleton] at hp ⊢
  intro e he
  rcases he with he | he
  · exact le_trans ((List.pairwise_append.mp hp).2.2 e he eg (List.mem_singleton_self _)) hle
  · rw [he]; exact hle

/-- What `splitAt` makes of a glyph holder: two glyph holders, the first with the glyphs
before the split index and the text before the split offset. -/
theorem splitAt_front (self self' : RS_MText) (g : Nat) (t : Int) (leftMarg : ℚ) (b : Bool)
    (h : self.splitAt g t leftMarg = .ok (b, self')) :
    ∃ A B : RS_MText, self'.entities = [A.toEntity, B.toEntity]
      ∧ A.hasGlyphs = true ∧ B.hasGlyphs = true
      ∧ A.entities = self.entities.take g
      ∧ A.data.text = left self.data.text t := by
  unfold RS_MText.splitAt at h
  simp only at h
  split at h
  · rename_i front last hfront hlast
    injection h with h
    have hs : _ = self' := congrArg Prod.snd h
    obtain ⟨ft, fe, _, ⟨ef, hef, hefi⟩⟩ := resetFrom_fresh _ _ _ _ _ _ hfront
    obtain ⟨lt, le, ⟨el, hel, heli⟩, _⟩ := resetFrom_fresh _ _ _ _ _ _ hlast
    simp only [List.drop_zero] at fe hef
    rw [List.take_length] at le
    refine ⟨front, last.move (self.lineFeed (leftMarg - last.data.insertionPoint.x)),
      ?_, ?_, ?_, fe, ft⟩
    · rw [← hs]
    · unfold RS_MText.hasGlyphs
      rw [fe]
      cases htk : List.take g self.entities with
      | nil => rw [htk] at hef; cases hef
      | cons a as =>
        rw [htk] at hef
        simp only [List.head?_cons, Option.some.injEq] at hef
        subst hef
        exact hefi
    · rw [hasGlyphs_move]
      unfold RS_MText.hasGlyphs
      rw [le]
      have hhead : (List.drop g self.entities).head? = some el := by
        rw [List.head?_drop]; exact hel
      cases hdr : List.drop g self.entities with
      | nil => rw [hdr] at hhead; cases hhead
      | cons a as =>
        rw [hdr] at hhead
        simp only [List.head?_cons, Option.some.injEq] at hhead
        subst hhead
        simpa [RS_Entity.moveAll] using heli
  · cases h
  · cases h

/-- C37: whenever `wordwrap` splits a glyph holder (it is no glyph holder afterwards) whose
glyph right extents do not decrease from left to right and whose first glyph's right extent
does not exceed `rightMarg`, it leaves two fragments that both hold glyphs; every glyph of
the first fragment has a right extent of at most `rightMarg`, and the text of the first
fragment ends with a whitespace character. -/
theorem wordwrap_split_first_fragment (fuel : Nat) (self self' : RS_MText)
    (leftMarg rightMarg : ℚ) (b : Bool)
    (hglyph : self.hasGlyphs = true)
    (hmono : self.entities.Pairwise (fun a b => a.getMax.x ≤ b.getMax.x))
    (hfirst : ∀ e, self.entities[0]? = some e → e.getMax.x ≤ rightMarg)
    (hrun : wordwrap fuel self leftMarg rightMarg = .ok (b, self'))
    (hsplit : self'.hasGlyphs = false) :
    ∃ A B : RS_MText, self'.entities = [A.toEntity, B.toEntity]
      ∧ A.hasGlyphs = true ∧ B.hasGlyphs = true
      ∧ (∀ e ∈ A.entities, e.getMax.x ≤ rightMarg)
      ∧ ∃ c, A.data.text.getLast? = some c ∧ isSpace c = true := by
  have hne : self.entities ≠ [] := hasGlyphs_entities_ne_nil self hglyph
  have hlen : 0 < self.entities.length := List.length_pos.mpr hne
  -- the glyphs up to an index at which the backward scan can stop are within the margin
  have hwithin : ∀ g : Nat, g ≤ self.entities.length - 1 →
      (g = 0 ∨ ∃ e, self.entities[g]? = some e ∧ e.getMax.x ≤ rightMarg) →
      ∀ e ∈ self.entities.take (g + 1), e.getMax.x ≤ rightMarg := by
    intro g hg hstop
    have hlt : g < self.entities.length := by omega
    have hget : self.entities[g]? = some self.entities[g] := List.getElem?_eq_getElem hlt
    refine take_succ_within self.entities rightMarg g self.entities[g] hmono hget ?_
    rcases hstop with h0 | ⟨e, he, hle⟩
    · subst h0
      exact hfirst _ hget
    · rw [hget] at he
      rw [Option.some.inj he]
      exact hle
  have key : ∀ (g : Nat) (t : Int) (c : Char), g ≤ self.entities.length - 1 →
      (∀ e ∈ self.entities.take (g + 1), e.getMax.x ≤ rightMarg) →
      derefTxt self.data.text t = .ok c → isSpace c = true →
      self.splitAt (g + 1) (t + 1) leftMarg = .ok (b, self') →
      ∃ A B : RS_MText, self'.entities = [A.toEntity, B.toEntity]
        ∧ A.hasGlyphs = true ∧ B.hasGlyphs = true
        ∧ (∀ e ∈ A.entities, e.getMax.x ≤ rightMarg)
        ∧ ∃ c, A.data.text.getLast? = some c ∧ isSpace c = true := by
    intro g t c _ hw hc hsp h
    obtain ⟨A, B, he, hA, hB, hAe, hAt⟩ := splitAt_front self self' (g + 1) (t + 1) leftMarg b h
    obtain ⟨h0, h1⟩ := derefTxt_space _ _ _ hc hsp
    refine ⟨A, B, he, hA, hB, ?_, charAt self.data.text t, ?_, ?_⟩
    · rw [hAe]; exact hw
    · rw [hAt]; exact left_getLast _ _ h0 h1
    · have hcc : c = charAt self.data.text t := by
        unfold derefTxt at hc
        rw [if_pos ⟨h0, le_of_lt h1⟩] at hc
        exact (Except.ok.inj hc).symm
      rw [← hcc]; exact hsp
  cases fuel with
  | zero => cases hrun
  | succ fuel =>
    rw [wordwrap, if_pos hglyph] at hrun
    unfold RS_MText.wordwrapGlyphs at hrun
    simp only at hrun
    split at hrun
    · cases hrun
    · rename_i g t hscan
      obtain ⟨hg0, hstop⟩ := scanBack_stop _ _ _ _ _ _ _ hscan
      split at hrun
      · injection hrun with hrun
        have hs : self = self' := congrArg Prod.snd hrun
        rw [← hs, hglyph] at hsplit
        cases hsplit
      · split at hrun
        · cases hrun
        · rename_i c hc
          split at hrun
          · rename_i hsp
            have h2 : t + 2 = (t + 1) + 1 := by ring
            rw [h2] at hrun
            exact key g (t + 1) c hg0 (hwithin g hg0 hstop) hc hsp hrun
          · split at hrun
            · cases hrun
            · rename_i g' t' hscan'
              have hg' : g' ≤ g := scanToSpace_le _ _ _ _ _ hscan'
              split at hrun
              · cases hrun
              · rename_i c' hc'
                split at hrun
                · rename_i hsp'
                  have hw := hwithin g hg0 hstop
                  have hw' : ∀ e ∈ self.entities.take (g' + 1), e.getMax.x ≤ rightMarg := by
                    intro e he
                    exact hw e ((List.take_sublist_take_left self.entities
                      (show g' + 1 ≤ g + 1 by omega)).subset he)
                  exact key g' t' c' (by omega) hw' hc' hsp' hrun
                · injection hrun with hrun
                  have hs : _ = self' := congrArg Prod.snd hrun
                  rw [← hs, hasGlyphs_move, hglyph] at hsplit
                  cases hsplit

/-- Witness of C37: the glyph holder of the text `a b` against the margins `0` and `2` is
split after the space; the first fragment holds the glyph of `a` and the text `a `. -/
theorem wordwrap_split_first_fragment_witness :
    ∃ A B : RS_MText, twoWordSplit.entities = [A.toEntity, B.toEntity]
      ∧ A.hasGlyphs = true ∧ B.hasGlyphs = true
      ∧ (∀ e ∈ A.entities, e.getMax.x ≤ 2)
      ∧ ∃ c, A.data.text.getLast? = some c ∧ isSpace c = true :=
  wordwrap_split_first_fragment 1 twoWordLeaf twoWordSplit 0 2 true (by decide) (by decide!)
    (by intro e he; cases he; decide!) (by decide!) (by decide)

/-! ## An unbreakable glyph holder with more glyphs than characters -/

/-- C8: the glyph holder that `setText` builds for the text `a\~b` has four glyphs (one for
the character put in place of `\~` and one for the null character read behind the end of the
shortened text) and a text of three characters without whitespace, and its last glyph reaches
x = 33, beyond the right margin 10. `wordwrap` does not push it down and return `true`: the
backward scan steps the text cursor back once per glyph, leaves the text at its front and
reads there, which is undefined. -/
theorem wordwrap_unbroken_scan_leaves_text (fuel : Nat) :
    ∃ leaf : RS_MText,
      RS_MText.construct sampleEnv 8 false (sampleData "a\\~b".toList) = .ok leaf
      ∧ leaf.hasGlyphs = true
      ∧ leaf.entities.length = 4
      ∧ leaf.data.text = ['a', nbspReplacement, 'b']
      ∧ (∀ c ∈ leaf.data.text, isSpace c = false)
      ∧ (∃ e, leaf.entities.getLast? = some e ∧ e.getMax.x = 33 ∧ e.getMax.x > 10)
      ∧ scanBack leaf.entities leaf.data.text 10 (leaf.entities.length - 1)
          ((leaf.data.text.length : Int) - 1) = .error .undefined
      ∧ wordwrap (fuel + 1) leaf 0 10 = .error .undefined := by
  have h1 : (RS_MText.construct sampleEnv 8 false (sampleData "a\\~b".toList)).toOption.map
      (fun m => (m.data.text, m.entities))
      = some (['a', nbspReplacement, 'b'],
          [.insert ['a'] ⟨0, -9⟩ ⟨0, -9⟩ ⟨6, 0⟩,
           .insert [nbspReplacement] ⟨9, -9⟩ ⟨9, -9⟩ ⟨15, 0⟩,
           .insert ['b'] ⟨18, -9⟩ ⟨18, -9⟩ ⟨24, 0⟩,
           .insert [NUL] ⟨27, -9⟩ ⟨27, -9⟩ ⟨33, 0⟩]) := by decide!
  obtain ⟨leaf, hleaf, h1'⟩ := toOption_map_eq_some _ _ _ h1
  clear h1
  revert hleaf
  generalize RS_MText.construct sampleEnv 8 false (sampleData "a\\~b".toList) = res
  intro hleaf
  simp only [Prod.mk.injEq] at h1'
  obtain ⟨htext, hents⟩ := h1'
  have hg : leaf.hasGlyphs = true := by
    unfold RS_MText.hasGlyphs
    rw [hents]
    rfl
  have hscan : scanBack leaf.entities leaf.data.text 10 (leaf.entities.length - 1)
      ((leaf.data.text.length : Int) - 1) = .error .undefined := by
    rw [hents, htext]
    decide!
  refine ⟨leaf, hleaf, hg, ?_, htext, ?_, ?_, hscan, ?_⟩
  · rw [hents]
    rfl
  · rw [htext]
    decide
  · rw [hents]
    exact ⟨_, rfl, rfl, by decide!⟩
  · rw [wordwrap, if_pos hg]
    unfold RS_MText.wordwrapGlyphs
    dsimp only
    rw [hscan]
end MText
